import Mathlib

/-!
# jsonparser: lexer and recursive-descent parser of `src/main.cc`

A shallow embedding of `Lexer` and `parse_json`.

* The input stream `FILE *_fp` is the list of characters still unread; every
  element stands for one byte delivered by `fgetc`.
* A C `int` holding a character (`c`, `_putback`, a token type) is an `Int`;
  `EOF` is `-1`, a character is its code.
* `errx(EX_USAGE, ...)` ends the process: it is the outcome `fail msg`.
* `parse_json`, `parse_json_obj`, `parse_json_arr` recurse through each other
  and through their `while` loops; they take a fuel argument that bounds the
  depth of the calls, and `outOfFuel` is an outcome of its own, distinct from
  every error of the program.
* `atof` is the C library conversion; it is a parameter `atof : List Char → D`
  of the parser, `D` standing for `double`.
-/

namespace JsonParser

/-! ## Outcomes -/

/-- Result of running a piece of the program: a value, the message of an
`errx` call, or exhaustion of the fuel given to the model. -/
inductive Outcome (α : Type) where
  | ok (a : α)
  | fail (msg : String)
  | outOfFuel

/-- Sequencing of outcomes: the first failure ends the run. -/
def Outcome.bind {α β : Type} (x : Outcome α) (f : α → Outcome β) : Outcome β :=
  match x with
  | .ok a => f a
  | .fail msg => .fail msg
  | .outOfFuel => .outOfFuel

/-! ## Characters -/

/-- The value `EOF` of `<cstdio>`. -/
def EOF : Int := -1

/-- The function `isdigit` in the C locale, on an `int`. -/
def isdigit (c : Int) : Bool := decide (48 ≤ c) && decide (c ≤ 57)

/-- The function `isalpha` in the C locale, on an `int`. -/
def isalpha (c : Int) : Bool :=
  (decide (65 ≤ c) && decide (c ≤ 90)) || (decide (97 ≤ c) && decide (c ≤ 122))

/-- The function `isspace` in the C locale: space, `\t`, `\n`, `\v`, `\f`, `\r`. -/
def isspace (c : Int) : Bool := decide (c = 32) || (decide (9 ≤ c) && decide (c ≤ 13))

/-- The code of a character as a C `int`. -/
def code (ch : Char) : Int := (ch.toNat : Int)

/-- The character appended by `str += c` for an `int c`. -/
def toChar (c : Int) : Char := Char.ofNat c.toNat

/-- The call `fgetc(_fp)`: the next character and the rest of the stream, or
`EOF` when the stream is exhausted. -/
def fgetc : List Char → Int × List Char
  | [] => (EOF, [])
  | ch :: fp => (code ch, fp)

/-! ## Tokens -/

def TOK_EOF : Int := EOF
def TOK_LBRACE : Int := 123
def TOK_RBRACE : Int := 125
def TOK_LBRACK : Int := 91
def TOK_RBRACK : Int := 93
def TOK_COMMA : Int := 44
def TOK_COLON : Int := 58
def TOK_STR : Int := 256
def TOK_NUM : Int := 257
def TOK_TRUE : Int := 258
def TOK_FALSE : Int := 259

/-- The table `g_tok_names`; `none` is `g_tok_names.end()`. -/
def g_tok_names (t : Int) : Option String :=
  if t = TOK_EOF then some "TOK_EOF"
  else if t = TOK_LBRACE then some "TOK_LBRACE"
  else if t = TOK_RBRACE then some "TOK_RBRACE"
  else if t = TOK_LBRACK then some "TOK_LBRACK"
  else if t = TOK_RBRACK then some "TOK_RBRACK"
  else if t = TOK_COMMA then some "TOK_COMMA"
  else if t = TOK_COLON then some "TOK_COLON"
  else if t = TOK_STR then some "TOK_STR"
  else if t = TOK_NUM then some "TOK_NUM"
  else if t = TOK_TRUE then some "TOK_TRUE"
  else if t = TOK_FALSE then some "TOK_FALSE"
  else none

/-- The struct `Token`: literal text and type tag. -/
structure Token where
  _lex : List Char
  _type : Int

/-- The method `Token::Name`, for a type of the table. -/
def Token.Name (t : Token) : String := (g_tok_names t._type).getD ""

/-! ## Lexer -/

/-- The class `Lexer`: current token, unread input, one-character pushback
(`0` when empty). -/
structure Lexer where
  _curr : Token
  _fp : List Char
  _putback : Int

/-- The constructor `Lexer(FILE *fp)`. -/
def Lexer.init (fp : List Char) : Lexer := ⟨⟨[], TOK_EOF⟩, fp, 0⟩

/-- The loop of `read_str`, entered after the first `fgetc`: characters are
appended to `str` until a quote or `EOF`; `EOF` is the error. The result is the
string and the stream after the closing quote. -/
def read_str_loop (str : List Char) : List Char → Outcome (List Char × List Char)
  | [] => .fail "malformed string"
  | ch :: fp =>
    if code ch = 34 then .ok (str, fp) else read_str_loop (str ++ [toChar (code ch)]) fp

/-- The method `Lexer::read_str`. -/
def read_str (fp : List Char) : Outcome (List Char × List Char) := read_str_loop [] fp

/-- The loop `while (isdigit(c)) { num += c; c = fgetc(_fp); }` of `read_num`:
the text accumulated, the character that stopped the loop, the stream. -/
def read_digits (num : List Char) (c : Int) (fp : List Char) : List Char × Int × List Char :=
  if isdigit c then
    match fp with
    | [] => (num ++ [toChar c], EOF, [])
    | ch :: fp1 => read_digits (num ++ [toChar c]) (code ch) fp1
  else (num, c, fp)

/-- The method `Lexer::read_num`: the literal text, the value stored in
`_putback`, and the stream. The exponent is scanned inside the branch of the
fraction, as in the source. -/
def read_num (first : Int) (fp : List Char) : List Char × Int × List Char :=
  match read_digits [] first fp with
  | (num, c, fp) =>
    if c = 46 then
      match fgetc fp with
      | (c, fp) =>
        match read_digits (num ++ [toChar 46]) c fp with
        | (num, c, fp) =>
          if c = 101 ∨ c = 69 then
            match fgetc fp with
            | (c1, fp1) =>
              if c1 = 43 ∨ c1 = 45 then
                match fgetc fp1 with
                | (c2, fp2) => read_digits (num ++ [toChar c] ++ [toChar c1]) c2 fp2
              else read_digits (num ++ [toChar c]) c1 fp1
          else (num, c, fp)
    else (num, c, fp)

/-- The loop `while (isalpha(c)) { b += c; c = fgetc(_fp); }` of `read_bool`. -/
def read_alpha (b : List Char) (c : Int) (fp : List Char) : List Char × Int × List Char :=
  if isalpha c then
    match fp with
    | [] => (b ++ [toChar c], EOF, [])
    | ch :: fp1 => read_alpha (b ++ [toChar c]) (code ch) fp1
  else (b, c, fp)

/-- The method `Lexer::read_bool`: the token type, the value stored in
`_putback`, and the stream; an unknown word is the error. -/
def read_bool (first : Int) (fp : List Char) : Outcome (Int × Int × List Char) :=
  match read_alpha [] first fp with
  | (b, c, fp) =>
    if b = "true".toList then .ok (TOK_TRUE, c, fp)
    else if b = "false".toList then .ok (TOK_FALSE, c, fp)
    else .fail ("expected bool, got " ++ String.mk b)

/-- One pass through the body of the `for (;;)` of `Lexer::Next` with the
character `c` in hand: `some` is the `return`, `none` is the end of the body
(the `continue` of whitespace, and the fall-through of a character that no
branch takes), after which the loop reads the next character. -/
def Next_body (c : Int) (fp : List Char) : Option (Outcome Lexer) :=
  if isspace c then none
  else if c = EOF ∨ c = 123 ∨ c = 125 ∨ c = 91 ∨ c = 93 ∨ c = 44 ∨ c = 58 then
    some (.ok ⟨⟨[], c⟩, fp, 0⟩)
  else if c = 34 then
    some ((read_str fp).bind fun r => .ok ⟨⟨r.1, TOK_STR⟩, r.2, 0⟩)
  else if isdigit c then
    match read_num c fp with
    | (num, pb, fp1) => some (.ok ⟨⟨num, TOK_NUM⟩, fp1, pb⟩)
  else if isalpha c then
    some ((read_bool c fp).bind fun r => .ok ⟨⟨[], r.1⟩, r.2.2, r.2.1⟩)
  else none

/-- The loop of `Lexer::Next` once `_putback` is empty: every character comes
from `fgetc`. At the end of the stream `fgetc` gives `EOF`, which is `case EOF`. -/
def Next_scan : List Char → Outcome Lexer
  | [] => .ok ⟨⟨[], TOK_EOF⟩, [], 0⟩
  | ch :: fp =>
    match Next_body (code ch) fp with
    | some r => r
    | none => Next_scan fp

/-- The method `Lexer::Next`: the first character is `_putback` when it is not
`'\0'`, and `_putback` is cleared. -/
def Lexer.Next (lex : Lexer) : Outcome Lexer :=
  if lex._putback ≠ 0 then
    match Next_body lex._putback lex._fp with
    | some r => r
    | none => Next_scan lex._fp
  else Next_scan lex._fp

/-- The method `Lexer::Match`. -/
def Lexer.Match (lex : Lexer) (type : Int) : Outcome Lexer :=
  match g_tok_names type with
  | none => .fail ("expected an invalid type: " ++ toString type)
  | some name =>
    if lex._curr._type ≠ type then
      .fail ("expected " ++ name ++ ", got " ++ lex._curr.Name)
    else lex.Next

/-! ## Parse tree -/

/-- The struct `json_node`, one constructor for each value of `_type`. The
`unordered_map` of an object is a list of key and child, one entry for a key. -/
inductive json_node (D : Type) where
  | obj (_obj : List (List Char × json_node D))
  | arr (_arr : List (json_node D))
  | str (_str : List Char)
  | num (_num : D)
  | bool (_bool : Bool)

/-- The assignment `n->_obj[key] = val` on the entries of a map: the entry of
`key` is overwritten, or a new entry is added. -/
def obj_set {V : Type} : List (List Char × V) → List Char → V → List (List Char × V)
  | [], key, val => [(key, val)]
  | (k, v) :: m, key, val =>
    if k = key then (key, val) :: m else (k, v) :: obj_set m key val

/-- The lookup of a key in the entries of a map. -/
def obj_get {V : Type} : List (List Char × V) → List Char → Option V
  | [], _ => none
  | (k, v) :: m, key => if k = key then some v else obj_get m key

/-! ## Parser -/

mutual

/-- The function `parse_json`. -/
def parse_json {D : Type} (atof : List Char → D) :
    Nat → Lexer → Outcome (json_node D × Lexer)
  | 0, _ => .outOfFuel
  | fuel + 1, lex =>
    let t := lex._curr._type
    if t = TOK_LBRACE then parse_json_obj atof fuel lex
    else if t = TOK_LBRACK then parse_json_arr atof fuel lex
    else if t = TOK_STR then
      (lex.Match TOK_STR).bind fun lex1 => .ok (.str lex._curr._lex, lex1)
    else if t = TOK_NUM then
      (lex.Match TOK_NUM).bind fun lex1 => .ok (.num (atof lex._curr._lex), lex1)
    else if t = TOK_TRUE ∨ t = TOK_FALSE then
      lex.Next.bind fun lex1 => .ok (.bool (decide (t = TOK_TRUE)), lex1)
    else .fail ("unknown token type: " ++ toString t)

/-- The function `parse_json_obj`. -/
def parse_json_obj {D : Type} (atof : List Char → D) :
    Nat → Lexer → Outcome (json_node D × Lexer)
  | 0, _ => .outOfFuel
  | fuel + 1, lex =>
    (lex.Match TOK_LBRACE).bind fun lex1 =>
    (parse_json_obj_loop atof fuel [] lex1).bind fun r =>
    (r.2.Match TOK_RBRACE).bind fun lex2 => .ok (.obj r.1, lex2)

/-- The `while` loop of `parse_json_obj`, on the entries of `n->_obj`. -/
def parse_json_obj_loop {D : Type} (atof : List Char → D) :
    Nat → List (List Char × json_node D) → Lexer →
      Outcome (List (List Char × json_node D) × Lexer)
  | 0, _, _ => .outOfFuel
  | fuel + 1, n, lex =>
    if lex._curr._type ≠ TOK_EOF ∧ lex._curr._type ≠ TOK_RBRACE then
      let key := lex._curr._lex
      (lex.Match TOK_STR).bind fun lex1 =>
      (lex1.Match TOK_COLON).bind fun lex2 =>
      (parse_json atof fuel lex2).bind fun r =>
      (if r.2._curr._type = TOK_COMMA then r.2.Match TOK_COMMA else .ok r.2).bind fun lex3 =>
      parse_json_obj_loop atof fuel (obj_set n key r.1) lex3
    else .ok (n, lex)

/-- The function `parse_json_arr`. -/
def parse_json_arr {D : Type} (atof : List Char → D) :
    Nat → Lexer → Outcome (json_node D × Lexer)
  | 0, _ => .outOfFuel
  | fuel + 1, lex =>
    (lex.Match TOK_LBRACK).bind fun lex1 =>
    (parse_json_arr_loop atof fuel [] lex1).bind fun r =>
    (r.2.Match TOK_RBRACK).bind fun lex2 => .ok (.arr r.1, lex2)

/-- The `while` loop of `parse_json_arr`, on the elements of `n->_arr`. -/
def parse_json_arr_loop {D : Type} (atof : List Char → D) :
    Nat → List (json_node D) → Lexer → Outcome (List (json_node D) × Lexer)
  | 0, _, _ => .outOfFuel
  | fuel + 1, n, lex =>
    if lex._curr._type ≠ TOK_EOF ∧ lex._curr._type ≠ TOK_RBRACK then
      (parse_json atof fuel lex).bind fun r =>
      (if r.2._curr._type = TOK_COMMA then r.2.Match TOK_COMMA else .ok r.2).bind fun lex1 =>
      parse_json_arr_loop atof fuel (n ++ [r.1]) lex1
    else .ok (n, lex)

end

/-- The body of `main` up to the parse: `lex.Next()` on a fresh lexer over the
input, then `parse_json(lex)`. The result is the tree and the lexer left. -/
def parse {D : Type} (atof : List Char → D) (fuel : Nat) (input : List Char) :
    Outcome (json_node D × Lexer) :=
  (Lexer.init input).Next.bind fun lex => parse_json atof fuel lex

/-! ## Documents: text of a tree, and the tree a text denotes -/

/-- A text without the quote character. -/
def NoQuote (s : List Char) : Prop := ∀ ch ∈ s, code ch ≠ 34

instance (s : List Char) : Decidable (NoQuote s) := by unfold NoQuote; infer_instance

/-- A run of decimal digits. -/
def Digits (ds : List Char) : Prop := ∀ ch ∈ ds, isdigit (code ch) = true

instance (ds : List Char) : Decidable (Digits ds) := by unfold Digits; infer_instance

/-- A run of whitespace characters. -/
def IsWs (w : List Char) : Prop := ∀ ch ∈ w, isspace (code ch) = true

instance (w : List Char) : Decidable (IsWs w) := by unfold IsWs; infer_instance

/-- The exponent part that `read_num` scans after a fraction: nothing, or
`e`/`E`, an optional sign and digits. -/
def ExpPart (ex : List Char) : Prop :=
  ex = [] ∨ ∃ e sg ds, ex = e :: (sg ++ ds) ∧ (e = 'e' ∨ e = 'E') ∧
    (sg = [] ∨ sg = ['+'] ∨ sg = ['-']) ∧ Digits ds

/-- The fraction part that `read_num` scans: nothing, or `.`, digits and an
exponent part. -/
def FracPart (fr : List Char) : Prop :=
  fr = [] ∨ ∃ ds ex, fr = '.' :: (ds ++ ex) ∧ Digits ds ∧ ExpPart ex

/-- A number literal of the shape `read_num` scans: digits, then an optional
fraction, the exponent only after a fraction. -/
def NumLit (l : List Char) : Prop :=
  ∃ ds fr, l = ds ++ fr ∧ ds ≠ [] ∧ Digits ds ∧ FracPart fr

/-- A character (or `EOF`) that cannot continue a number or a keyword: not a
digit, not a letter, none of `.`, `+`, `-`. -/
def stops (c : Int) : Bool :=
  !isdigit c && !isalpha c && decide (c ≠ 46) && decide (c ≠ 43) && decide (c ≠ 45)

/-- The text `rest` may follow a value: it is empty or starts with a character
that cannot continue a number or a keyword. -/
def Follow (rest : List Char) : Prop := stops (fgetc rest).1 = true

/-- The token types on which `parse_json` builds a value. -/
def ValueStart (t : Int) : Prop :=
  t = TOK_LBRACE ∨ t = TOK_LBRACK ∨ t = TOK_STR ∨ t = TOK_NUM ∨ t = TOK_TRUE ∨ t = TOK_FALSE

/-- The text `e` is read as the value `v`: in front of every text `rest` that
may follow a value, the first token of `e` is lexed, it starts a value, and
`parse_json` with fuel `2 * e.length` or more returns `v` as soon as the token
after `e` is lexed, leaving the lexer as `Next` on `rest` leaves it. -/
def ParsesTo {D : Type} (atof : List Char → D) (e : List Char) (v : json_node D) : Prop :=
  1 ≤ e.length ∧ ∀ rest, Follow rest → ∃ lex, Next_scan (e ++ rest) = .ok lex ∧
    ValueStart lex._curr._type ∧
    ∀ fuel, 2 * e.length ≤ fuel →
      parse_json atof fuel lex = (Next_scan rest).bind fun lex1 => .ok (v, lex1)

/-- What may stand between two members of a container: whitespace, with or
without one comma in it. -/
def Sep (g : List Char) : Prop :=
  (∃ w1 w2, IsWs w1 ∧ IsWs w2 ∧ g = w1 ++ ',' :: w2) ∨ IsWs g

/-- The text between `[` and `]` of an array, with the elements it is read as:
whitespace alone, or the text of a value, a separator that may follow that
value, and the text of the remaining elements. -/
inductive ArrBody {D : Type} (atof : List Char → D) : List Char → List (json_node D) → Prop where
  | nil (w : List Char) : IsWs w → ArrBody atof w []
  | cons (e g T : List Char) (v : json_node D) (vs : List (json_node D)) :
      ParsesTo atof e v → Sep g → Follow (g ++ (T ++ [']'])) → ArrBody atof T vs →
      ArrBody atof (e ++ (g ++ T)) (v :: vs)

/-- The text between `{` and `}` of an object, with the members in the order
of the text: whitespace alone, or a key between quotes, `:`, the text of a
value, a separator, and the text of the remaining members. -/
inductive ObjBody {D : Type} (atof : List Char → D) :
    List Char → List (List Char × json_node D) → Prop where
  | nil (w : List Char) : IsWs w → ObjBody atof w []
  | cons (k wk e g T : List Char) (v : json_node D) (ms : List (List Char × json_node D)) :
      NoQuote k → IsWs wk → ParsesTo atof e v → Sep g → Follow (g ++ (T ++ ['}'])) →
      ObjBody atof T ms →
      ObjBody atof ('"' :: (k ++ '"' :: (wk ++ ':' :: (e ++ (g ++ T))))) ((k, v) :: ms)

/-- The entries of the map after the assignments `n->_obj[key] = val` of the
members `ms`, in their order, on the entries `n`. -/
def obj_set_all {V : Type} (n : List (List Char × V)) (ms : List (List Char × V)) :
    List (List Char × V) :=
  ms.foldl (fun a p => obj_set a p.1 p.2) n

/-- The comma written in front of the members that remain, none after the last. -/
def comma_if {α : Type} : List α → List Char
  | [] => []
  | _ :: _ => [',']

mutual

/-- The text of a tree, as the round-trip property of the spec writes it (the
repository has no serialiser of its own): an object as `{`, the members
`"key":value` separated by commas, `}`; an array as `[`, the values separated
by commas, `]`; a string between quotes; a boolean as `true` or `false`; a
number as the text `fmt` gives for it. -/
def serialise {X : Type} (fmt : X → List Char) : json_node X → List Char
  | .obj ms => '{' :: (serialise_members fmt ms ++ ['}'])
  | .arr vs => '[' :: (serialise_items fmt vs ++ [']'])
  | .str s => '"' :: (s ++ ['"'])
  | .num x => fmt x
  | .bool b => if b then ['t', 'r', 'u', 'e'] else ['f', 'a', 'l', 's', 'e']

/-- The elements of an array, separated by commas. -/
def serialise_items {X : Type} (fmt : X → List Char) : List (json_node X) → List Char
  | [] => []
  | v :: vs => serialise fmt v ++ (comma_if vs ++ serialise_items fmt vs)

/-- The members of an object, separated by commas. -/
def serialise_members {X : Type} (fmt : X → List Char) :
    List (List Char × json_node X) → List Char
  | [] => []
  | (k, v) :: ms =>
    '"' :: (k ++ '"' :: ':' :: (serialise fmt v ++ (comma_if ms ++ serialise_members fmt ms)))

end

mutual

/-- The tree a document denotes: every number leaf is converted by `val`, and
the members of an object are assigned in order to an empty map, as
`parse_json_obj` does. -/
def denote {X D : Type} (val : X → D) : json_node X → json_node D
  | .obj ms => .obj (obj_set_all [] (denote_members val ms))
  | .arr vs => .arr (denote_items val vs)
  | .str s => .str s
  | .num x => .num (val x)
  | .bool b => .bool b

/-- The trees the elements of an array denote. -/
def denote_items {X D : Type} (val : X → D) : List (json_node X) → List (json_node D)
  | [] => []
  | v :: vs => denote val v :: denote_items val vs

/-- The keys of the members of an object with the trees their values denote. -/
def denote_members {X D : Type} (val : X → D) :
    List (List Char × json_node X) → List (List Char × json_node D)
  | [] => []
  | (k, v) :: ms => (k, denote val v) :: denote_members val ms

end

mutual

/-- The property `P` holds at every node of a tree. -/
def json_node.All {X : Type} (P : json_node X → Prop) : json_node X → Prop
  | .obj ms => P (.obj ms) ∧ json_node.All_members P ms
  | .arr vs => P (.arr vs) ∧ json_node.All_items P vs
  | .str s => P (.str s)
  | .num x => P (.num x)
  | .bool b => P (.bool b)

/-- The property `P` holds at every node of the trees of a list. -/
def json_node.All_items {X : Type} (P : json_node X → Prop) : List (json_node X) → Prop
  | [] => True
  | v :: vs => json_node.All P v ∧ json_node.All_items P vs

/-- The property `P` holds at every node of the values of the members. -/
def json_node.All_members {X : Type} (P : json_node X → Prop) :
    List (List Char × json_node X) → Prop
  | [] => True
  | (_, v) :: ms => json_node.All P v ∧ json_node.All_members P ms

end

/-- A node that can be written and read back: a string or a key has no quote
character, and the text of a number is a number literal. -/
def Writable {X : Type} (fmt : X → List Char) : json_node X → Prop
  | .obj ms => ∀ p ∈ ms, NoQuote p.1
  | .arr _ => True
  | .str s => NoQuote s
  | .num x => NumLit (fmt x)
  | .bool _ => True

/-- The keys of an object node are pairwise distinct. -/
def DistinctKeys {X : Type} : json_node X → Prop
  | .obj ms => (ms.map Prod.fst).Nodup
  | _ => True

/-- The conversion `atof` gives a number node back from its text. -/
def NumberKept {D : Type} (atof : List Char → D) (fmt : D → List Char) : json_node D → Prop
  | .num d => atof (fmt d) = d
  | _ => True

/-! ## Inputs of the worked examples -/

/-- The tree written as `{"a":[1.5,"x",true],"b":{}}`, a number being the
text of its literal. -/
def C2_tree : json_node (List Char) :=
  .obj [(['a'], .arr [.num ['1', '.', '5'], .str ['x'], .bool true]), (['b'], .obj [])]

/-! ## Read position and token sequences -/

/-- The lexer has read the input up to `r`: the text `r` is what its next scan
starts on, the first character of `r` being either still in the stream or held
in the pushback. -/
def Lexer.At (l : Lexer) (r : List Char) : Prop :=
  (l._putback = 0 ∧ l._fp = r) ∨ (l._putback ≠ 0 ∧ fgetc r = (l._putback, l._fp))

/-- The tokens given by `n` calls of `Lexer::Next`, or the error of the first
call that fails. -/
def Lexer.tokens : Nat → Lexer → Outcome (List Token)
  | 0, _ => .ok []
  | n + 1, lex =>
    lex.Next.bind fun l => (Lexer.tokens n l).bind fun ts => .ok (l._curr :: ts)

/-- Two outcomes agree: both are results related by `Q`, or both are the same
error, or both are the exhaustion of the fuel. -/
def Outcome.Rel {α β : Type} (Q : α → β → Prop) : Outcome α → Outcome β → Prop
  | .ok a, .ok b => Q a b
  | .fail m, .fail m1 => m = m1
  | .outOfFuel, .outOfFuel => True
  | _, _ => False

/-- The text `s1` is the text `s` with whitespace inserted between its tokens:
whitespace is put in front of `s`, or `s` starts with the text `a` of one token
scan (`Next` on `a ++ r` reads exactly `a`), whitespace is put in front of it,
and the rest `r` has whitespace inserted between its tokens in turn. -/
inductive WsInserted : List Char → List Char → Prop where
  | front (w s : List Char) : IsWs w → WsInserted s (w ++ s)
  | token (w a r r1 : List Char) (l : Lexer) : IsWs w → Next_scan (a ++ r) = .ok l →
      l.At r → WsInserted r r1 → WsInserted (a ++ r) (w ++ (a ++ r1))

/-- A character that is a token by itself: one of `{ } [ ] , :`. -/
def structural (c : Int) : Prop :=
  c = 123 ∨ c = 125 ∨ c = 91 ∨ c = 93 ∨ c = 44 ∨ c = 58

/-- The number of tokens a lexer at the read position `r` can still give
before end-of-input, the current one included: a bound that every `Next` from
a token other than `TOK_EOF` lowers. -/
def Lexer.rank (l : Lexer) (r : List Char) : Nat :=
  r.length + (if l._curr._type = TOK_EOF then 0 else 1)

/-- Two lexers on a text and on that text with whitespace inserted between its
tokens: same current token, and read positions related by `WsInserted`. -/
def WsRel (l l1 : Lexer) : Prop :=
  l._curr = l1._curr ∧ ∃ r r1, l.At r ∧ l1.At r1 ∧ WsInserted r r1

/-- Two lexers on a text and on that text with `rr` appended: same current
token, and the second stands at the read position of the first with `rr`
behind it. -/
def AppRel (rr : List Char) (l l1 : Lexer) : Prop :=
  l._curr = l1._curr ∧ ∃ r, l.At r ∧ l1.At (r ++ rr)

/-- The separator written in front of the members that remain, none after the
last. -/
def sep_if {α : Type} (g : List Char) : List α → List Char
  | [] => []
  | _ :: _ => g

/-- The texts of the elements of an array with the separator `g` between
them. -/
def items_sep {X : Type} (fmt : X → List Char) (g : List Char) :
    List (json_node X) → List Char
  | [] => []
  | v :: vs => serialise fmt v ++ (sep_if g vs ++ items_sep fmt g vs)

/-- The texts of the members of an object with the separator `g` between
them. -/
def members_sep {X : Type} (fmt : X → List Char) (g : List Char) :
    List (List Char × json_node X) → List Char
  | [] => []
  | p :: ms =>
    '"' :: (p.1 ++ '"' :: ':' :: (serialise fmt p.2 ++ (sep_if g ms ++ members_sep fmt g ms)))

/-! ## Characters and the stream -/

theorem toChar_code (ch : Char) : toChar (code ch) = ch := by
  simp [toChar, code]

theorem isdigit_iff (c : Int) : isdigit c = true ↔ 48 ≤ c ∧ c ≤ 57 := by
  simp [isdigit]

theorem isalpha_iff (c : Int) :
    isalpha c = true ↔ (65 ≤ c ∧ c ≤ 90) ∨ (97 ≤ c ∧ c ≤ 122) := by
  simp [isalpha]

theorem isspace_iff (c : Int) : isspace c = true ↔ c = 32 ∨ (9 ≤ c ∧ c ≤ 13) := by
  simp [isspace]

theorem isdigit_false_iff (c : Int) : isdigit c = false ↔ ¬ (48 ≤ c ∧ c ≤ 57) := by
  rw [← isdigit_iff]; simp

theorem stops_iff (c : Int) :
    stops c = true ↔ isdigit c = false ∧ isalpha c = false ∧ c ≠ 46 ∧ c ≠ 43 ∧ c ≠ 45 := by
  simp [stops, and_assoc]

theorem fgetc_cons (ch : Char) (fp : List Char) : fgetc (ch :: fp) = (code ch, fp) := rfl

theorem fgetc_nil : fgetc [] = (EOF, []) := rfl

theorem read_str_loop_cons (str : List Char) (ch : Char) (fp : List Char) :
    read_str_loop str (ch :: fp) =
      if code ch = 34 then .ok (str, fp) else read_str_loop (str ++ [ch]) fp := by
  simp [read_str_loop, toChar_code]

theorem Next_scan_cons (ch : Char) (fp : List Char) :
    Next_scan (ch :: fp) =
      match Next_body (code ch) fp with
      | some r => r
      | none => Next_scan fp := rfl

theorem read_digits_eq (num : List Char) (c : Int) (fp : List Char) :
    read_digits num c fp =
      if isdigit c then read_digits (num ++ [toChar c]) (fgetc fp).1 (fgetc fp).2
      else (num, c, fp) := by
  cases fp with
  | nil =>
    by_cases h : isdigit c = true
    · have : isdigit EOF = false := by decide
      simp [read_digits, h, fgetc, this]
    · simp [read_digits, h]
  | cons ch fp1 =>
    by_cases h : isdigit c = true
    · rw [read_digits]; simp [h, fgetc]
    · rw [read_digits]; simp [h]

theorem read_alpha_eq (b : List Char) (c : Int) (fp : List Char) :
    read_alpha b c fp =
      if isalpha c then read_alpha (b ++ [toChar c]) (fgetc fp).1 (fgetc fp).2
      else (b, c, fp) := by
  cases fp with
  | nil =>
    by_cases h : isalpha c = true
    · have : isalpha EOF = false := by decide
      simp [read_alpha, h, fgetc, this]
    · simp [read_alpha, h]
  | cons ch fp1 =>
    by_cases h : isalpha c = true
    · rw [read_alpha]; simp [h, fgetc]
    · rw [read_alpha]; simp [h]

/-- The digit loop takes a run of digits whole and stops at the first
character that is not a digit. -/
theorem read_digits_run (ds : List Char) (hd : Digits ds) (rest : List Char)
    (hs : isdigit (fgetc rest).1 = false) (num : List Char) :
    read_digits num (fgetc (ds ++ rest)).1 (fgetc (ds ++ rest)).2 =
      (num ++ ds, (fgetc rest).1, (fgetc rest).2) := by
  induction ds generalizing num with
  | nil => rw [read_digits_eq]; simp [hs]
  | cons d ds ih =>
    have hd0 : isdigit (code d) = true := hd d (List.mem_cons_self _ _)
    have hd1 : Digits ds := fun ch h => hd ch (List.mem_cons_of_mem _ h)
    rw [read_digits_eq]
    simp only [List.cons_append, fgetc_cons, hd0, if_true, toChar_code]
    rw [ih hd1]
    simp

/-- The string loop takes a text without quote whole and stops after the
first quote. -/
theorem read_str_loop_run (s : List Char) (hs : NoQuote s) (r str : List Char) :
    read_str_loop str (s ++ '"' :: r) = .ok (str ++ s, r) := by
  induction s generalizing str with
  | nil => simp [read_str_loop, code]
  | cons ch s ih =>
    have h0 : code ch ≠ 34 := hs ch (List.mem_cons_self _ _)
    have h1 : NoQuote s := fun c h => hs c (List.mem_cons_of_mem _ h)
    rw [List.cons_append, read_str_loop_cons, if_neg h0, ih h1]
    simp

/-- The string loop fails at the end of the input when no quote comes. -/
theorem read_str_loop_eof (s : List Char) (hs : NoQuote s) (str : List Char) :
    read_str_loop str s = .fail "malformed string" := by
  induction s generalizing str with
  | nil => rfl
  | cons ch s ih =>
    have h0 : code ch ≠ 34 := hs ch (List.mem_cons_self _ _)
    have h1 : NoQuote s := fun c h => hs c (List.mem_cons_of_mem _ h)
    rw [read_str_loop_cons, if_neg h0]
    exact ih h1 _

/-- Whitespace in front of the input is skipped by the scan. -/
theorem Next_scan_ws (w : List Char) (hw : IsWs w) (t : List Char) :
    Next_scan (w ++ t) = Next_scan t := by
  induction w with
  | nil => rfl
  | cons ch w ih =>
    have h0 : isspace (code ch) = true := hw ch (List.mem_cons_self _ _)
    have h1 : IsWs w := fun c h => hw c (List.mem_cons_of_mem _ h)
    rw [List.cons_append, Next_scan_cons]
    simp only [Next_body, h0, if_true]
    exact ih h1

/-- With an empty pushback `Next` scans the stream. -/
theorem Next_of_putback_zero (cur : Token) (fp : List Char) :
    Lexer.Next ⟨cur, fp, 0⟩ = Next_scan fp := by
  simp [Lexer.Next]

/-- After a scan that stopped one character into `rest` and pushed it back,
`Next` gives what a scan of `rest` gives: the pushback loses nothing. -/
theorem Next_of_fgetc (cur : Token) (rest : List Char) :
    Lexer.Next ⟨cur, (fgetc rest).2, (fgetc rest).1⟩ = Next_scan rest := by
  cases rest with
  | nil => simp [Lexer.Next, fgetc, EOF, Next_body, isspace, Next_scan, TOK_EOF]
  | cons ch fp =>
    by_cases h : code ch = 0
    · simp [Lexer.Next, fgetc, h, Next_scan, Next_body, isspace, EOF, isdigit, isalpha]
    · simp [Lexer.Next, fgetc, h, Next_scan]

/-! ## Tokens of a document -/

theorem Next_scan_lbrack (fp : List Char) :
    Next_scan ('[' :: fp) = .ok ⟨⟨[], TOK_LBRACK⟩, fp, 0⟩ := rfl

theorem Next_scan_rbrack (fp : List Char) :
    Next_scan (']' :: fp) = .ok ⟨⟨[], TOK_RBRACK⟩, fp, 0⟩ := rfl

theorem Next_scan_lbrace (fp : List Char) :
    Next_scan ('{' :: fp) = .ok ⟨⟨[], TOK_LBRACE⟩, fp, 0⟩ := rfl

theorem Next_scan_rbrace (fp : List Char) :
    Next_scan ('}' :: fp) = .ok ⟨⟨[], TOK_RBRACE⟩, fp, 0⟩ := rfl

theorem Next_scan_comma (fp : List Char) :
    Next_scan (',' :: fp) = .ok ⟨⟨[], TOK_COMMA⟩, fp, 0⟩ := rfl

theorem Next_scan_colon (fp : List Char) :
    Next_scan (':' :: fp) = .ok ⟨⟨[], TOK_COLON⟩, fp, 0⟩ := rfl

/-- A quote starts a string token: the payload is the text up to the next
quote, and the stream is left after that quote. -/
theorem Next_scan_str (s : List Char) (hs : NoQuote s) (r : List Char) :
    Next_scan ('"' :: (s ++ '"' :: r)) = .ok ⟨⟨s, TOK_STR⟩, r, 0⟩ := by
  rw [Next_scan_cons]
  have h : Next_body (code '"') (s ++ '"' :: r) =
      some ((read_str (s ++ '"' :: r)).bind fun r => .ok ⟨⟨r.1, TOK_STR⟩, r.2, 0⟩) := rfl
  rw [h, read_str, read_str_loop_run s hs]
  simp [Outcome.bind]

/-- A digit starts a number token, scanned by `read_num`. -/
theorem Next_scan_digit (ch : Char) (h : isdigit (code ch) = true) (fp : List Char) :
    Next_scan (ch :: fp) =
      .ok ⟨⟨(read_num (code ch) fp).1, TOK_NUM⟩, (read_num (code ch) fp).2.2,
        (read_num (code ch) fp).2.1⟩ := by
  rw [Next_scan_cons]
  have h1 := (isdigit_iff _).1 h
  have hsp : isspace (code ch) = false := by
    rw [Bool.eq_false_iff]; intro hh; have := (isspace_iff _).1 hh; omega
  have hsw : ¬ (code ch = EOF ∨ code ch = 123 ∨ code ch = 125 ∨ code ch = 91 ∨
      code ch = 93 ∨ code ch = 44 ∨ code ch = 58) := by
    simp only [EOF]; omega
  have hq : code ch ≠ 34 := by omega
  simp only [Next_body, hsp, hsw, hq, h, if_true, if_false, Bool.false_eq_true]

/-- Digits only: the literal ends at a character that is neither a digit nor `.`. -/
theorem read_num_int (ds : List Char) (hd : Digits ds) (rest : List Char)
    (hs : isdigit (fgetc rest).1 = false) (hdot : (fgetc rest).1 ≠ 46) :
    read_num (fgetc (ds ++ rest)).1 (fgetc (ds ++ rest)).2 =
      (ds, (fgetc rest).1, (fgetc rest).2) := by
  rw [read_num, read_digits_run ds hd rest hs]
  simp [hdot]

theorem isdigit_dot_false (t : List Char) : isdigit (fgetc ('.' :: t)).1 = false := rfl

theorem isdigit_exp_false (e : Char) (he : e = 'e' ∨ e = 'E') (t : List Char) :
    isdigit (fgetc (e :: t)).1 = false := by
  rcases he with rfl | rfl <;> rfl

/-- Digits and a fraction: the literal ends at a character that is neither a
digit nor `e`/`E`. -/
theorem read_num_frac (ds ds2 : List Char) (hd : Digits ds) (hd2 : Digits ds2)
    (rest : List Char) (hs : isdigit (fgetc rest).1 = false)
    (he : (fgetc rest).1 ≠ 101 ∧ (fgetc rest).1 ≠ 69) :
    read_num (fgetc (ds ++ '.' :: (ds2 ++ rest))).1 (fgetc (ds ++ '.' :: (ds2 ++ rest))).2 =
      (ds ++ '.' :: ds2, (fgetc rest).1, (fgetc rest).2) := by
  rw [read_num, read_digits_run ds hd _ (isdigit_dot_false _)]
  have h46 : (fgetc ('.' :: (ds2 ++ rest))).1 = 46 := rfl
  simp only [h46, if_true, fgetc_cons]
  rw [read_digits_run ds2 hd2 rest hs]
  have hc : toChar 46 = '.' := rfl
  have hcd : code '.' = 46 := rfl
  simp [he.1, he.2, hc, hcd]

/-- Digits, a fraction and an exponent: after the sign the digits are taken
up to the first character that is not a digit. An exponent with neither sign
nor digits must not be followed by `+` or `-`. -/
theorem read_num_exp (ds ds2 sg ds3 : List Char) (e : Char) (hd : Digits ds)
    (hd2 : Digits ds2) (he : e = 'e' ∨ e = 'E')
    (hsg : sg = [] ∨ sg = ['+'] ∨ sg = ['-']) (hd3 : Digits ds3)
    (rest : List Char) (hs : isdigit (fgetc rest).1 = false)
    (hpm : sg = [] → ds3 = [] → (fgetc rest).1 ≠ 43 ∧ (fgetc rest).1 ≠ 45) :
    read_num (fgetc (ds ++ '.' :: (ds2 ++ e :: (sg ++ (ds3 ++ rest))))).1
        (fgetc (ds ++ '.' :: (ds2 ++ e :: (sg ++ (ds3 ++ rest))))).2 =
      (ds ++ '.' :: (ds2 ++ e :: (sg ++ ds3)), (fgetc rest).1, (fgetc rest).2) := by
  rw [read_num, read_digits_run ds hd _ (isdigit_dot_false _)]
  have h46 : (fgetc ('.' :: (ds2 ++ e :: (sg ++ (ds3 ++ rest))))).1 = 46 := rfl
  simp only [h46, if_true, fgetc_cons]
  rw [read_digits_run ds2 hd2 _ (isdigit_exp_false e he _)]
  have hc : toChar 46 = '.' := rfl
  have hce : code e = 101 ∨ code e = 69 := by
    rcases he with rfl | rfl
    · exact Or.inl rfl
    · exact Or.inr rfl
  have hcd : code '.' = 46 := rfl
  have hp : toChar 43 = '+' := rfl
  have hm : toChar 45 = '-' := rfl
  simp only [fgetc_cons, hce, if_true, toChar_code, hc, hcd]
  rcases hsg with rfl | rfl | rfl
  · have hc1 : ¬ ((fgetc (ds3 ++ rest)).1 = 43 ∨ (fgetc (ds3 ++ rest)).1 = 45) := by
      cases ds3 with
      | nil => have := hpm rfl rfl; simpa using this
      | cons d ds3 =>
        have h0 := (isdigit_iff _).1 (hd3 d (List.mem_cons_self _ _))
        simp only [List.cons_append, fgetc_cons]; omega
    simp only [List.nil_append, hc1, if_false]
    rw [read_digits_run ds3 hd3 rest hs]
    simp
  · have h43 : code '+' = 43 := rfl
    simp only [List.cons_append, List.nil_append, fgetc_cons, h43, true_or, if_true, toChar_code]
    rw [read_digits_run ds3 hd3 rest hs]
    simp [hp]
  · have h45 : code '-' = 45 := rfl
    simp only [List.cons_append, List.nil_append, fgetc_cons, h45, or_true, if_true, toChar_code]
    rw [read_digits_run ds3 hd3 rest hs]
    simp [hm]

/-- When `read_num` takes the text `l` whole, whose first character is a digit,
the scan yields the number token `l` and pushes back the character after it. -/
theorem Next_scan_of_read_num (d : Char) (l rest : List Char) (hd : isdigit (code d) = true)
    (h : read_num (fgetc (d :: l ++ rest)).1 (fgetc (d :: l ++ rest)).2 =
      (d :: l, (fgetc rest).1, (fgetc rest).2)) :
    Next_scan (d :: l ++ rest) = .ok ⟨⟨d :: l, TOK_NUM⟩, (fgetc rest).2, (fgetc rest).1⟩ := by
  rw [List.cons_append, Next_scan_digit d hd]
  rw [List.cons_append, fgetc_cons] at h
  simp only at h
  rw [h]

theorem Follow_iff (rest : List Char) :
    Follow rest ↔ isdigit (fgetc rest).1 = false ∧ isalpha (fgetc rest).1 = false ∧
      (fgetc rest).1 ≠ 46 ∧ (fgetc rest).1 ≠ 43 ∧ (fgetc rest).1 ≠ 45 := by
  rw [Follow, stops_iff]

theorem not_exp_of_not_alpha (c : Int) (h : isalpha c = false) : c ≠ 101 ∧ c ≠ 69 := by
  rw [Bool.eq_false_iff] at h
  constructor <;> intro hc <;> apply h <;> rw [isalpha_iff] <;> omega

/-- A number literal of the shape of `NumLit`, in front of a text that may
follow a value, is taken whole by `read_num`. -/
theorem read_num_lit (l : List Char) (hl : NumLit l) (rest : List Char) (hf : Follow rest) :
    read_num (fgetc (l ++ rest)).1 (fgetc (l ++ rest)).2 = (l, (fgetc rest).1, (fgetc rest).2) := by
  obtain ⟨hs, ha, h46, h43, h45⟩ := (Follow_iff rest).1 hf
  obtain ⟨ds, fr, rfl, -, hd, hfr⟩ := hl
  rcases hfr with rfl | ⟨ds2, ex, rfl, hd2, hex⟩
  · simpa using read_num_int ds hd rest hs h46
  · rcases hex with rfl | ⟨e, sg, ds3, rfl, he, hsg, hd3⟩
    · simpa using read_num_frac ds ds2 hd hd2 rest hs (not_exp_of_not_alpha _ ha)
    · simpa using read_num_exp ds ds2 sg ds3 e hd hd2 he hsg hd3 rest hs
        (fun _ _ => ⟨h43, h45⟩)

/-- A number literal in front of a text that may follow a value is lexed as
one number token whose text is the literal. -/
theorem Next_scan_num (l : List Char) (hl : NumLit l) (rest : List Char) (hf : Follow rest) :
    Next_scan (l ++ rest) = .ok ⟨⟨l, TOK_NUM⟩, (fgetc rest).2, (fgetc rest).1⟩ := by
  have h := read_num_lit l hl rest hf
  obtain ⟨ds, fr, rfl, hne, hd, -⟩ := hl
  cases ds with
  | nil => exact absurd rfl hne
  | cons d ds =>
    have hd0 : isdigit (code d) = true := hd d (List.mem_cons_self _ _)
    exact Next_scan_of_read_num d (ds ++ fr) rest hd0 h

/-- A run of letters. -/
theorem read_alpha_run (w : List Char) (hw : ∀ ch ∈ w, isalpha (code ch) = true)
    (rest : List Char) (hs : isalpha (fgetc rest).1 = false) (b : List Char) :
    read_alpha b (fgetc (w ++ rest)).1 (fgetc (w ++ rest)).2 =
      (b ++ w, (fgetc rest).1, (fgetc rest).2) := by
  induction w generalizing b with
  | nil => rw [read_alpha_eq]; simp [hs]
  | cons d w ih =>
    have hd0 : isalpha (code d) = true := hw d (List.mem_cons_self _ _)
    have hd1 : ∀ ch ∈ w, isalpha (code ch) = true := fun ch h => hw ch (List.mem_cons_of_mem _ h)
    rw [read_alpha_eq]
    simp only [List.cons_append, fgetc_cons, hd0, if_true, toChar_code]
    rw [ih hd1]
    simp

/-- A letter starts a keyword token, scanned by `read_bool`. -/
theorem Next_scan_alpha (ch : Char) (h : isalpha (code ch) = true) (fp : List Char) :
    Next_scan (ch :: fp) =
      (read_bool (code ch) fp).bind fun r => .ok ⟨⟨[], r.1⟩, r.2.2, r.2.1⟩ := by
  rw [Next_scan_cons]
  have h1 := (isalpha_iff _).1 h
  have hsp : isspace (code ch) = false := by
    rw [Bool.eq_false_iff]; intro hh; have := (isspace_iff _).1 hh; omega
  have hsw : ¬ (code ch = EOF ∨ code ch = 123 ∨ code ch = 125 ∨ code ch = 91 ∨
      code ch = 93 ∨ code ch = 44 ∨ code ch = 58) := by
    simp only [EOF]; omega
  have hq : code ch ≠ 34 := by omega
  have hdg : isdigit (code ch) = false := by
    rw [isdigit_false_iff]; omega
  simp only [Next_body, hsp, hsw, hq, hdg, h, if_true, if_false, Bool.false_eq_true]

/-- The word `true` in front of a character that is not a letter is the
token `TOK_TRUE`. -/
theorem Next_scan_true (rest : List Char) (hs : isalpha (fgetc rest).1 = false) :
    Next_scan ('t' :: 'r' :: 'u' :: 'e' :: rest) =
      .ok ⟨⟨[], TOK_TRUE⟩, (fgetc rest).2, (fgetc rest).1⟩ := by
  rw [Next_scan_alpha _ (by decide), read_bool]
  have h := read_alpha_run ['t', 'r', 'u', 'e'] (by decide) rest hs []
  simp only [List.cons_append, List.nil_append, fgetc_cons] at h
  rw [h]
  rfl

/-- The word `false` in front of a character that is not a letter is the
token `TOK_FALSE`. -/
theorem Next_scan_false (rest : List Char) (hs : isalpha (fgetc rest).1 = false) :
    Next_scan ('f' :: 'a' :: 'l' :: 's' :: 'e' :: rest) =
      .ok ⟨⟨[], TOK_FALSE⟩, (fgetc rest).2, (fgetc rest).1⟩ := by
  rw [Next_scan_alpha _ (by decide), read_bool]
  have h := read_alpha_run ['f', 'a', 'l', 's', 'e'] (by decide) rest hs []
  simp only [List.cons_append, List.nil_append, fgetc_cons] at h
  rw [h]
  rfl

/-! ## Values -/

theorem parse_json_str_tok {D : Type} (atof : List Char → D) (fuel : Nat) (s fp : List Char)
    (pb : Int) :
    parse_json atof (fuel + 1) ⟨⟨s, TOK_STR⟩, fp, pb⟩ =
      (Lexer.Next ⟨⟨s, TOK_STR⟩, fp, pb⟩).bind fun lex1 => .ok (.str s, lex1) := rfl

theorem parse_json_num_tok {D : Type} (atof : List Char → D) (fuel : Nat) (l fp : List Char)
    (pb : Int) :
    parse_json atof (fuel + 1) ⟨⟨l, TOK_NUM⟩, fp, pb⟩ =
      (Lexer.Next ⟨⟨l, TOK_NUM⟩, fp, pb⟩).bind fun lex1 => .ok (.num (atof l), lex1) := rfl

theorem parse_json_true_tok {D : Type} (atof : List Char → D) (fuel : Nat) (l fp : List Char)
    (pb : Int) :
    parse_json atof (fuel + 1) ⟨⟨l, TOK_TRUE⟩, fp, pb⟩ =
      (Lexer.Next ⟨⟨l, TOK_TRUE⟩, fp, pb⟩).bind fun lex1 => .ok (.bool true, lex1) := rfl

theorem parse_json_false_tok {D : Type} (atof : List Char → D) (fuel : Nat) (l fp : List Char)
    (pb : Int) :
    parse_json atof (fuel + 1) ⟨⟨l, TOK_FALSE⟩, fp, pb⟩ =
      (Lexer.Next ⟨⟨l, TOK_FALSE⟩, fp, pb⟩).bind fun lex1 => .ok (.bool false, lex1) := rfl

theorem parse_json_lbrack_tok {D : Type} (atof : List Char → D) (fuel : Nat) (l fp : List Char)
    (pb : Int) :
    parse_json atof (fuel + 2) ⟨⟨l, TOK_LBRACK⟩, fp, pb⟩ =
      (Lexer.Next ⟨⟨l, TOK_LBRACK⟩, fp, pb⟩).bind fun lex1 =>
      (parse_json_arr_loop atof fuel [] lex1).bind fun r =>
      (r.2.Match TOK_RBRACK).bind fun lex2 => .ok (.arr r.1, lex2) := rfl

theorem parse_json_lbrace_tok {D : Type} (atof : List Char → D) (fuel : Nat) (l fp : List Char)
    (pb : Int) :
    parse_json atof (fuel + 2) ⟨⟨l, TOK_LBRACE⟩, fp, pb⟩ =
      (Lexer.Next ⟨⟨l, TOK_LBRACE⟩, fp, pb⟩).bind fun lex1 =>
      (parse_json_obj_loop atof fuel [] lex1).bind fun r =>
      (r.2.Match TOK_RBRACE).bind fun lex2 => .ok (.obj r.1, lex2) := rfl

theorem Match_comma (l fp : List Char) (pb : Int) :
    Lexer.Match ⟨⟨l, TOK_COMMA⟩, fp, pb⟩ TOK_COMMA = Lexer.Next ⟨⟨l, TOK_COMMA⟩, fp, pb⟩ := rfl

theorem Match_rbrack (l fp : List Char) (pb : Int) :
    Lexer.Match ⟨⟨l, TOK_RBRACK⟩, fp, pb⟩ TOK_RBRACK = Lexer.Next ⟨⟨l, TOK_RBRACK⟩, fp, pb⟩ := rfl

theorem Match_rbrace (l fp : List Char) (pb : Int) :
    Lexer.Match ⟨⟨l, TOK_RBRACE⟩, fp, pb⟩ TOK_RBRACE = Lexer.Next ⟨⟨l, TOK_RBRACE⟩, fp, pb⟩ := rfl

theorem Match_str (l fp : List Char) (pb : Int) :
    Lexer.Match ⟨⟨l, TOK_STR⟩, fp, pb⟩ TOK_STR = Lexer.Next ⟨⟨l, TOK_STR⟩, fp, pb⟩ := rfl

theorem Match_colon (l fp : List Char) (pb : Int) :
    Lexer.Match ⟨⟨l, TOK_COLON⟩, fp, pb⟩ TOK_COLON = Lexer.Next ⟨⟨l, TOK_COLON⟩, fp, pb⟩ := rfl

theorem Follow_nil : Follow [] := by unfold Follow; decide

theorem Follow_of_stops (ch : Char) (h : stops (code ch) = true) (t : List Char) :
    Follow (ch :: t) := h

/-- A string between quotes is read as the String node of its payload. -/
theorem ParsesTo_str {D : Type} (atof : List Char → D) (s : List Char) (hs : NoQuote s) :
    ParsesTo atof ('"' :: (s ++ ['"'])) (.str s) := by
  refine ⟨by simp, fun rest _ => ⟨⟨⟨s, TOK_STR⟩, rest, 0⟩, ?_, ?_, ?_⟩⟩
  · have := Next_scan_str s hs rest
    simpa using this
  · exact Or.inr (Or.inr (Or.inl rfl))
  · intro fuel hfuel
    obtain ⟨f, rfl⟩ : ∃ f, fuel = f + 1 := ⟨fuel - 1, by simp at hfuel; omega⟩
    rw [parse_json_str_tok, Next_of_putback_zero]

/-- A number literal is read as the Number node of its conversion. -/
theorem ParsesTo_num {D : Type} (atof : List Char → D) (l : List Char) (hl : NumLit l) :
    ParsesTo atof l (.num (atof l)) := by
  have hlen : 1 ≤ l.length := by
    obtain ⟨ds, fr, rfl, hne, -, -⟩ := hl
    cases ds with
    | nil => exact absurd rfl hne
    | cons d ds => simp
  refine ⟨hlen, fun rest hf => ⟨_, Next_scan_num l hl rest hf, ?_, ?_⟩⟩
  · exact Or.inr (Or.inr (Or.inr (Or.inl rfl)))
  · intro fuel hfuel
    obtain ⟨f, rfl⟩ : ∃ f, fuel = f + 1 := ⟨fuel - 1, by omega⟩
    rw [parse_json_num_tok, Next_of_fgetc]

/-- The keywords are read as the Boolean nodes. -/
theorem ParsesTo_bool {D : Type} (atof : List Char → D) (b : Bool) :
    ParsesTo atof (if b then ['t', 'r', 'u', 'e'] else ['f', 'a', 'l', 's', 'e']) (.bool b) := by
  cases b
  · refine ⟨by simp, fun rest hf => ⟨_, Next_scan_false rest ((Follow_iff rest).1 hf).2.1, ?_, ?_⟩⟩
    · exact Or.inr (Or.inr (Or.inr (Or.inr (Or.inr rfl))))
    · intro fuel hfuel
      obtain ⟨f, rfl⟩ : ∃ f, fuel = f + 1 := ⟨fuel - 1, by simp at hfuel; omega⟩
      rw [parse_json_false_tok, Next_of_fgetc]
  · refine ⟨by simp, fun rest hf => ⟨_, Next_scan_true rest ((Follow_iff rest).1 hf).2.1, ?_, ?_⟩⟩
    · exact Or.inr (Or.inr (Or.inr (Or.inr (Or.inl rfl))))
    · intro fuel hfuel
      obtain ⟨f, rfl⟩ : ∃ f, fuel = f + 1 := ⟨fuel - 1, by simp at hfuel; omega⟩
      rw [parse_json_true_tok, Next_of_fgetc]

/-! ## Containers -/

theorem Follow_append (x : List Char) (hx : x ≠ []) (r1 r2 : List Char)
    (h : Follow (x ++ r1)) : Follow (x ++ r2) := by
  cases x with
  | nil => exact absurd rfl hx
  | cons ch x => exact h

theorem Follow_ws_cons (ch : Char) (h : isspace (code ch) = true) (t : List Char) :
    Follow (ch :: t) := by
  apply Follow_of_stops
  have h1 := (isspace_iff _).1 h
  rw [stops_iff, isdigit_false_iff, Bool.eq_false_iff, Ne, isalpha_iff]
  omega

theorem Follow_comma (t : List Char) : Follow (',' :: t) := Follow_of_stops _ (by decide) t

theorem Follow_rbrack (t : List Char) : Follow (']' :: t) := Follow_of_stops _ (by decide) t

theorem Follow_rbrace (t : List Char) : Follow ('}' :: t) := Follow_of_stops _ (by decide) t

theorem ValueStart_ne {t : Int} (h : ValueStart t) :
    t ≠ TOK_EOF ∧ t ≠ TOK_RBRACK ∧ t ≠ TOK_RBRACE ∧ t ≠ TOK_COMMA := by
  unfold ValueStart at h
  simp only [TOK_LBRACE, TOK_LBRACK, TOK_STR, TOK_NUM, TOK_TRUE, TOK_FALSE] at h
  simp only [TOK_EOF, EOF, TOK_RBRACK, TOK_RBRACE, TOK_COMMA]
  omega

/-- The step of a container loop after a member: a comma, when it is the
current token, is consumed. Through a separator this leads to the first token
of the text behind it. -/
theorem sep_step (g : List Char) (hg : Sep g) (X : List Char) (lex : Lexer)
    (hX : Next_scan X = .ok lex) (hc : lex._curr._type ≠ TOK_COMMA) :
    ((Next_scan (g ++ X)).bind fun lex1 =>
      if lex1._curr._type = TOK_COMMA then lex1.Match TOK_COMMA else .ok lex1) = .ok lex := by
  rcases hg with ⟨w1, w2, h1, h2, rfl⟩ | hw
  · rw [List.append_assoc, Next_scan_ws w1 h1, List.cons_append, Next_scan_comma]
    simp only [Outcome.bind, if_true]
    rw [Match_comma, Next_of_putback_zero, Next_scan_ws w2 h2, hX]
  · rw [Next_scan_ws g hw, hX]
    simp only [Outcome.bind, hc, if_false]

/-- The text of an array body in front of `]` starts with a token that is not
a comma. -/
theorem ArrBody_first {D : Type} (atof : List Char → D) (T : List Char)
    (vs : List (json_node D)) (h : ArrBody atof T vs) (rest : List Char) :
    ∃ lex, Next_scan (T ++ ']' :: rest) = .ok lex ∧ lex._curr._type ≠ TOK_COMMA := by
  rcases h with ⟨_, hw⟩ | ⟨e, g, T, v, vs, he, hg, hf, hT⟩
  · exact ⟨⟨⟨[], TOK_RBRACK⟩, rest, 0⟩, by rw [Next_scan_ws T hw, Next_scan_rbrack],
      by simp [TOK_RBRACK, TOK_COMMA]⟩
  · have hf1 : Follow (g ++ (T ++ ']' :: rest)) := by
      have := Follow_append (g ++ (T ++ [']'])) (by simp) [] rest (by simpa using hf)
      simpa using this
    obtain ⟨lex, h1, h2, -⟩ := he.2 _ hf1
    exact ⟨lex, by simpa using h1, (ValueStart_ne h2).2.2.2⟩

/-- The loop of `parse_json_arr` on the text of an array body appends the
elements in order and stops on the closing bracket. -/
theorem parse_json_arr_loop_body {D : Type} (atof : List Char → D) (T : List Char)
    (vs : List (json_node D)) (h : ArrBody atof T vs) :
    ∀ (n : List (json_node D)) (rest : List Char) (fuel : Nat) (lex : Lexer),
      2 * T.length + 1 ≤ fuel → Next_scan (T ++ ']' :: rest) = .ok lex →
      parse_json_arr_loop atof fuel n lex = .ok (n ++ vs, ⟨⟨[], TOK_RBRACK⟩, rest, 0⟩) := by
  induction h with
  | nil w hw =>
    intro n rest fuel lex hfuel hlex
    obtain ⟨f, rfl⟩ : ∃ f, fuel = f + 1 := ⟨fuel - 1, by omega⟩
    rw [Next_scan_ws w hw, Next_scan_rbrack] at hlex
    cases hlex
    simp [parse_json_arr_loop]
  | cons e g T v vs he hg hf hT ih =>
    intro n rest fuel lex hfuel hlex
    obtain ⟨f, rfl⟩ : ∃ f, fuel = f + 1 := ⟨fuel - 1, by omega⟩
    have hf1 : Follow (g ++ (T ++ ']' :: rest)) := by
      have := Follow_append (g ++ (T ++ [']'])) (by simp) [] rest (by simpa using hf)
      simpa using this
    obtain ⟨lex0, h1, h2, h3⟩ := he.2 _ hf1
    have hlex0 : lex = lex0 := by
      have : Outcome.ok lex = Outcome.ok lex0 := by rw [← hlex, ← h1]; simp
      cases this; rfl
    subst hlex0
    have hlen := he.1
    simp only [List.length_append] at hfuel
    obtain ⟨lex2, hl2, hc2⟩ := ArrBody_first atof T vs hT rest
    have hstep := sep_step g hg (T ++ ']' :: rest) lex2 hl2 hc2
    have hne := ValueStart_ne h2
    rw [parse_json_arr_loop]
    simp only [hne.1, hne.2.1, ne_eq, not_false_eq_true, and_self, if_true]
    rw [h3 f (by omega)]
    cases hns : Next_scan (g ++ (T ++ ']' :: rest)) with
    | ok lex1 =>
      rw [hns] at hstep
      simp only [Outcome.bind] at hstep ⊢
      rw [hstep]
      simp only []
      rw [ih (n ++ [v]) rest f lex2 (by omega) hl2]
      simp
    | fail msg => rw [hns] at hstep; simp [Outcome.bind] at hstep
    | outOfFuel => rw [hns] at hstep; simp [Outcome.bind] at hstep

/-- An array text is read as the Array node of its elements, in order. -/
theorem ParsesTo_arr {D : Type} (atof : List Char → D) (T : List Char)
    (vs : List (json_node D)) (h : ArrBody atof T vs) :
    ParsesTo atof ('[' :: (T ++ [']'])) (.arr vs) := by
  refine ⟨by simp, fun rest _ => ⟨⟨⟨[], TOK_LBRACK⟩, T ++ ']' :: rest, 0⟩, ?_, ?_, ?_⟩⟩
  · simp [Next_scan_lbrack]
  · exact Or.inr (Or.inl rfl)
  · intro fuel hfuel
    simp only [List.length_cons, List.length_append, List.length_nil] at hfuel
    obtain ⟨f, rfl⟩ : ∃ f, fuel = f + 2 := ⟨fuel - 2, by omega⟩
    obtain ⟨lex2, hl2, -⟩ := ArrBody_first atof T vs h rest
    rw [parse_json_lbrack_tok, Next_of_putback_zero, hl2]
    simp only [Outcome.bind]
    rw [parse_json_arr_loop_body atof T vs h [] rest f lex2 (by omega) hl2]
    simp only [List.nil_append]
    rw [Match_rbrack, Next_of_putback_zero]

/-- The text of an object body in front of `}` starts with a token that is
not a comma. -/
theorem ObjBody_first {D : Type} (atof : List Char → D) (T : List Char)
    (ms : List (List Char × json_node D)) (h : ObjBody atof T ms) (rest : List Char) :
    ∃ lex, Next_scan (T ++ '}' :: rest) = .ok lex ∧ lex._curr._type ≠ TOK_COMMA := by
  rcases h with ⟨_, hw⟩ | ⟨k, wk, e, g, T, v, ms, hk, hwk, he, hg, hf, hT⟩
  · exact ⟨⟨⟨[], TOK_RBRACE⟩, rest, 0⟩, by rw [Next_scan_ws T hw, Next_scan_rbrace],
      by simp [TOK_RBRACE, TOK_COMMA]⟩
  · refine ⟨⟨⟨k, TOK_STR⟩, wk ++ ':' :: (e ++ (g ++ (T ++ '}' :: rest))), 0⟩, ?_, ?_⟩
    · have := Next_scan_str k hk (wk ++ ':' :: (e ++ (g ++ (T ++ '}' :: rest))))
      simpa using this
    · simp [TOK_STR, TOK_COMMA]

/-- The loop of `parse_json_obj` on the text of an object body assigns the
members in order and stops on the closing brace. -/
theorem parse_json_obj_loop_body {D : Type} (atof : List Char → D) (T : List Char)
    (ms : List (List Char × json_node D)) (h : ObjBody atof T ms) :
    ∀ (n : List (List Char × json_node D)) (rest : List Char) (fuel : Nat) (lex : Lexer),
      2 * T.length + 1 ≤ fuel → Next_scan (T ++ '}' :: rest) = .ok lex →
      parse_json_obj_loop atof fuel n lex =
        .ok (obj_set_all n ms, ⟨⟨[], TOK_RBRACE⟩, rest, 0⟩) := by
  induction h with
  | nil w hw =>
    intro n rest fuel lex hfuel hlex
    obtain ⟨f, rfl⟩ : ∃ f, fuel = f + 1 := ⟨fuel - 1, by omega⟩
    rw [Next_scan_ws w hw, Next_scan_rbrace] at hlex
    cases hlex
    simp [parse_json_obj_loop, obj_set_all]
  | cons k wk e g T v ms hk hwk he hg hf hT ih =>
    intro n rest fuel lex hfuel hlex
    obtain ⟨f, rfl⟩ : ∃ f, fuel = f + 1 := ⟨fuel - 1, by omega⟩
    have hf1 : Follow (g ++ (T ++ '}' :: rest)) := by
      have := Follow_append (g ++ (T ++ ['}'])) (by simp) [] rest (by simpa using hf)
      simpa using this
    obtain ⟨lex0, h1, h2, h3⟩ := he.2 _ hf1
    have hlex0 : lex = ⟨⟨k, TOK_STR⟩, wk ++ ':' :: (e ++ (g ++ (T ++ '}' :: rest))), 0⟩ := by
      have h := Next_scan_str k hk (wk ++ ':' :: (e ++ (g ++ (T ++ '}' :: rest))))
      have : Outcome.ok lex = Outcome.ok
          (⟨⟨k, TOK_STR⟩, wk ++ ':' :: (e ++ (g ++ (T ++ '}' :: rest))), 0⟩ : Lexer) := by
        rw [← hlex, ← h]; simp
      cases this; rfl
    subst hlex0
    have hlen := he.1
    simp only [List.length_append, List.length_cons] at hfuel
    obtain ⟨lex2, hl2, hc2⟩ := ObjBody_first atof T ms hT rest
    have hstep := sep_step g hg (T ++ '}' :: rest) lex2 hl2 hc2
    have hne := ValueStart_ne h2
    rw [parse_json_obj_loop]
    have ht1 : TOK_STR ≠ TOK_EOF := by decide
    have ht2 : TOK_STR ≠ TOK_RBRACE := by decide
    simp only [ht1, ht2, ne_eq, not_false_eq_true, and_self, if_true]
    rw [Match_str, Next_of_putback_zero, Next_scan_ws wk hwk, Next_scan_colon]
    simp only [Outcome.bind]
    rw [Match_colon, Next_of_putback_zero, h1]
    simp only []
    rw [h3 f (by omega)]
    cases hns : Next_scan (g ++ (T ++ '}' :: rest)) with
    | ok lex1 =>
      rw [hns] at hstep
      simp only [Outcome.bind] at hstep ⊢
      rw [hstep]
      simp only []
      rw [ih (obj_set n k v) rest f lex2 (by omega) hl2]
      simp [obj_set_all]
    | fail msg => rw [hns] at hstep; simp [Outcome.bind] at hstep
    | outOfFuel => rw [hns] at hstep; simp [Outcome.bind] at hstep

/-- An object text is read as the Object node whose entries are the result
of assigning the members in order to an empty map. -/
theorem ParsesTo_obj {D : Type} (atof : List Char → D) (T : List Char)
    (ms : List (List Char × json_node D)) (h : ObjBody atof T ms) :
    ParsesTo atof ('{' :: (T ++ ['}'])) (.obj (obj_set_all [] ms)) := by
  refine ⟨by simp, fun rest _ => ⟨⟨⟨[], TOK_LBRACE⟩, T ++ '}' :: rest, 0⟩, ?_, ?_, ?_⟩⟩
  · simp [Next_scan_lbrace]
  · exact Or.inl rfl
  · intro fuel hfuel
    simp only [List.length_cons, List.length_append, List.length_nil] at hfuel
    obtain ⟨f, rfl⟩ : ∃ f, fuel = f + 2 := ⟨fuel - 2, by omega⟩
    obtain ⟨lex2, hl2, -⟩ := ObjBody_first atof T ms h rest
    rw [parse_json_lbrace_tok, Next_of_putback_zero, hl2]
    simp only [Outcome.bind]
    rw [parse_json_obj_loop_body atof T ms h [] rest f lex2 (by omega) hl2]
    simp only []
    rw [Match_rbrace, Next_of_putback_zero]

/-- Whitespace in front of a value text changes nothing. -/
theorem ParsesTo_ws {D : Type} (atof : List Char → D) (w e : List Char) (v : json_node D)
    (hw : IsWs w) (h : ParsesTo atof e v) : ParsesTo atof (w ++ e) v := by
  refine ⟨by have := h.1; simp only [List.length_append]; omega, fun rest hf => ?_⟩
  obtain ⟨lex, h1, h2, h3⟩ := h.2 rest hf
  refine ⟨lex, by rw [List.append_assoc, Next_scan_ws w hw, h1], h2, fun fuel hfuel => ?_⟩
  simp only [List.length_append] at hfuel
  exact h3 fuel (by omega)

/-- A text that is read as `v`, given to `main` as the whole input with
enough fuel, is parsed to `v` and the lexer ends on `TOK_EOF`. -/
theorem parse_of_ParsesTo {D : Type} (atof : List Char → D) (e : List Char) (v : json_node D)
    (h : ParsesTo atof e v) (fuel : Nat) (hfuel : 2 * e.length ≤ fuel) :
    parse atof fuel e = .ok (v, ⟨⟨[], TOK_EOF⟩, [], 0⟩) := by
  obtain ⟨lex, h1, -, h3⟩ := h.2 [] Follow_nil
  rw [List.append_nil] at h1
  rw [parse, Lexer.init, Next_of_putback_zero, h1]
  simp only [Outcome.bind]
  rw [h3 fuel hfuel]
  rfl

/-! ## Trees -/

/-- Induction on a tree: a container has the property when its children have it. -/
theorem json_node.induct {X : Type} {motive : json_node X → Prop}
    (hobj : ∀ ms : List (List Char × json_node X), (∀ p ∈ ms, motive p.2) → motive (.obj ms))
    (harr : ∀ vs : List (json_node X), (∀ v ∈ vs, motive v) → motive (.arr vs))
    (hstr : ∀ s, motive (.str s)) (hnum : ∀ x, motive (.num x))
    (hbool : ∀ b, motive (.bool b)) : ∀ t, motive t := by
  intro t
  refine json_node.rec (motive_1 := motive) (motive_2 := fun ms => ∀ p ∈ ms, motive p.2)
    (motive_3 := fun vs => ∀ v ∈ vs, motive v) (motive_4 := fun p => motive p.2)
    hobj harr hstr hnum hbool ?_ ?_ ?_ ?_ ?_ t
  · intro p hp; cases hp
  · intro head tail h1 h2 p hp
    rcases List.mem_cons.1 hp with rfl | hp
    · exact h1
    · exact h2 p hp
  · intro v hv; cases hv
  · intro head tail h1 h2 v hv
    rcases List.mem_cons.1 hv with rfl | hv
    · exact h1
    · exact h2 v hv
  · intro _ _ h; exact h

theorem All_items_iff {X : Type} (P : json_node X → Prop) (vs : List (json_node X)) :
    json_node.All_items P vs ↔ ∀ v ∈ vs, json_node.All P v := by
  induction vs with
  | nil => simp [json_node.All_items]
  | cons v vs ih => simp [json_node.All_items, ih]

theorem All_members_iff {X : Type} (P : json_node X → Prop)
    (ms : List (List Char × json_node X)) :
    json_node.All_members P ms ↔ ∀ p ∈ ms, json_node.All P p.2 := by
  induction ms with
  | nil => simp [json_node.All_members]
  | cons p ms ih =>
    obtain ⟨k, v⟩ := p
    rw [json_node.All_members, ih]
    constructor
    · rintro ⟨h1, h2⟩ q hq
      rcases List.mem_cons.1 hq with rfl | hq
      · exact h1
      · exact h2 q hq
    · intro h
      exact ⟨h (k, v) (List.mem_cons_self _ _), fun q hq => h q (List.mem_cons_of_mem _ hq)⟩

theorem serialise_items_cons {X : Type} (fmt : X → List Char) (v : json_node X)
    (vs : List (json_node X)) :
    serialise_items fmt (v :: vs) =
      serialise fmt v ++ (comma_if vs ++ serialise_items fmt vs) := by
  rw [serialise_items]

theorem serialise_members_cons {X : Type} (fmt : X → List Char) (k : List Char)
    (v : json_node X) (ms : List (List Char × json_node X)) :
    serialise_members fmt ((k, v) :: ms) =
      '"' :: (k ++ '"' :: ':' ::
        (serialise fmt v ++ (comma_if ms ++ serialise_members fmt ms))) := by
  rw [serialise_members]

theorem IsWs_nil : IsWs [] := fun _ hc => by cases hc

theorem Sep_nil : Sep [] := Or.inr IsWs_nil

theorem Sep_comma : Sep [','] := Or.inl ⟨[], [], IsWs_nil, IsWs_nil, rfl⟩

/-- The elements of an array written with commas between them, and with or
without one comma after the last, form an array body. -/
theorem ArrBody_serialise {X D : Type} (atof : List Char → D) (fmt : X → List Char)
    (val : X → D) (vs : List (json_node X))
    (h : ∀ v ∈ vs, ParsesTo atof (serialise fmt v) (denote val v)) (tr : List Char)
    (htr : tr = [] ∨ (tr = [','] ∧ vs ≠ [])) :
    ArrBody atof (serialise_items fmt vs ++ tr) (denote_items val vs) := by
  induction vs with
  | nil =>
    rcases htr with rfl | ⟨-, hne⟩
    · exact ArrBody.nil [] (IsWs_nil)
    · exact absurd rfl hne
  | cons v vs ih =>
    have hv := h v (List.mem_cons_self _ _)
    have hvs : ∀ u ∈ vs, ParsesTo atof (serialise fmt u) (denote val u) :=
      fun u hu => h u (List.mem_cons_of_mem _ hu)
    rw [serialise_items_cons, denote_items]
    cases vs with
    | nil =>
      have hsep : Sep tr := by
        rcases htr with rfl | ⟨rfl, -⟩
        · exact Sep_nil
        · exact Sep_comma
      have hfol : Follow (tr ++ ([] ++ [']'])) := by
        rcases htr with rfl | ⟨rfl, -⟩
        · exact Follow_rbrack _
        · exact Follow_comma _
      have := ArrBody.cons (serialise fmt v) tr [] (denote val v) [] hv hsep hfol
        (ArrBody.nil [] (IsWs_nil))
      simpa [comma_if, serialise_items, denote_items] using this
    | cons u us =>
      have htr1 : tr = [] ∨ (tr = [','] ∧ u :: us ≠ []) := by
        rcases htr with rfl | ⟨rfl, -⟩
        · exact Or.inl rfl
        · exact Or.inr ⟨rfl, by simp⟩
      have hT := ih hvs htr1
      have hsep : Sep [','] := Sep_comma
      have := ArrBody.cons (serialise fmt v) [','] (serialise_items fmt (u :: us) ++ tr)
        (denote val v) (denote_items val (u :: us)) hv hsep (Follow_comma _) hT
      simpa [comma_if] using this

/-- The members of an object written with commas between them, and with or
without one comma after the last, form an object body. -/
theorem ObjBody_serialise {X D : Type} (atof : List Char → D) (fmt : X → List Char)
    (val : X → D) (ms : List (List Char × json_node X))
    (hk : ∀ p ∈ ms, NoQuote p.1)
    (h : ∀ p ∈ ms, ParsesTo atof (serialise fmt p.2) (denote val p.2)) (tr : List Char)
    (htr : tr = [] ∨ (tr = [','] ∧ ms ≠ [])) :
    ObjBody atof (serialise_members fmt ms ++ tr) (denote_members val ms) := by
  induction ms with
  | nil =>
    rcases htr with rfl | ⟨-, hne⟩
    · exact ObjBody.nil [] (IsWs_nil)
    · exact absurd rfl hne
  | cons p ms ih =>
    obtain ⟨k, v⟩ := p
    have hv := h (k, v) (List.mem_cons_self _ _)
    have hkv : NoQuote k := hk (k, v) (List.mem_cons_self _ _)
    have hms : ∀ q ∈ ms, ParsesTo atof (serialise fmt q.2) (denote val q.2) :=
      fun q hq => h q (List.mem_cons_of_mem _ hq)
    have hkms : ∀ q ∈ ms, NoQuote q.1 := fun q hq => hk q (List.mem_cons_of_mem _ hq)
    have hw : IsWs [] := IsWs_nil
    rw [serialise_members_cons, denote_members]
    cases ms with
    | nil =>
      have hsep : Sep tr := by
        rcases htr with rfl | ⟨rfl, -⟩
        · exact Sep_nil
        · exact Sep_comma
      have hfol : Follow (tr ++ ([] ++ ['}'])) := by
        rcases htr with rfl | ⟨rfl, -⟩
        · exact Follow_rbrace _
        · exact Follow_comma _
      have := ObjBody.cons k [] (serialise fmt v) tr [] (denote val v) [] hkv hw hv hsep hfol
        (ObjBody.nil [] hw)
      simpa [comma_if, serialise_members, denote_members] using this
    | cons q qs =>
      have htr1 : tr = [] ∨ (tr = [','] ∧ q :: qs ≠ []) := by
        rcases htr with rfl | ⟨rfl, -⟩
        · exact Or.inl rfl
        · exact Or.inr ⟨rfl, by simp⟩
      have hT := ih hkms hms htr1
      have hsep : Sep [','] := Sep_comma
      have := ObjBody.cons k [] (serialise fmt v) [','] (serialise_members fmt (q :: qs) ++ tr)
        (denote val v) (denote_members val (q :: qs)) hkv hw hv hsep (Follow_comma _) hT
      simpa [comma_if] using this

/-- The text of a writable tree is read as the tree it denotes. -/
theorem ParsesTo_serialise {X D : Type} (atof : List Char → D) (fmt : X → List Char)
    (t : json_node X) (h : json_node.All (Writable fmt) t) :
    ParsesTo atof (serialise fmt t) (denote (fun x => atof (fmt x)) t) := by
  induction t using json_node.induct with
  | hobj ms ih =>
    rw [json_node.All, All_members_iff] at h
    have hb := ObjBody_serialise atof fmt (fun x => atof (fmt x)) ms h.1
      (fun p hp => ih p hp (h.2 p hp)) [] (Or.inl rfl)
    rw [List.append_nil] at hb
    rw [serialise, denote]
    exact ParsesTo_obj atof _ _ hb
  | harr vs ih =>
    rw [json_node.All, All_items_iff] at h
    have hb := ArrBody_serialise atof fmt (fun x => atof (fmt x)) vs
      (fun v hv => ih v hv (h.2 v hv)) [] (Or.inl rfl)
    rw [List.append_nil] at hb
    rw [serialise, denote]
    exact ParsesTo_arr atof _ _ hb
  | hstr s =>
    rw [serialise, denote]
    exact ParsesTo_str atof s h
  | hnum x =>
    rw [serialise, denote]
    exact ParsesTo_num atof (fmt x) h
  | hbool b =>
    rw [serialise, denote]
    exact ParsesTo_bool atof b

/-! ## Maps -/

theorem obj_set_all_cons {V : Type} (n : List (List Char × V)) (k : List Char) (v : V)
    (ms : List (List Char × V)) :
    obj_set_all n ((k, v) :: ms) = obj_set_all (obj_set n k v) ms := rfl

theorem obj_set_all_append {V : Type} (n ms1 ms2 : List (List Char × V)) :
    obj_set_all n (ms1 ++ ms2) = obj_set_all (obj_set_all n ms1) ms2 := by
  simp [obj_set_all, List.foldl_append]

theorem obj_set_cons {V : Type} (k1 : List Char) (v1 : V) (n : List (List Char × V))
    (k : List Char) (v : V) :
    obj_set ((k1, v1) :: n) k v =
      if k1 = k then (k, v) :: n else (k1, v1) :: obj_set n k v := rfl

theorem obj_get_cons {V : Type} (k1 : List Char) (v1 : V) (n : List (List Char × V))
    (k : List Char) :
    obj_get ((k1, v1) :: n) k = if k1 = k then some v1 else obj_get n k := rfl

theorem obj_get_obj_set_self {V : Type} (n : List (List Char × V)) (k : List Char) (v : V) :
    obj_get (obj_set n k v) k = some v := by
  induction n with
  | nil => rw [obj_set, obj_get_cons, if_pos rfl]
  | cons p n ih =>
    obtain ⟨k1, v1⟩ := p
    rw [obj_set_cons]
    by_cases h : k1 = k
    · rw [if_pos h, obj_get_cons, if_pos rfl]
    · rw [if_neg h, obj_get_cons, if_neg h, ih]

theorem obj_get_obj_set_ne {V : Type} (n : List (List Char × V)) (k k1 : List Char) (v : V)
    (h : k ≠ k1) : obj_get (obj_set n k v) k1 = obj_get n k1 := by
  induction n with
  | nil => rw [obj_set, obj_get_cons, if_neg h]
  | cons p n ih =>
    obtain ⟨k2, v2⟩ := p
    rw [obj_set_cons]
    by_cases h2 : k2 = k
    · rw [if_pos h2, obj_get_cons, if_neg h, obj_get_cons, if_neg (h2 ▸ h)]
    · rw [if_neg h2, obj_get_cons, obj_get_cons, ih]

/-- The keys of a map. -/
theorem keys_obj_set {V : Type} (n : List (List Char × V)) (k : List Char) (v : V) :
    (obj_set n k v).map Prod.fst =
      if k ∈ n.map Prod.fst then n.map Prod.fst else n.map Prod.fst ++ [k] := by
  induction n with
  | nil => rw [obj_set, List.map_nil, if_neg (List.not_mem_nil k)]; rfl
  | cons p n ih =>
    obtain ⟨k1, v1⟩ := p
    rw [obj_set_cons]
    by_cases h : k1 = k
    · subst h
      rw [if_pos rfl, List.map_cons, List.map_cons, if_pos (List.mem_cons_self _ _)]
    · rw [if_neg h, List.map_cons, List.map_cons, ih]
      have hiff : k ∈ k1 :: n.map Prod.fst ↔ k ∈ n.map Prod.fst := by
        rw [List.mem_cons]
        exact ⟨fun hh => hh.resolve_left (fun e => h e.symm), Or.inr⟩
      by_cases hm : k ∈ n.map Prod.fst
      · rw [if_pos hm, if_pos (hiff.2 hm)]
      · rw [if_neg hm, if_neg (fun hh => hm (hiff.1 hh))]; rfl

/-- An assignment keeps the keys of a map pairwise distinct. -/
theorem nodup_obj_set {V : Type} (n : List (List Char × V)) (k : List Char) (v : V)
    (h : (n.map Prod.fst).Nodup) : ((obj_set n k v).map Prod.fst).Nodup := by
  rw [keys_obj_set]
  by_cases hm : k ∈ n.map Prod.fst
  · rw [if_pos hm]; exact h
  · rw [if_neg hm]
    refine List.Nodup.append h (List.nodup_singleton k) ?_
    intro a ha hb
    rw [List.mem_singleton] at hb
    exact hm (hb ▸ ha)

theorem nodup_obj_set_all {V : Type} (ms n : List (List Char × V))
    (h : (n.map Prod.fst).Nodup) : ((obj_set_all n ms).map Prod.fst).Nodup := by
  induction ms generalizing n with
  | nil => exact h
  | cons p ms ih =>
    obtain ⟨k, v⟩ := p
    rw [obj_set_all_cons]
    exact ih _ (nodup_obj_set n k v h)

theorem obj_get_obj_set_all_of_not_mem {V : Type} (ms n : List (List Char × V)) (k : List Char)
    (h : k ∉ ms.map Prod.fst) : obj_get (obj_set_all n ms) k = obj_get n k := by
  induction ms generalizing n with
  | nil => rfl
  | cons p ms ih =>
    obtain ⟨k1, v1⟩ := p
    rw [List.map_cons, List.mem_cons, not_or] at h
    rw [obj_set_all_cons, ih _ h.2, obj_get_obj_set_ne n k1 k v1 (fun e => h.1 e.symm)]

theorem mem_keys_of_obj_get {V : Type} (n : List (List Char × V)) (k : List Char) (v : V)
    (h : obj_get n k = some v) : k ∈ n.map Prod.fst := by
  induction n with
  | nil => cases h
  | cons p n ih =>
    obtain ⟨k1, v1⟩ := p
    rw [List.map_cons, List.mem_cons]
    by_cases h1 : k1 = k
    · exact Or.inl h1.symm
    · rw [obj_get_cons, if_neg h1] at h
      exact Or.inr (ih h)

/-- The number of entries a map holds for a key. -/
theorem entries_of_nodup {V : Type} (n : List (List Char × V)) (k : List Char)
    (hn : (n.map Prod.fst).Nodup) (hk : k ∈ n.map Prod.fst) :
    (n.filter fun p => decide (p.1 = k)).length = 1 := by
  induction n with
  | nil => cases hk
  | cons p n ih =>
    obtain ⟨k1, v1⟩ := p
    rw [List.map_cons, List.nodup_cons] at hn
    rw [List.map_cons, List.mem_cons] at hk
    by_cases h1 : k1 = k
    · subst h1
      have hnone : n.filter (fun p => decide (p.1 = k1)) = [] := by
        rw [List.filter_eq_nil_iff]
        intro q hq hd
        have hq1 : q.1 ∈ n.map Prod.fst := List.mem_map_of_mem Prod.fst hq
        rw [of_decide_eq_true hd] at hq1
        exact hn.1 hq1
      rw [List.filter_cons_of_pos (by exact decide_eq_true rfl), hnone]
      rfl
    · rw [List.filter_cons_of_neg (by simpa using h1)]
      exact ih hn.2 (hk.resolve_left (fun e => h1 e.symm))

/-- Last write wins: after the members are assigned in order, a key maps to
the value of its last occurrence and has exactly one entry. -/
theorem obj_set_all_last {V : Type} (ms1 ms2 : List (List Char × V)) (k : List Char) (v : V)
    (h : k ∉ ms2.map Prod.fst) :
    obj_get (obj_set_all [] (ms1 ++ (k, v) :: ms2)) k = some v ∧
      ((obj_set_all [] (ms1 ++ (k, v) :: ms2)).filter fun p => decide (p.1 = k)).length = 1 := by
  have hget : obj_get (obj_set_all [] (ms1 ++ (k, v) :: ms2)) k = some v := by
    rw [obj_set_all_append, obj_set_all_cons, obj_get_obj_set_all_of_not_mem ms2 _ k h,
      obj_get_obj_set_self]
  exact ⟨hget, entries_of_nodup _ k (nodup_obj_set_all _ [] List.nodup_nil)
    (mem_keys_of_obj_get _ k v hget)⟩

theorem obj_set_of_not_mem {V : Type} (n : List (List Char × V)) (k : List Char) (v : V)
    (hk : k ∉ n.map Prod.fst) : obj_set n k v = n ++ [(k, v)] := by
  induction n with
  | nil => rfl
  | cons q n ihn =>
    obtain ⟨k1, v1⟩ := q
    rw [List.map_cons, List.mem_cons, not_or] at hk
    rw [obj_set_cons, if_neg (fun e => hk.1 e.symm), ihn hk.2]
    rfl

/-- Members with pairwise distinct keys, assigned in order to a map that has
none of these keys, are appended to it. -/
theorem obj_set_all_of_nodup {V : Type} (ms n : List (List Char × V))
    (h : ((n ++ ms).map Prod.fst).Nodup) : obj_set_all n ms = n ++ ms := by
  induction ms generalizing n with
  | nil => rw [List.append_nil]; rfl
  | cons p ms ih =>
    obtain ⟨k, v⟩ := p
    have hk : k ∉ n.map Prod.fst := by
      intro hm
      rw [List.map_append, List.nodup_append] at h
      exact h.2.2 hm (List.mem_map_of_mem Prod.fst (List.mem_cons_self _ _))
    have h2 : ((n ++ [(k, v)] ++ ms).map Prod.fst).Nodup := by
      rw [List.append_assoc]; exact h
    rw [obj_set_all_cons, obj_set_of_not_mem n k v hk, ih (n ++ [(k, v)]) h2,
      List.append_assoc]
    rfl

theorem denote_members_append {X D : Type} (val : X → D)
    (ms1 ms2 : List (List Char × json_node X)) :
    denote_members val (ms1 ++ ms2) = denote_members val ms1 ++ denote_members val ms2 := by
  induction ms1 with
  | nil => rfl
  | cons p ms ih =>
    obtain ⟨k, v⟩ := p
    rw [List.cons_append, denote_members, denote_members, ih]
    rfl

theorem keys_denote_members {X D : Type} (val : X → D) (ms : List (List Char × json_node X)) :
    (denote_members val ms).map Prod.fst = ms.map Prod.fst := by
  induction ms with
  | nil => rfl
  | cons p ms ih =>
    obtain ⟨k, v⟩ := p
    rw [denote_members, List.map_cons, List.map_cons, ih]

theorem denote_items_eq {D : Type} (val : D → D) (vs : List (json_node D))
    (h : ∀ v ∈ vs, denote val v = v) : denote_items val vs = vs := by
  induction vs with
  | nil => rfl
  | cons v vs ih =>
    rw [denote_items, h v (List.mem_cons_self _ _),
      ih (fun u hu => h u (List.mem_cons_of_mem _ hu))]

theorem denote_members_eq {D : Type} (val : D → D) (ms : List (List Char × json_node D))
    (h : ∀ p ∈ ms, denote val p.2 = p.2) : denote_members val ms = ms := by
  induction ms with
  | nil => rfl
  | cons p ms ih =>
    obtain ⟨k, v⟩ := p
    rw [denote_members, h (k, v) (List.mem_cons_self _ _),
      ih (fun u hu => h u (List.mem_cons_of_mem _ hu))]

theorem denote_items_length {X D : Type} (val : X → D) (vs : List (json_node X)) :
    (denote_items val vs).length = vs.length := by
  induction vs with
  | nil => rfl
  | cons v vs ih => simp [denote_items, ih]

/-- A tree whose objects have pairwise distinct keys and whose numbers are
given back by the conversion denotes itself. -/
theorem denote_self {D : Type} (atof : List Char → D) (fmt : D → List Char) (t : json_node D)
    (hk : json_node.All DistinctKeys t) (hn : json_node.All (NumberKept atof fmt) t) :
    denote (fun x => atof (fmt x)) t = t := by
  induction t using json_node.induct with
  | hobj ms ih =>
    rw [json_node.All, All_members_iff] at hk hn
    rw [denote, denote_members_eq _ ms (fun p hp => ih p hp (hk.2 p hp) (hn.2 p hp)),
      obj_set_all_of_nodup ms [] hk.1]
    rfl
  | harr vs ih =>
    rw [json_node.All, All_items_iff] at hk hn
    rw [denote, denote_items_eq _ vs (fun v hv => ih v hv (hk.2 v hv) (hn.2 v hv))]
  | hstr s => rfl
  | hnum x => rw [denote]; exact congrArg _ hn
  | hbool b => rfl

/-! ## Errors of the parser -/

theorem Outcome.bind_eq_ok {α β : Type} (x : Outcome α) (f : α → Outcome β) (b : β)
    (h : x.bind f = .ok b) : ∃ a, x = .ok a ∧ f a = .ok b := by
  cases x with
  | ok a => exact ⟨a, rfl, h⟩
  | fail msg => cases h
  | outOfFuel => cases h

/-- When `Match` succeeds the current token has the type asked for, and the
result is that of `Next`. -/
theorem Match_eq_ok (l l1 : Lexer) (t : Int) (h : l.Match t = .ok l1) :
    l._curr._type = t ∧ l.Next = .ok l1 := by
  rw [Lexer.Match] at h
  cases hg : g_tok_names t with
  | none => rw [hg] at h; cases h
  | some name =>
    rw [hg] at h
    by_cases ht : l._curr._type = t
    · simp only [ht, ne_eq, not_true_eq_false, if_false] at h
      exact ⟨ht, h⟩
    · simp only [ht, ne_eq, not_false_eq_true, if_true] at h
      cases h

/-- The error of `Match` on a token of another type. -/
theorem Match_fail (l : Lexer) (t : Int) (name : String)
    (hg : g_tok_names t = some name) (ht : l._curr._type ≠ t) :
    l.Match t = .fail ("expected " ++ name ++ ", got " ++ l._curr.Name) := by
  rw [Lexer.Match, hg]
  simp only [ht, ne_eq, not_false_eq_true, if_true]

theorem parse_json_obj_loop_exit {D : Type} (atof : List Char → D) (fuel : Nat) :
    ∀ (n : List (List Char × json_node D)) (lex : Lexer)
      (n1 : List (List Char × json_node D)) (lexc : Lexer),
      parse_json_obj_loop atof fuel n lex = .ok (n1, lexc) →
      lexc._curr._type = TOK_EOF ∨ lexc._curr._type = TOK_RBRACE := by
  induction fuel with
  | zero => intro n lex n1 lexc h; rw [parse_json_obj_loop] at h; cases h
  | succ f ih =>
    intro n lex n1 lexc h
    rw [parse_json_obj_loop] at h
    by_cases hc : lex._curr._type ≠ TOK_EOF ∧ lex._curr._type ≠ TOK_RBRACE
    · rw [if_pos hc] at h
      obtain ⟨l1, -, h⟩ := Outcome.bind_eq_ok _ _ _ h
      obtain ⟨l2, -, h⟩ := Outcome.bind_eq_ok _ _ _ h
      obtain ⟨r, -, h⟩ := Outcome.bind_eq_ok _ _ _ h
      obtain ⟨l3, -, h⟩ := Outcome.bind_eq_ok _ _ _ h
      exact ih _ _ _ _ h
    · rw [if_neg hc] at h
      cases h
      by_cases h1 : lex._curr._type = TOK_EOF
      · exact Or.inl h1
      · by_cases h2 : lex._curr._type = TOK_RBRACE
        · exact Or.inr h2
        · exact absurd ⟨h1, h2⟩ hc

theorem parse_json_arr_loop_exit {D : Type} (atof : List Char → D) (fuel : Nat) :
    ∀ (n : List (json_node D)) (lex : Lexer) (n1 : List (json_node D)) (lexc : Lexer),
      parse_json_arr_loop atof fuel n lex = .ok (n1, lexc) →
      lexc._curr._type = TOK_EOF ∨ lexc._curr._type = TOK_RBRACK := by
  induction fuel with
  | zero => intro n lex n1 lexc h; rw [parse_json_arr_loop] at h; cases h
  | succ f ih =>
    intro n lex n1 lexc h
    rw [parse_json_arr_loop] at h
    by_cases hc : lex._curr._type ≠ TOK_EOF ∧ lex._curr._type ≠ TOK_RBRACK
    · rw [if_pos hc] at h
      obtain ⟨r, -, h⟩ := Outcome.bind_eq_ok _ _ _ h
      obtain ⟨l3, -, h⟩ := Outcome.bind_eq_ok _ _ _ h
      exact ih _ _ _ _ h
    · rw [if_neg hc] at h
      cases h
      by_cases h1 : lex._curr._type = TOK_EOF
      · exact Or.inl h1
      · by_cases h2 : lex._curr._type = TOK_RBRACK
        · exact Or.inr h2
        · exact absurd ⟨h1, h2⟩ hc

/-- A successful parse that starts on a left-brace is this run: the advance
over the brace, the member loop, which returns with the right-brace as the
current token, and `Match` on the right-brace, which gives the lexer returned;
the value is the Object of the entries the loop returned. -/
theorem parse_json_lbrace_closed {D : Type} (atof : List Char → D) (fuel : Nat) (lex : Lexer)
    (v : json_node D) (lex1 : Lexer) (ht : lex._curr._type = TOK_LBRACE)
    (h : parse_json atof fuel lex = .ok (v, lex1)) :
    ∃ (f : Nat) (lex0 : Lexer) (n : List (List Char × json_node D)) (lexc : Lexer),
      fuel = f + 2 ∧ lex.Next = .ok lex0 ∧
      parse_json_obj_loop atof f [] lex0 = .ok (n, lexc) ∧
      lexc._curr._type = TOK_RBRACE ∧ lexc.Match TOK_RBRACE = .ok lex1 ∧
      lexc.Next = .ok lex1 ∧ v = .obj n := by
  obtain ⟨⟨l, t⟩, fp, pb⟩ := lex
  simp only at ht
  subst ht
  cases fuel with
  | zero => rw [parse_json] at h; cases h
  | succ f =>
    cases f with
    | zero => cases h
    | succ f =>
      rw [parse_json_lbrace_tok] at h
      obtain ⟨l1, hn, h⟩ := Outcome.bind_eq_ok _ _ _ h
      obtain ⟨r, hl, h⟩ := Outcome.bind_eq_ok _ _ _ h
      obtain ⟨l2, hm, h⟩ := Outcome.bind_eq_ok _ _ _ h
      cases h
      exact ⟨f, l1, r.1, r.2, rfl, hn, hl, (Match_eq_ok _ _ _ hm).1, hm,
        (Match_eq_ok _ _ _ hm).2, rfl⟩

/-- A successful parse that starts on a left-bracket is this run: the advance
over the bracket, the element loop, which returns with the right-bracket as
the current token, and `Match` on the right-bracket, which gives the lexer
returned; the value is the Array of the elements the loop returned. -/
theorem parse_json_lbrack_closed {D : Type} (atof : List Char → D) (fuel : Nat) (lex : Lexer)
    (v : json_node D) (lex1 : Lexer) (ht : lex._curr._type = TOK_LBRACK)
    (h : parse_json atof fuel lex = .ok (v, lex1)) :
    ∃ (f : Nat) (lex0 : Lexer) (n : List (json_node D)) (lexc : Lexer),
      fuel = f + 2 ∧ lex.Next = .ok lex0 ∧
      parse_json_arr_loop atof f [] lex0 = .ok (n, lexc) ∧
      lexc._curr._type = TOK_RBRACK ∧ lexc.Match TOK_RBRACK = .ok lex1 ∧
      lexc.Next = .ok lex1 ∧ v = .arr n := by
  obtain ⟨⟨l, t⟩, fp, pb⟩ := lex
  simp only at ht
  subst ht
  cases fuel with
  | zero => rw [parse_json] at h; cases h
  | succ f =>
    cases f with
    | zero => cases h
    | succ f =>
      rw [parse_json_lbrack_tok] at h
      obtain ⟨l1, hn, h⟩ := Outcome.bind_eq_ok _ _ _ h
      obtain ⟨r, hl, h⟩ := Outcome.bind_eq_ok _ _ _ h
      obtain ⟨l2, hm, h⟩ := Outcome.bind_eq_ok _ _ _ h
      cases h
      exact ⟨f, l1, r.1, r.2, rfl, hn, hl, (Match_eq_ok _ _ _ hm).1, hm,
        (Match_eq_ok _ _ _ hm).2, rfl⟩

/-- On the token `TOK_EOF` at a value position `parse_json` fails with the
number of that type. -/
theorem parse_json_eof_fail {D : Type} (atof : List Char → D) (fuel : Nat) (lex : Lexer)
    (he : lex._curr._type = TOK_EOF) :
    parse_json atof (fuel + 1) lex = .fail "unknown token type: -1" := by
  obtain ⟨⟨l, t⟩, fp, pb⟩ := lex
  simp only at he
  subst he
  rfl

/-- End-of-input behind a key: the object loop fails in `Match(TOK_COLON)`. -/
theorem parse_json_obj_loop_eof_colon {D : Type} (atof : List Char → D) (fuel : Nat)
    (n : List (List Char × json_node D)) (lex lex1 : Lexer)
    (ht : lex._curr._type = TOK_STR) (hn : lex.Next = .ok lex1)
    (he : lex1._curr._type = TOK_EOF) :
    parse_json_obj_loop atof (fuel + 1) n lex = .fail "expected TOK_COLON, got TOK_EOF" := by
  obtain ⟨⟨l, t⟩, fp, pb⟩ := lex
  simp only at ht
  subst ht
  obtain ⟨⟨l1, t1⟩, fp1, pb1⟩ := lex1
  simp only at he
  subst he
  rw [parse_json_obj_loop]
  have ht1 : TOK_STR ≠ TOK_EOF := by decide
  have ht2 : TOK_STR ≠ TOK_RBRACE := by decide
  simp only [ht1, ht2, ne_eq, not_false_eq_true, and_self, if_true]
  rw [Match_str, hn]
  rfl

/-- End-of-input behind the colon of a key: the object loop fails in
`parse_json` at the value position. -/
theorem parse_json_obj_loop_eof_value {D : Type} (atof : List Char → D) (fuel : Nat)
    (n : List (List Char × json_node D)) (lex lex1 lex2 : Lexer)
    (ht : lex._curr._type = TOK_STR) (hn : lex.Next = .ok lex1)
    (hc : lex1._curr._type = TOK_COLON) (hn1 : lex1.Next = .ok lex2)
    (he : lex2._curr._type = TOK_EOF) :
    parse_json_obj_loop atof (fuel + 2) n lex = .fail "unknown token type: -1" := by
  obtain ⟨⟨l, t⟩, fp, pb⟩ := lex
  simp only at ht
  subst ht
  obtain ⟨⟨l1, t1⟩, fp1, pb1⟩ := lex1
  simp only at hc
  subst hc
  rw [parse_json_obj_loop]
  have ht1 : TOK_STR ≠ TOK_EOF := by decide
  have ht2 : TOK_STR ≠ TOK_RBRACE := by decide
  simp only [ht1, ht2, ne_eq, not_false_eq_true, and_self, if_true]
  rw [Match_str, hn]
  show ((Lexer.Match ⟨⟨l1, TOK_COLON⟩, fp1, pb1⟩ TOK_COLON).bind _) = _
  rw [Match_colon, hn1]
  show ((parse_json atof (fuel + 1) lex2).bind _) = _
  rw [parse_json_eof_fail atof fuel lex2 he]
  rfl

/-- An error of the member loop is the error of the object. -/
theorem parse_json_obj_loop_fail {D : Type} (atof : List Char → D) (fuel : Nat)
    (lex lex0 : Lexer) (msg : String) (ht : lex._curr._type = TOK_LBRACE)
    (hn : lex.Next = .ok lex0) (h : parse_json_obj_loop atof fuel [] lex0 = .fail msg) :
    parse_json atof (fuel + 2) lex = .fail msg := by
  obtain ⟨⟨l, t⟩, fp, pb⟩ := lex
  simp only at ht
  subst ht
  rw [parse_json_lbrace_tok, hn]
  show ((parse_json_obj_loop atof fuel [] lex0).bind _) = _
  rw [h]
  rfl

/-- An error of the element loop is the error of the array. -/
theorem parse_json_arr_loop_fail {D : Type} (atof : List Char → D) (fuel : Nat)
    (lex lex0 : Lexer) (msg : String) (ht : lex._curr._type = TOK_LBRACK)
    (hn : lex.Next = .ok lex0) (h : parse_json_arr_loop atof fuel [] lex0 = .fail msg) :
    parse_json atof (fuel + 2) lex = .fail msg := by
  obtain ⟨⟨l, t⟩, fp, pb⟩ := lex
  simp only at ht
  subst ht
  rw [parse_json_lbrack_tok, hn]
  show ((parse_json_arr_loop atof fuel [] lex0).bind _) = _
  rw [h]
  rfl

/-! ## What one scan reads -/

theorem code_inj (ch ch1 : Char) (h : code ch = code ch1) : ch = ch1 := by
  have := congrArg toChar h
  rwa [toChar_code, toChar_code] at this

theorem code_ne_EOF (ch : Char) : code ch ≠ EOF := by
  have h : (0 : Int) ≤ code ch := Int.ofNat_nonneg _
  intro he
  rw [he] at h
  exact absurd h (by decide)

theorem fgetc_inj (r r1 : List Char) (h : fgetc r = fgetc r1) : r = r1 := by
  cases r with
  | nil =>
    cases r1 with
    | nil => rfl
    | cons c t =>
      rw [fgetc_nil, fgetc_cons] at h
      exact absurd (congrArg Prod.fst h).symm (code_ne_EOF c)
  | cons c t =>
    cases r1 with
    | nil =>
      rw [fgetc_nil, fgetc_cons] at h
      exact absurd (congrArg Prod.fst h) (code_ne_EOF c)
    | cons c1 t1 =>
      rw [fgetc_cons, fgetc_cons] at h
      obtain ⟨h1, h2⟩ := Prod.mk.inj h
      rw [code_inj c c1 h1, h2]

/-- From a read position the next scan is the scan of the text left. -/
theorem Next_of_At (l : Lexer) (r : List Char) (h : l.At r) : l.Next = Next_scan r := by
  obtain ⟨cur, fp, pb⟩ := l
  rcases h with ⟨h1, h2⟩ | ⟨-, h2⟩
  · simp only at h1 h2
    subst h1; subst h2
    exact Next_of_putback_zero cur fp
  · simp only at h2
    have h3 := Next_of_fgetc cur r
    rw [h2] at h3
    exact h3

/-- A lexer is at one read position only. -/
theorem At_unique (l : Lexer) (r r1 : List Char) (h : l.At r) (h1 : l.At r1) : r = r1 := by
  rcases h with ⟨ha, hb⟩ | ⟨ha, hb⟩
  · rcases h1 with ⟨hc, hd⟩ | ⟨hc, hd⟩
    · rw [← hb, ← hd]
    · exact absurd ha hc
  · rcases h1 with ⟨hc, hd⟩ | ⟨hc, hd⟩
    · exact absurd hc ha
    · exact fgetc_inj r r1 (by rw [hb, hd])

theorem At_init (s : List Char) : (Lexer.init s).At s := Or.inl ⟨rfl, rfl⟩

/-- A text splits into its leading digits and a rest that starts with no digit. -/
theorem digits_split (x : List Char) :
    ∃ ds r, x = ds ++ r ∧ Digits ds ∧ isdigit (fgetc r).1 = false := by
  induction x with
  | nil => exact ⟨[], [], rfl, (fun _ h => by cases h), rfl⟩
  | cons ch x ih =>
    by_cases hd : isdigit (code ch) = true
    · obtain ⟨ds, r, hx, hds, hr⟩ := ih
      refine ⟨ch :: ds, r, by rw [hx]; rfl, ?_, hr⟩
      intro c hc
      rcases List.mem_cons.1 hc with rfl | hc
      · exact hd
      · exact hds c hc
    · refine ⟨[], ch :: x, rfl, (fun _ h => by cases h), ?_⟩
      rw [fgetc_cons]
      simpa using hd

/-- A text splits into its leading letters and a rest that starts with no letter. -/
theorem alpha_split (x : List Char) :
    ∃ w r, x = w ++ r ∧ (∀ ch ∈ w, isalpha (code ch) = true) ∧ isalpha (fgetc r).1 = false := by
  induction x with
  | nil => exact ⟨[], [], rfl, (fun _ h => by cases h), rfl⟩
  | cons ch x ih =>
    by_cases hd : isalpha (code ch) = true
    · obtain ⟨ds, r, hx, hds, hr⟩ := ih
      refine ⟨ch :: ds, r, by rw [hx]; rfl, ?_, hr⟩
      intro c hc
      rcases List.mem_cons.1 hc with rfl | hc
      · exact hd
      · exact hds c hc
    · refine ⟨[], ch :: x, rfl, (fun _ h => by cases h), ?_⟩
      rw [fgetc_cons]
      simpa using hd

/-- A text whose first character has the code `n` of the character `c`. -/
theorem cons_of_fgetc (r : List Char) (c : Char) (h : (fgetc r).1 = code c) :
    ∃ t, r = c :: t := by
  cases r with
  | nil => rw [fgetc_nil] at h; exact absurd h.symm (code_ne_EOF c)
  | cons ch t =>
    rw [fgetc_cons] at h
    exact ⟨t, by rw [code_inj ch c h]⟩

/-- What `read_num` reads depends on the input through the literal and the
character behind it only: the input splits into the literal `t` and a rest
`r`, and in front of every text that starts as `r` does, or that may follow a
value, `read_num` reads `t` again. -/
theorem read_num_local (d : Char) (fp : List Char) (hd : isdigit (code d) = true) :
    ∃ t r, d :: fp = t ++ r ∧ t ≠ [] ∧
      ∀ r1, ((fgetc r1).1 = (fgetc r).1 ∨ Follow r1) →
        read_num (fgetc (t ++ r1)).1 (fgetc (t ++ r1)).2 =
          (t, (fgetc r1).1, (fgetc r1).2) := by
  obtain ⟨ds, r1, hx, hds, hr1⟩ := digits_split (d :: fp)
  have hne : ds ≠ [] := by
    intro h
    subst h
    rw [List.nil_append] at hx
    rw [← hx, fgetc_cons, hd] at hr1
    cases hr1
  have hstop : ∀ (r r0 : List Char), isdigit (fgetc r).1 = false →
      ((fgetc r0).1 = (fgetc r).1 ∨ Follow r0) → isdigit (fgetc r0).1 = false := by
    intro r r0 hr hc
    rcases hc with h | h
    · rw [h]; exact hr
    · exact ((Follow_iff _).1 h).1
  by_cases h46 : (fgetc r1).1 = 46
  · obtain ⟨r2, rfl⟩ := cons_of_fgetc r1 '.' h46
    obtain ⟨ds2, r3, rfl, hds2, hr3⟩ := digits_split r2
    by_cases he : (fgetc r3).1 = 101 ∨ (fgetc r3).1 = 69
    · have hex : ∃ e r4, r3 = e :: r4 ∧ (e = 'e' ∨ e = 'E') := by
        rcases he with h | h
        · obtain ⟨t, rfl⟩ := cons_of_fgetc r3 'e' h
          exact ⟨'e', t, rfl, Or.inl rfl⟩
        · obtain ⟨t, rfl⟩ := cons_of_fgetc r3 'E' h
          exact ⟨'E', t, rfl, Or.inr rfl⟩
      obtain ⟨e, r4, rfl, hee⟩ := hex
      by_cases hs : (fgetc r4).1 = 43 ∨ (fgetc r4).1 = 45
      · have hsx : ∃ sc r5, r4 = sc :: r5 ∧ (sc = '+' ∨ sc = '-') := by
          rcases hs with h | h
          · obtain ⟨t, rfl⟩ := cons_of_fgetc r4 '+' h
            exact ⟨'+', t, rfl, Or.inl rfl⟩
          · obtain ⟨t, rfl⟩ := cons_of_fgetc r4 '-' h
            exact ⟨'-', t, rfl, Or.inr rfl⟩
        obtain ⟨sc, r5, rfl, hsc⟩ := hsx
        obtain ⟨ds3, r6, rfl, hds3, hr6⟩ := digits_split r5
        refine ⟨ds ++ '.' :: (ds2 ++ e :: ([sc] ++ ds3)), r6, by rw [hx]; simp, by simp, ?_⟩
        intro r0 hc
        have hsg : [sc] = [] ∨ [sc] = ['+'] ∨ [sc] = ['-'] := by
          rcases hsc with rfl | rfl
          · exact Or.inr (Or.inl rfl)
          · exact Or.inr (Or.inr rfl)
        have := read_num_exp ds ds2 [sc] ds3 e hds hds2 hee hsg hds3 r0 (hstop r6 r0 hr6 hc)
          (fun h => by cases h)
        simpa using this
      · obtain ⟨ds3, r6, rfl, hds3, hr6⟩ := digits_split r4
        refine ⟨ds ++ '.' :: (ds2 ++ e :: ([] ++ ds3)), r6, by rw [hx]; simp, by simp, ?_⟩
        intro r0 hc
        have hpm : ([] : List Char) = [] → ds3 = [] →
            (fgetc r0).1 ≠ 43 ∧ (fgetc r0).1 ≠ 45 := by
          intro _ h3
          subst h3
          rw [List.nil_append] at hs
          rcases hc with h | h
          · rw [h]; exact not_or.1 hs
          · exact ⟨((Follow_iff _).1 h).2.2.2.1, ((Follow_iff _).1 h).2.2.2.2⟩
        have := read_num_exp ds ds2 [] ds3 e hds hds2 hee (Or.inl rfl) hds3 r0
          (hstop r6 r0 hr6 hc) hpm
        simpa using this
    · refine ⟨ds ++ '.' :: ds2, r3, by rw [hx]; simp, by simp, ?_⟩
      intro r0 hc
      have hne2 : (fgetc r0).1 ≠ 101 ∧ (fgetc r0).1 ≠ 69 := by
        rcases hc with h | h
        · rw [h]; exact not_or.1 he
        · exact not_exp_of_not_alpha _ ((Follow_iff _).1 h).2.1
      have := read_num_frac ds ds2 hds hds2 r0 (hstop r3 r0 hr3 hc) hne2
      simpa using this
  · refine ⟨ds, r1, hx, hne, ?_⟩
    intro r0 hc
    have hne2 : (fgetc r0).1 ≠ 46 := by
      rcases hc with h | h
      · rw [h]; exact h46
      · exact ((Follow_iff _).1 h).2.2.1
    exact read_num_int ds hds r0 (hstop r1 r0 hr1 hc) hne2

/-- A token scanned with one character pushed back: the read position and what
the scan depends on. -/
theorem local_of_pushback (t r : List Char) (tok : Token) (ht : t ≠ [])
    (hloc : ∀ r1, ((fgetc r1).1 = (fgetc r).1 ∨ Follow r1) →
      Next_scan (t ++ r1) = .ok ⟨tok, (fgetc r1).2, (fgetc r1).1⟩) :
    ∃ a r0, t ++ r = a ++ r0 ∧ a ≠ [] ∧ Lexer.At ⟨tok, (fgetc r).2, (fgetc r).1⟩ r0 ∧
      ∀ r1, ((fgetc r1).1 = (fgetc r0).1 ∨ (Follow r1 ∧ (fgetc r1).1 ≠ 0)) →
        ∃ l1, Next_scan (a ++ r1) = .ok l1 ∧ l1._curr = tok ∧ l1.At r1 := by
  by_cases h0 : (fgetc r).1 = 0
  · cases r with
    | nil => rw [fgetc_nil] at h0; exact absurd h0 (by decide)
    | cons ch0 fp0 =>
      rw [fgetc_cons] at h0
      simp only at h0
      refine ⟨t ++ [ch0], fp0, by simp, by simp, Or.inl ⟨h0, rfl⟩, ?_⟩
      intro r1 _
      have h := hloc (ch0 :: r1) (Or.inl rfl)
      refine ⟨⟨tok, r1, code ch0⟩, by simpa using h, rfl, Or.inl ⟨h0, rfl⟩⟩
  · refine ⟨t, r, rfl, ht, Or.inr ⟨h0, rfl⟩, ?_⟩
    intro r1 hc
    have h01 : (fgetc r1).1 ≠ 0 := by
      rcases hc with h | h
      · rw [h]; exact h0
      · exact h.2
    have hc1 : (fgetc r1).1 = (fgetc r).1 ∨ Follow r1 := by
      rcases hc with h | h
      · exact Or.inl h
      · exact Or.inr h.1
    exact ⟨_, hloc r1 hc1, rfl, Or.inr ⟨h01, rfl⟩⟩

/-- A run of letters in front of a character that is no letter is scanned as
the keyword it spells, or is the error of `read_bool`. -/
theorem Next_scan_word (w rest : List Char) (hw : ∀ ch ∈ w, isalpha (code ch) = true)
    (hne : w ≠ []) (hrest : isalpha (fgetc rest).1 = false) :
    Next_scan (w ++ rest) =
      (if w = ['t', 'r', 'u', 'e'] then .ok ⟨⟨[], TOK_TRUE⟩, (fgetc rest).2, (fgetc rest).1⟩
       else if w = ['f', 'a', 'l', 's', 'e'] then
        .ok ⟨⟨[], TOK_FALSE⟩, (fgetc rest).2, (fgetc rest).1⟩
       else .fail ("expected bool, got " ++ String.mk w)) := by
  cases w with
  | nil => exact absurd rfl hne
  | cons d w =>
    have hd0 : isalpha (code d) = true := hw d (List.mem_cons_self _ _)
    rw [List.cons_append, Next_scan_alpha d hd0, read_bool]
    have h := read_alpha_run (d :: w) hw rest hrest []
    simp only [List.cons_append, List.nil_append, fgetc_cons] at h
    rw [h]
    simp only []
    by_cases h1 : d :: w = ['t', 'r', 'u', 'e']
    · rw [if_pos h1, if_pos (by simpa using h1)]; rfl
    · by_cases h2 : d :: w = ['f', 'a', 'l', 's', 'e']
      · rw [if_neg h1, if_pos h2, if_neg (by simpa using h1), if_pos (by simpa using h2)]; rfl
      · rw [if_neg h1, if_neg h2, if_neg (by simpa using h1), if_neg (by simpa using h2)]; rfl

/-- When the string loop succeeds, the input was a text without quote, a
quote, and the stream that is left. -/
theorem read_str_loop_ok (fp : List Char) :
    ∀ (acc s rest : List Char), read_str_loop acc fp = .ok (s, rest) →
      ∃ s1, fp = s1 ++ '"' :: rest ∧ NoQuote s1 ∧ s = acc ++ s1 := by
  induction fp with
  | nil => intro acc s rest h; cases h
  | cons ch fp ih =>
    intro acc s rest h
    rw [read_str_loop_cons] at h
    by_cases hq : code ch = 34
    · rw [if_pos hq] at h
      cases h
      have hch : ch = '"' := code_inj ch '"' hq
      subst hch
      exact ⟨[], rfl, (fun _ hc => by cases hc), by simp⟩
    · rw [if_neg hq] at h
      obtain ⟨s1, h1, h2, h3⟩ := ih _ _ _ h
      refine ⟨ch :: s1, by rw [h1]; rfl, ?_, by rw [h3]; simp⟩
      intro c hc
      rcases List.mem_cons.1 hc with rfl | hc
      · exact hq
      · exact h2 c hc

/-- One scan, seen from the input. Either the input holds no token, the scan
gives `TOK_EOF`, and in front of any text the scan is the scan of that text. Or
the input splits into the text `a` that the scan reads and the rest `r` at
which the lexer stands; the token is not `TOK_EOF`, and in front of every text
that starts as `r` does, or that starts with a character (not NUL) that may
follow a value, the scan of `a` gives the same token and stands at that text. -/
theorem Next_scan_local (x : List Char) : ∀ l, Next_scan x = .ok l →
    (l = ⟨⟨[], TOK_EOF⟩, [], 0⟩ ∧ ∀ r1, Next_scan (x ++ r1) = Next_scan r1) ∨
    (∃ a r, x = a ++ r ∧ a ≠ [] ∧ l.At r ∧ l._curr._type ≠ TOK_EOF ∧
      ∀ r1, ((fgetc r1).1 = (fgetc r).1 ∨ (Follow r1 ∧ (fgetc r1).1 ≠ 0)) →
        ∃ l1, Next_scan (a ++ r1) = .ok l1 ∧ l1._curr = l._curr ∧ l1.At r1) := by
  induction x with
  | nil =>
    intro l h
    cases h
    exact Or.inl ⟨rfl, fun r1 => rfl⟩
  | cons ch fp ih =>
    intro l h
    have skip_case : (∀ fp1, Next_scan (ch :: fp1) = Next_scan fp1) →
        (l = ⟨⟨[], TOK_EOF⟩, [], 0⟩ ∧ ∀ r1, Next_scan (ch :: fp ++ r1) = Next_scan r1) ∨
        (∃ a r, ch :: fp = a ++ r ∧ a ≠ [] ∧ l.At r ∧ l._curr._type ≠ TOK_EOF ∧
          ∀ r1, ((fgetc r1).1 = (fgetc r).1 ∨ (Follow r1 ∧ (fgetc r1).1 ≠ 0)) →
            ∃ l1, Next_scan (a ++ r1) = .ok l1 ∧ l1._curr = l._curr ∧ l1.At r1) := by
      intro hskip
      rw [hskip] at h
      rcases ih l h with ⟨h1, h2⟩ | ⟨a, r, h1, h2, h3, h4, h5⟩
      · refine Or.inl ⟨h1, fun r1 => ?_⟩
        rw [List.cons_append, hskip, h2]
      · refine Or.inr ⟨ch :: a, r, by rw [h1]; rfl, by simp, h3, h4, fun r1 hc => ?_⟩
        obtain ⟨l1, h6, h7, h8⟩ := h5 r1 hc
        exact ⟨l1, by rw [List.cons_append, hskip, h6], h7, h8⟩
    by_cases hsp : isspace (code ch) = true
    · apply skip_case
      intro fp1
      rw [Next_scan_cons]
      simp only [Next_body, hsp, if_true]
    by_cases hst : code ch = EOF ∨ code ch = 123 ∨ code ch = 125 ∨ code ch = 91 ∨
        code ch = 93 ∨ code ch = 44 ∨ code ch = 58
    · have hsc : ∀ fp1, Next_scan (ch :: fp1) = .ok ⟨⟨[], code ch⟩, fp1, 0⟩ := by
        intro fp1
        rw [Next_scan_cons]
        simp only [Next_body, hsp, hst, if_true, if_false, Bool.false_eq_true]
      rw [hsc] at h
      cases h
      refine Or.inr ⟨[ch], fp, rfl, by simp, Or.inl ⟨rfl, rfl⟩, code_ne_EOF ch, fun r1 _ => ?_⟩
      exact ⟨_, hsc r1, rfl, Or.inl ⟨rfl, rfl⟩⟩
    by_cases hq : code ch = 34
    · have hch : ch = '"' := code_inj ch '"' hq
      subst hch
      have hsc : Next_scan ('"' :: fp) =
          (read_str fp).bind fun r => .ok ⟨⟨r.1, TOK_STR⟩, r.2, 0⟩ := rfl
      rw [hsc] at h
      obtain ⟨⟨s, rest⟩, hrs, hl⟩ := Outcome.bind_eq_ok _ _ _ h
      cases hl
      obtain ⟨s1, h1, h2, h3⟩ := read_str_loop_ok fp [] s rest hrs
      rw [List.nil_append] at h3
      subst h3
      refine Or.inr ⟨'"' :: (s ++ ['"']), rest, by rw [h1]; simp, by simp,
        Or.inl ⟨rfl, rfl⟩, (by show TOK_STR ≠ TOK_EOF; decide), fun r1 _ => ?_⟩
      refine ⟨⟨⟨s, TOK_STR⟩, r1, 0⟩, ?_, rfl, Or.inl ⟨rfl, rfl⟩⟩
      have := Next_scan_str s h2 r1
      simpa using this
    by_cases hd : isdigit (code ch) = true
    · obtain ⟨t, r, hx, hne, hloc⟩ := read_num_local ch fp hd
      have hscan : ∀ r1, ((fgetc r1).1 = (fgetc r).1 ∨ Follow r1) →
          Next_scan (t ++ r1) = .ok ⟨⟨t, TOK_NUM⟩, (fgetc r1).2, (fgetc r1).1⟩ := by
        intro r1 hc
        have h1 := hloc r1 hc
        cases t with
        | nil => exact absurd rfl hne
        | cons d t =>
          have hd0 : d = ch := by
            have := congrArg List.head? hx
            simp only [List.cons_append, List.head?_cons, Option.some.injEq] at this
            exact this.symm
          subst hd0
          exact Next_scan_of_read_num d t r1 hd h1
      have hl : l = ⟨⟨t, TOK_NUM⟩, (fgetc r).2, (fgetc r).1⟩ := by
        have h1 := hscan r (Or.inl rfl)
        rw [← hx, h] at h1
        cases h1; rfl
      subst hl
      obtain ⟨a, r0, h1, h2, h3, h4⟩ := local_of_pushback t r ⟨t, TOK_NUM⟩ hne hscan
      exact Or.inr ⟨a, r0, by rw [hx, h1], h2, h3, (by show TOK_NUM ≠ TOK_EOF; decide), h4⟩
    by_cases ha : isalpha (code ch) = true
    · obtain ⟨w, r, hx, hw, hr⟩ := alpha_split (ch :: fp)
      have hne : w ≠ [] := by
        intro hnil
        subst hnil
        rw [List.nil_append] at hx
        rw [← hx, fgetc_cons, ha] at hr
        cases hr
      have hstop : ∀ r1, ((fgetc r1).1 = (fgetc r).1 ∨ Follow r1) →
          isalpha (fgetc r1).1 = false := by
        intro r1 hc
        rcases hc with h1 | h1
        · rw [h1]; exact hr
        · exact ((Follow_iff _).1 h1).2.1
      have hword := Next_scan_word w r hw hne hr
      rw [← hx, h] at hword
      by_cases h1 : w = ['t', 'r', 'u', 'e']
      · rw [if_pos h1] at hword
        cases hword
        have hscan : ∀ r1, ((fgetc r1).1 = (fgetc r).1 ∨ Follow r1) →
            Next_scan (w ++ r1) = .ok ⟨⟨[], TOK_TRUE⟩, (fgetc r1).2, (fgetc r1).1⟩ := by
          intro r1 hc
          rw [Next_scan_word w r1 hw hne (hstop r1 hc), if_pos h1]
        obtain ⟨a, r0, h2, h3, h4, h5⟩ := local_of_pushback w r ⟨[], TOK_TRUE⟩ hne hscan
        exact Or.inr ⟨a, r0, by rw [hx, h2], h3, h4, (by show TOK_TRUE ≠ TOK_EOF; decide), h5⟩
      · rw [if_neg h1] at hword
        by_cases h2 : w = ['f', 'a', 'l', 's', 'e']
        · rw [if_pos h2] at hword
          cases hword
          have hscan : ∀ r1, ((fgetc r1).1 = (fgetc r).1 ∨ Follow r1) →
              Next_scan (w ++ r1) = .ok ⟨⟨[], TOK_FALSE⟩, (fgetc r1).2, (fgetc r1).1⟩ := by
            intro r1 hc
            rw [Next_scan_word w r1 hw hne (hstop r1 hc), if_neg h1, if_pos h2]
          obtain ⟨a, r0, h3, h4, h5, h6⟩ := local_of_pushback w r ⟨[], TOK_FALSE⟩ hne hscan
          exact Or.inr ⟨a, r0, by rw [hx, h3], h4, h5, (by show TOK_FALSE ≠ TOK_EOF; decide), h6⟩
        · rw [if_neg h2] at hword
          cases hword
    · apply skip_case
      intro fp1
      rw [Next_scan_cons]
      simp only [Next_body, hsp, hst, hq, hd, ha, if_false, Bool.false_eq_true]

/-! ## Token sequences -/

theorem tokens_succ (n : Nat) (lex : Lexer) :
    lex.tokens (n + 1) =
      lex.Next.bind fun l => (l.tokens n).bind fun ts => .ok (l._curr :: ts) := rfl

/-- Lexers with the same next scan give the same tokens. -/
theorem tokens_congr (l l1 : Lexer) (h : l.Next = l1.Next) (n : Nat) :
    l.tokens n = l1.tokens n := by
  cases n with
  | zero => rfl
  | succ n => rw [tokens_succ, tokens_succ, h]

/-- Two inputs whose first scans give the same token, and stand at texts with
the same scan, give the same tokens. -/
theorem tokens_of_first (s s1 : List Char) (l l1 : Lexer) (r r1 : List Char)
    (hs : Next_scan s = .ok l) (hs1 : Next_scan s1 = .ok l1) (hc : l._curr = l1._curr)
    (hl : l.Next = Next_scan r) (hl1 : l1.Next = Next_scan r1)
    (hr : Next_scan r = Next_scan r1) (n : Nat) :
    (Lexer.init s).tokens n = (Lexer.init s1).tokens n := by
  cases n with
  | zero => rfl
  | succ n =>
    rw [tokens_succ, tokens_succ, Lexer.init, Lexer.init, Next_of_putback_zero,
      Next_of_putback_zero, hs, hs1]
    simp only [Outcome.bind]
    rw [hc, tokens_congr l l1 (by rw [hl, hl1, hr]) n]

/-- A space behind a number literal changes no token: the character that
stopped the scan of the literal, or the end of the input, comes back as the
start of the next scan. -/
theorem tokens_number_space (d : Char) (t0 r : List Char) (hd : isdigit (code d) = true)
    (hscan : Next_scan (d :: t0 ++ r) = .ok ⟨⟨d :: t0, TOK_NUM⟩, (fgetc r).2, (fgetc r).1⟩)
    (n : Nat) :
    (Lexer.init (d :: t0 ++ r)).tokens n = (Lexer.init (d :: t0 ++ ' ' :: r)).tokens n := by
  obtain ⟨t, r0, hx, hne, hloc⟩ := read_num_local d (t0 ++ r) hd
  have h1 := hloc r0 (Or.inl rfl)
  have hdig := Next_scan_digit d hd (t0 ++ r)
  rw [List.cons_append] at hscan
  rw [hscan] at hdig
  rw [← hx, fgetc_cons] at h1
  simp only at h1
  injection hdig with hdig
  injection hdig with hcur hfp hpb
  injection hcur with hlex _
  have ht : t = d :: t0 := by rw [hlex, h1]
  have hr0 : r = r0 := by
    apply fgetc_inj
    apply Prod.ext
    · rw [hpb, h1]
    · rw [hfp, h1]
  subst hr0
  subst ht
  have hsp : Follow (' ' :: r) := Follow_ws_cons ' ' (by decide) r
  have h2 := hloc (' ' :: r) (Or.inr hsp)
  have hscan2 := Next_scan_of_read_num d t0 (' ' :: r) hd h2
  exact tokens_of_first (d :: t0 ++ r) (d :: t0 ++ ' ' :: r)
    ⟨⟨d :: t0, TOK_NUM⟩, (fgetc r).2, (fgetc r).1⟩
    ⟨⟨d :: t0, TOK_NUM⟩, (fgetc (' ' :: r)).2, (fgetc (' ' :: r)).1⟩ r (' ' :: r)
    (by rw [List.cons_append]; exact hscan) hscan2 rfl
    (Next_of_fgetc _ r) (Next_of_fgetc _ (' ' :: r))
    (Next_scan_ws [' '] (by decide) r).symm n

/-- A space behind a word changes no token, and no error. -/
theorem tokens_word_space (w r : List Char) (hw : ∀ ch ∈ w, isalpha (code ch) = true)
    (hne : w ≠ []) (hr : isalpha (fgetc r).1 = false) (n : Nat) :
    (Lexer.init (w ++ r)).tokens n = (Lexer.init (w ++ ' ' :: r)).tokens n := by
  have h1 := Next_scan_word w r hw hne hr
  have h2 := Next_scan_word w (' ' :: r) hw hne rfl
  have hsp : Next_scan r = Next_scan (' ' :: r) := (Next_scan_ws [' '] (by decide) r).symm
  by_cases ht : w = ['t', 'r', 'u', 'e']
  · rw [if_pos ht] at h1 h2
    exact tokens_of_first _ _ _ _ r (' ' :: r) h1 h2 rfl (Next_of_fgetc _ r)
      (Next_of_fgetc _ (' ' :: r)) hsp n
  · rw [if_neg ht] at h1 h2
    by_cases hf : w = ['f', 'a', 'l', 's', 'e']
    · rw [if_pos hf] at h1 h2
      exact tokens_of_first _ _ _ _ r (' ' :: r) h1 h2 rfl (Next_of_fgetc _ r)
        (Next_of_fgetc _ (' ' :: r)) hsp n
    · rw [if_neg hf] at h1 h2
      cases n with
      | zero => rfl
      | succ n =>
        rw [tokens_succ, tokens_succ, Lexer.init, Lexer.init, Next_of_putback_zero,
          Next_of_putback_zero, h1, h2]

/-! ## Termination -/

theorem read_str_loop_ne_outOfFuel (fp : List Char) :
    ∀ acc, read_str_loop acc fp ≠ .outOfFuel := by
  induction fp with
  | nil => intro acc h; cases h
  | cons ch fp ih =>
    intro acc
    rw [read_str_loop_cons]
    by_cases hq : code ch = 34
    · rw [if_pos hq]; intro h; cases h
    · rw [if_neg hq]; exact ih _

theorem Outcome.bind_ne_outOfFuel {α β : Type} (x : Outcome α) (f : α → Outcome β)
    (hx : x ≠ .outOfFuel) (hf : ∀ a, x = .ok a → f a ≠ .outOfFuel) :
    x.bind f ≠ .outOfFuel := by
  cases x with
  | ok a => exact hf a rfl
  | fail msg => intro h; cases h
  | outOfFuel => exact absurd rfl hx

theorem Next_body_ne_outOfFuel (c : Int) (fp : List Char) :
    Next_body c fp ≠ some .outOfFuel := by
  unfold Next_body
  split_ifs
  · intro h; cases h
  · intro h; cases h
  · intro h
    injection h with h
    exact Outcome.bind_ne_outOfFuel _ _ (read_str_loop_ne_outOfFuel fp [])
      (fun _ _ h1 => by cases h1) h
  · intro h; cases h
  · intro h
    injection h with h
    refine Outcome.bind_ne_outOfFuel _ _ ?_ (fun _ _ h1 => by cases h1) h
    unfold read_bool
    rcases read_alpha [] c fp with ⟨b, c1, fp1⟩
    simp only
    split_ifs <;> intro h1 <;> cases h1
  · intro h; cases h

theorem Next_scan_ne_outOfFuel (x : List Char) : Next_scan x ≠ .outOfFuel := by
  induction x with
  | nil => intro h; cases h
  | cons ch fp ih =>
    rw [Next_scan_cons]
    cases hb : Next_body (code ch) fp with
    | none => exact ih
    | some res =>
      intro h
      simp only at h
      rw [h] at hb
      exact Next_body_ne_outOfFuel _ _ hb

/-- The method `Next` uses no fuel: it ends with a token or with an error. -/
theorem Next_ne_outOfFuel (l : Lexer) : l.Next ≠ .outOfFuel := by
  unfold Lexer.Next
  split_ifs
  · cases hb : Next_body l._putback l._fp with
    | none => exact Next_scan_ne_outOfFuel _
    | some res =>
      intro h
      simp only at h
      rw [h] at hb
      exact Next_body_ne_outOfFuel _ _ hb
  · exact Next_scan_ne_outOfFuel _

theorem Match_ne_outOfFuel (l : Lexer) (t : Int) : l.Match t ≠ .outOfFuel := by
  unfold Lexer.Match
  cases g_tok_names t with
  | none => intro h; cases h
  | some name =>
    simp only
    split_ifs
    · intro h; cases h
    · exact Next_ne_outOfFuel l

/-- Every `Next` reads on: the lexer then stands at a shorter text, or the
token is `TOK_EOF` and nothing is left. -/
theorem Next_progress (l l1 : Lexer) (r : List Char) (hat : l.At r) (h : l.Next = .ok l1) :
    ∃ r1, l1.At r1 ∧ (r1.length < r.length ∨ (r1 = [] ∧ l1._curr._type = TOK_EOF)) := by
  rw [Next_of_At l r hat] at h
  rcases Next_scan_local r l1 h with ⟨h1, -⟩ | ⟨a, r1, h1, h2, h3, -, -⟩
  · subst h1
    exact ⟨[], Or.inl ⟨rfl, rfl⟩, Or.inr ⟨rfl, rfl⟩⟩
  · refine ⟨r1, h3, Or.inl ?_⟩
    rw [h1, List.length_append]
    have : 0 < a.length := List.length_pos.2 h2
    omega

/-- From a token other than `TOK_EOF`, `Next` lowers the rank. -/
theorem rank_Next (l l1 : Lexer) (r : List Char) (hat : l.At r)
    (hne : l._curr._type ≠ TOK_EOF) (h : l.Next = .ok l1) :
    ∃ r1, l1.At r1 ∧ l1.rank r1 < l.rank r := by
  obtain ⟨r1, h1, h2⟩ := Next_progress l l1 r hat h
  refine ⟨r1, h1, ?_⟩
  unfold Lexer.rank
  rw [if_neg hne]
  rcases h2 with h2 | ⟨h2, h3⟩
  · split_ifs <;> omega
  · rw [if_pos h3, h2]
    simp

theorem rank_Match (l l1 : Lexer) (r : List Char) (t : Int) (hat : l.At r)
    (hne : t ≠ TOK_EOF) (h : l.Match t = .ok l1) :
    ∃ r1, l1.At r1 ∧ l1.rank r1 < l.rank r := by
  obtain ⟨h1, h2⟩ := Match_eq_ok l l1 t h
  exact rank_Next l l1 r hat (by rw [h1]; exact hne) h2

/-- The step of a container loop behind a member does not raise the rank. -/
theorem rank_comma_step (l l1 : Lexer) (r : List Char) (hat : l.At r)
    (h : (if l._curr._type = TOK_COMMA then l.Match TOK_COMMA else .ok l) = .ok l1) :
    ∃ r1, l1.At r1 ∧ l1.rank r1 ≤ l.rank r := by
  by_cases hc : l._curr._type = TOK_COMMA
  · rw [if_pos hc] at h
    obtain ⟨r1, h1, h2⟩ := rank_Match l l1 r TOK_COMMA hat (by decide) h
    exact ⟨r1, h1, Nat.le_of_lt h2⟩
  · rw [if_neg hc] at h
    cases h
    exact ⟨r, hat, Nat.le_refl _⟩

/-- Every value production that succeeds advances the lexer: the rank of the
lexer it returns is lower. Every container loop that returns does not raise
the rank. -/
theorem parser_progress {D : Type} (atof : List Char → D) : ∀ fuel : Nat,
    (∀ (l : Lexer) (r : List Char) (v : json_node D) (l1 : Lexer), l.At r →
      parse_json atof fuel l = .ok (v, l1) → ∃ r1, l1.At r1 ∧ l1.rank r1 < l.rank r) ∧
    (∀ (l : Lexer) (r : List Char) (v : json_node D) (l1 : Lexer), l.At r →
      parse_json_obj atof fuel l = .ok (v, l1) → ∃ r1, l1.At r1 ∧ l1.rank r1 < l.rank r) ∧
    (∀ (l : Lexer) (r : List Char) (v : json_node D) (l1 : Lexer), l.At r →
      parse_json_arr atof fuel l = .ok (v, l1) → ∃ r1, l1.At r1 ∧ l1.rank r1 < l.rank r) ∧
    (∀ (n : List (List Char × json_node D)) (l : Lexer) (r : List Char)
      (n1 : List (List Char × json_node D)) (l1 : Lexer), l.At r →
      parse_json_obj_loop atof fuel n l = .ok (n1, l1) →
      ∃ r1, l1.At r1 ∧ l1.rank r1 ≤ l.rank r) ∧
    (∀ (n : List (json_node D)) (l : Lexer) (r : List Char)
      (n1 : List (json_node D)) (l1 : Lexer), l.At r →
      parse_json_arr_loop atof fuel n l = .ok (n1, l1) →
      ∃ r1, l1.At r1 ∧ l1.rank r1 ≤ l.rank r) := by
  intro fuel
  induction fuel with
  | zero =>
    refine ⟨?_, ?_, ?_, ?_, ?_⟩
    · intro l r v l1 _ h; rw [parse_json] at h; cases h
    · intro l r v l1 _ h; rw [parse_json_obj] at h; cases h
    · intro l r v l1 _ h; rw [parse_json_arr] at h; cases h
    · intro n l r n1 l1 _ h; rw [parse_json_obj_loop] at h; cases h
    · intro n l r n1 l1 _ h; rw [parse_json_arr_loop] at h; cases h
  | succ f ih =>
    obtain ⟨ihj, iho, iha, ihol, ihal⟩ := ih
    refine ⟨?_, ?_, ?_, ?_, ?_⟩
    · intro l r v l1 hat h
      rw [parse_json] at h
      split_ifs at h with h1 h2 h3 h4 h5
      · exact iho l r v l1 hat h
      · exact iha l r v l1 hat h
      · obtain ⟨l2, hm, h⟩ := Outcome.bind_eq_ok _ _ _ h
        cases h
        exact rank_Match l l1 r TOK_STR hat (by decide) hm
      · obtain ⟨l2, hm, h⟩ := Outcome.bind_eq_ok _ _ _ h
        cases h
        exact rank_Match l l1 r TOK_NUM hat (by decide) hm
      · obtain ⟨l2, hm, h⟩ := Outcome.bind_eq_ok _ _ _ h
        cases h
        refine rank_Next l l1 r hat ?_ hm
        rcases h5 with h5 | h5 <;> rw [h5] <;> decide
    · intro l r v l1 hat h
      rw [parse_json_obj] at h
      obtain ⟨l2, hm, h⟩ := Outcome.bind_eq_ok _ _ _ h
      obtain ⟨r0, hl, h⟩ := Outcome.bind_eq_ok _ _ _ h
      obtain ⟨l3, hm2, h⟩ := Outcome.bind_eq_ok _ _ _ h
      cases h
      obtain ⟨r2, ha2, hr2⟩ := rank_Match l l2 r TOK_LBRACE hat (by decide) hm
      obtain ⟨r3, ha3, hr3⟩ := ihol [] l2 r2 r0.1 r0.2 ha2 hl
      obtain ⟨r4, ha4, hr4⟩ := rank_Match r0.2 l1 r3 TOK_RBRACE ha3 (by decide) hm2
      exact ⟨r4, ha4, by omega⟩
    · intro l r v l1 hat h
      rw [parse_json_arr] at h
      obtain ⟨l2, hm, h⟩ := Outcome.bind_eq_ok _ _ _ h
      obtain ⟨r0, hl, h⟩ := Outcome.bind_eq_ok _ _ _ h
      obtain ⟨l3, hm2, h⟩ := Outcome.bind_eq_ok _ _ _ h
      cases h
      obtain ⟨r2, ha2, hr2⟩ := rank_Match l l2 r TOK_LBRACK hat (by decide) hm
      obtain ⟨r3, ha3, hr3⟩ := ihal [] l2 r2 r0.1 r0.2 ha2 hl
      obtain ⟨r4, ha4, hr4⟩ := rank_Match r0.2 l1 r3 TOK_RBRACK ha3 (by decide) hm2
      exact ⟨r4, ha4, by omega⟩
    · intro n l r n1 l1 hat h
      rw [parse_json_obj_loop] at h
      by_cases hc : l._curr._type ≠ TOK_EOF ∧ l._curr._type ≠ TOK_RBRACE
      · rw [if_pos hc] at h
        obtain ⟨l2, hm, h⟩ := Outcome.bind_eq_ok _ _ _ h
        obtain ⟨l3, hm2, h⟩ := Outcome.bind_eq_ok _ _ _ h
        obtain ⟨rr, hp, h⟩ := Outcome.bind_eq_ok _ _ _ h
        obtain ⟨l4, hcs, h⟩ := Outcome.bind_eq_ok _ _ _ h
        obtain ⟨r2, ha2, hr2⟩ := rank_Match l l2 r TOK_STR hat (by decide) hm
        obtain ⟨r3, ha3, hr3⟩ := rank_Match l2 l3 r2 TOK_COLON ha2 (by decide) hm2
        obtain ⟨r4, ha4, hr4⟩ := ihj l3 r3 rr.1 rr.2 ha3 hp
        obtain ⟨r5, ha5, hr5⟩ := rank_comma_step rr.2 l4 r4 ha4 hcs
        obtain ⟨r6, ha6, hr6⟩ := ihol _ l4 r5 n1 l1 ha5 h
        exact ⟨r6, ha6, by omega⟩
      · rw [if_neg hc] at h
        cases h
        exact ⟨r, hat, Nat.le_refl _⟩
    · intro n l r n1 l1 hat h
      rw [parse_json_arr_loop] at h
      by_cases hc : l._curr._type ≠ TOK_EOF ∧ l._curr._type ≠ TOK_RBRACK
      · rw [if_pos hc] at h
        obtain ⟨rr, hp, h⟩ := Outcome.bind_eq_ok _ _ _ h
        obtain ⟨l4, hcs, h⟩ := Outcome.bind_eq_ok _ _ _ h
        obtain ⟨r4, ha4, hr4⟩ := ihj l r rr.1 rr.2 hat hp
        obtain ⟨r5, ha5, hr5⟩ := rank_comma_step rr.2 l4 r4 ha4 hcs
        obtain ⟨r6, ha6, hr6⟩ := ihal _ l4 r5 n1 l1 ha5 h
        exact ⟨r6, ha6, by omega⟩
      · rw [if_neg hc] at h
        cases h
        exact ⟨r, hat, Nat.le_refl _⟩

theorem comma_step_ne_outOfFuel (l : Lexer) :
    (if l._curr._type = TOK_COMMA then l.Match TOK_COMMA else .ok l) ≠ .outOfFuel := by
  split_ifs
  · exact Match_ne_outOfFuel l TOK_COMMA
  · intro h; cases h

theorem rank_pos (l : Lexer) (r : List Char) (h : l._curr._type ≠ TOK_EOF) : 1 ≤ l.rank r := by
  unfold Lexer.rank
  rw [if_neg h]
  omega

/-- With fuel of three times the rank and a little more, the parser does not
run out of fuel: it ends with a value or with an error. -/
theorem parser_terminates {D : Type} (atof : List Char → D) : ∀ fuel : Nat,
    (∀ (l : Lexer) (r : List Char), l.At r → 3 * l.rank r + 1 ≤ fuel →
      parse_json atof fuel l ≠ .outOfFuel) ∧
    (∀ (l : Lexer) (r : List Char), l.At r → l._curr._type ≠ TOK_EOF → 3 * l.rank r ≤ fuel →
      parse_json_obj atof fuel l ≠ .outOfFuel) ∧
    (∀ (l : Lexer) (r : List Char), l.At r → l._curr._type ≠ TOK_EOF → 3 * l.rank r ≤ fuel →
      parse_json_arr atof fuel l ≠ .outOfFuel) ∧
    (∀ (n : List (List Char × json_node D)) (l : Lexer) (r : List Char), l.At r →
      3 * l.rank r + 2 ≤ fuel → parse_json_obj_loop atof fuel n l ≠ .outOfFuel) ∧
    (∀ (n : List (json_node D)) (l : Lexer) (r : List Char), l.At r →
      3 * l.rank r + 2 ≤ fuel → parse_json_arr_loop atof fuel n l ≠ .outOfFuel) := by
  intro fuel
  induction fuel with
  | zero =>
    refine ⟨?_, ?_, ?_, ?_, ?_⟩
    · intro l r _ h; omega
    · intro l r _ hne h
      have := rank_pos l r hne
      omega
    · intro l r _ hne h
      have := rank_pos l r hne
      omega
    · intro n l r _ h; omega
    · intro n l r _ h; omega
  | succ f ih =>
    obtain ⟨ihj, iho, iha, ihol, ihal⟩ := ih
    obtain ⟨pj, -, -, -, -⟩ := parser_progress atof f
    refine ⟨?_, ?_, ?_, ?_, ?_⟩
    · intro l r hat hf
      rw [parse_json]
      split_ifs with h1 h2 h3 h4 h5
      · exact iho l r hat (by rw [h1]; decide) (by omega)
      · exact iha l r hat (by rw [h2]; decide) (by omega)
      · exact Outcome.bind_ne_outOfFuel _ _ (Match_ne_outOfFuel _ _) (fun _ _ h => by cases h)
      · exact Outcome.bind_ne_outOfFuel _ _ (Match_ne_outOfFuel _ _) (fun _ _ h => by cases h)
      · exact Outcome.bind_ne_outOfFuel _ _ (Next_ne_outOfFuel _) (fun _ _ h => by cases h)
      · intro h; cases h
    · intro l r hat hne hf
      rw [parse_json_obj]
      refine Outcome.bind_ne_outOfFuel _ _ (Match_ne_outOfFuel _ _) (fun l2 hm => ?_)
      obtain ⟨r2, ha2, hr2⟩ := rank_Match l l2 r TOK_LBRACE hat (by decide) hm
      refine Outcome.bind_ne_outOfFuel _ _ (ihol [] l2 r2 ha2 (by omega)) (fun r0 _ => ?_)
      exact Outcome.bind_ne_outOfFuel _ _ (Match_ne_outOfFuel _ _) (fun _ _ h => by cases h)
    · intro l r hat hne hf
      rw [parse_json_arr]
      refine Outcome.bind_ne_outOfFuel _ _ (Match_ne_outOfFuel _ _) (fun l2 hm => ?_)
      obtain ⟨r2, ha2, hr2⟩ := rank_Match l l2 r TOK_LBRACK hat (by decide) hm
      refine Outcome.bind_ne_outOfFuel _ _ (ihal [] l2 r2 ha2 (by omega)) (fun r0 _ => ?_)
      exact Outcome.bind_ne_outOfFuel _ _ (Match_ne_outOfFuel _ _) (fun _ _ h => by cases h)
    · intro n l r hat hf
      rw [parse_json_obj_loop]
      by_cases hc : l._curr._type ≠ TOK_EOF ∧ l._curr._type ≠ TOK_RBRACE
      · rw [if_pos hc]
        refine Outcome.bind_ne_outOfFuel _ _ (Match_ne_outOfFuel _ _) (fun l2 hm => ?_)
        obtain ⟨r2, ha2, hr2⟩ := rank_Match l l2 r TOK_STR hat (by decide) hm
        refine Outcome.bind_ne_outOfFuel _ _ (Match_ne_outOfFuel _ _) (fun l3 hm2 => ?_)
        obtain ⟨r3, ha3, hr3⟩ := rank_Match l2 l3 r2 TOK_COLON ha2 (by decide) hm2
        refine Outcome.bind_ne_outOfFuel _ _ (ihj l3 r3 ha3 (by omega)) (fun rr hp => ?_)
        obtain ⟨r4, ha4, hr4⟩ := pj l3 r3 rr.1 rr.2 ha3 hp
        refine Outcome.bind_ne_outOfFuel _ _ (comma_step_ne_outOfFuel _) (fun l4 hcs => ?_)
        obtain ⟨r5, ha5, hr5⟩ := rank_comma_step rr.2 l4 r4 ha4 hcs
        exact ihol _ l4 r5 ha5 (by omega)
      · rw [if_neg hc]
        intro h; cases h
    · intro n l r hat hf
      rw [parse_json_arr_loop]
      by_cases hc : l._curr._type ≠ TOK_EOF ∧ l._curr._type ≠ TOK_RBRACK
      · rw [if_pos hc]
        refine Outcome.bind_ne_outOfFuel _ _ (ihj l r hat (by omega)) (fun rr hp => ?_)
        obtain ⟨r4, ha4, hr4⟩ := pj l r rr.1 rr.2 hat hp
        refine Outcome.bind_ne_outOfFuel _ _ (comma_step_ne_outOfFuel _) (fun l4 hcs => ?_)
        obtain ⟨r5, ha5, hr5⟩ := rank_comma_step rr.2 l4 r4 ha4 hcs
        exact ihal _ l4 r5 ha5 (by omega)
      · rw [if_neg hc]
        intro h; cases h

/-- The run of `main` on an input: with fuel of three times the length of the
input and four more, it ends with a value or with an error. -/
theorem parse_terminates {D : Type} (atof : List Char → D) (input : List Char) (fuel : Nat)
    (hf : 3 * input.length + 4 ≤ fuel) : parse atof fuel input ≠ .outOfFuel := by
  rw [parse]
  refine Outcome.bind_ne_outOfFuel _ _ (Next_ne_outOfFuel _) (fun l hl => ?_)
  obtain ⟨r, hat, hr⟩ := Next_progress (Lexer.init input) l input (At_init input) hl
  refine (parser_terminates atof fuel).1 l r hat ?_
  have hrank : l.rank r ≤ input.length + 1 := by
    unfold Lexer.rank
    rcases hr with hr | ⟨hr, he⟩
    · split_ifs <;> omega
    · rw [if_pos he, hr]
      simp
  omega

/-! ## The parser reads the input through its tokens only -/

theorem Outcome.Rel_bind {α β γ δ : Type} (Q : α → β → Prop) (Q1 : γ → δ → Prop)
    (x : Outcome α) (y : Outcome β) (f : α → Outcome γ) (g : β → Outcome δ)
    (h : Outcome.Rel Q x y) (hf : ∀ a b, Q a b → Outcome.Rel Q1 (f a) (g b)) :
    Outcome.Rel Q1 (x.bind f) (y.bind g) := by
  cases x with
  | ok a =>
    cases y with
    | ok b => exact hf a b h
    | fail m => exact h.elim
    | outOfFuel => exact h.elim
  | fail m =>
    cases y with
    | ok b => exact h.elim
    | fail m1 => exact h
    | outOfFuel => exact h.elim
  | outOfFuel =>
    cases y with
    | ok b => exact h.elim
    | fail m1 => exact h.elim
    | outOfFuel => trivial

theorem Outcome.Rel_mono {α β : Type} (Q Q1 : α → β → Prop) (x : Outcome α) (y : Outcome β)
    (h : Outcome.Rel Q x y) (hq : ∀ a b, Q a b → Q1 a b) : Outcome.Rel Q1 x y := by
  cases x with
  | ok a =>
    cases y with
    | ok b => exact hq a b h
    | fail m => exact h.elim
    | outOfFuel => exact h.elim
  | fail m =>
    cases y with
    | ok b => exact h.elim
    | fail m1 => exact h
    | outOfFuel => exact h.elim
  | outOfFuel =>
    cases y with
    | ok b => exact h.elim
    | fail m1 => exact h.elim
    | outOfFuel => trivial

/-- `Match` on two lexers with the same current token and agreeing scans. -/
theorem Rel_Match (R : Lexer → Lexer → Prop) (l l1 : Lexer) (t : Int)
    (hc : l._curr = l1._curr) (hn : Outcome.Rel R l.Next l1.Next) :
    Outcome.Rel R (l.Match t) (l1.Match t) := by
  unfold Lexer.Match
  cases g_tok_names t with
  | none => exact rfl
  | some name =>
    simp only [hc]
    split_ifs
    · exact rfl
    · exact hn

theorem Rel_comma_step (R : Lexer → Lexer → Prop) (l l1 : Lexer)
    (hr : R l l1) (hc : l._curr = l1._curr) (hn : Outcome.Rel R l.Next l1.Next) :
    Outcome.Rel R (if l._curr._type = TOK_COMMA then l.Match TOK_COMMA else .ok l)
      (if l1._curr._type = TOK_COMMA then l1.Match TOK_COMMA else .ok l1) := by
  rw [hc]
  split_ifs
  · exact Rel_Match R l l1 TOK_COMMA hc hn
  · exact hr

/-- The parser reads the input through `Curr`, `Next` and `Match` only: on two
lexers related by a relation that keeps the current token and is kept by
`Next`, it gives the same value, the same error, or runs out of the same
fuel. -/
theorem parser_sim {D : Type} (atof : List Char → D) (R : Lexer → Lexer → Prop)
    (hcur : ∀ l l1, R l l1 → l._curr = l1._curr)
    (hstep : ∀ l l1, R l l1 → Outcome.Rel R l.Next l1.Next) : ∀ fuel : Nat,
    (∀ l l1, R l l1 → Outcome.Rel (fun a b => a.1 = b.1 ∧ R a.2 b.2)
      (parse_json atof fuel l) (parse_json atof fuel l1)) ∧
    (∀ l l1, R l l1 → Outcome.Rel (fun a b => a.1 = b.1 ∧ R a.2 b.2)
      (parse_json_obj atof fuel l) (parse_json_obj atof fuel l1)) ∧
    (∀ l l1, R l l1 → Outcome.Rel (fun a b => a.1 = b.1 ∧ R a.2 b.2)
      (parse_json_arr atof fuel l) (parse_json_arr atof fuel l1)) ∧
    (∀ n l l1, R l l1 → Outcome.Rel (fun a b => a.1 = b.1 ∧ R a.2 b.2)
      (parse_json_obj_loop atof fuel n l) (parse_json_obj_loop atof fuel n l1)) ∧
    (∀ n l l1, R l l1 → Outcome.Rel (fun a b => a.1 = b.1 ∧ R a.2 b.2)
      (parse_json_arr_loop atof fuel n l) (parse_json_arr_loop atof fuel n l1)) := by
  intro fuel
  induction fuel with
  | zero =>
    refine ⟨?_, ?_, ?_, ?_, ?_⟩
    · intro l l1 _; rw [parse_json, parse_json]; trivial
    · intro l l1 _; rw [parse_json_obj, parse_json_obj]; trivial
    · intro l l1 _; rw [parse_json_arr, parse_json_arr]; trivial
    · intro n l l1 _; rw [parse_json_obj_loop, parse_json_obj_loop]; trivial
    · intro n l l1 _; rw [parse_json_arr_loop, parse_json_arr_loop]; trivial
  | succ f ih =>
    obtain ⟨ihj, iho, iha, ihol, ihal⟩ := ih
    have hmatch : ∀ l l1 t, R l l1 → Outcome.Rel R (l.Match t) (l1.Match t) :=
      fun l l1 t h => Rel_Match R l l1 t (hcur l l1 h) (hstep l l1 h)
    refine ⟨?_, ?_, ?_, ?_, ?_⟩
    · intro l l1 h
      have hc := hcur l l1 h
      rw [parse_json, parse_json]
      simp only [hc]
      split_ifs
      · exact iho l l1 h
      · exact iha l l1 h
      · exact Outcome.Rel_bind R _ _ _ _ _ (hmatch l l1 _ h) (fun a b hab => ⟨rfl, hab⟩)
      · exact Outcome.Rel_bind R _ _ _ _ _ (hmatch l l1 _ h) (fun a b hab => ⟨rfl, hab⟩)
      · exact Outcome.Rel_bind R _ _ _ _ _ (hstep l l1 h) (fun a b hab => ⟨rfl, hab⟩)
      · exact rfl
    · intro l l1 h
      rw [parse_json_obj, parse_json_obj]
      refine Outcome.Rel_bind R _ _ _ _ _ (hmatch l l1 _ h) (fun a b hab => ?_)
      refine Outcome.Rel_bind _ _ _ _ _ _ (ihol [] a b hab) (fun p q hpq => ?_)
      refine Outcome.Rel_bind R _ _ _ _ _ (hmatch p.2 q.2 _ hpq.2) (fun u w huw => ?_)
      exact ⟨by rw [hpq.1], huw⟩
    · intro l l1 h
      rw [parse_json_arr, parse_json_arr]
      refine Outcome.Rel_bind R _ _ _ _ _ (hmatch l l1 _ h) (fun a b hab => ?_)
      refine Outcome.Rel_bind _ _ _ _ _ _ (ihal [] a b hab) (fun p q hpq => ?_)
      refine Outcome.Rel_bind R _ _ _ _ _ (hmatch p.2 q.2 _ hpq.2) (fun u w huw => ?_)
      exact ⟨by rw [hpq.1], huw⟩
    · intro n l l1 h
      have hc := hcur l l1 h
      rw [parse_json_obj_loop, parse_json_obj_loop]
      simp only [hc]
      split_ifs
      · refine Outcome.Rel_bind R _ _ _ _ _ (hmatch l l1 _ h) (fun a b hab => ?_)
        refine Outcome.Rel_bind R _ _ _ _ _ (hmatch a b _ hab) (fun a2 b2 hab2 => ?_)
        refine Outcome.Rel_bind _ _ _ _ _ _ (ihj a2 b2 hab2) (fun p q hpq => ?_)
        refine Outcome.Rel_bind R _ _ _ _ _
          (Rel_comma_step R p.2 q.2 hpq.2 (hcur _ _ hpq.2) (hstep _ _ hpq.2))
          (fun a3 b3 hab3 => ?_)
        rw [hpq.1]
        exact ihol _ a3 b3 hab3
      · exact ⟨rfl, h⟩
    · intro n l l1 h
      have hc := hcur l l1 h
      rw [parse_json_arr_loop, parse_json_arr_loop]
      simp only [hc]
      split_ifs
      · refine Outcome.Rel_bind _ _ _ _ _ _ (ihj l l1 h) (fun p q hpq => ?_)
        refine Outcome.Rel_bind R _ _ _ _ _
          (Rel_comma_step R p.2 q.2 hpq.2 (hcur _ _ hpq.2) (hstep _ _ hpq.2))
          (fun a3 b3 hab3 => ?_)
        rw [hpq.1]
        exact ihal _ a3 b3 hab3
      · exact ⟨rfl, h⟩

/-! ## Whitespace between tokens -/

theorem isspace_ne_zero (c : Int) (h : isspace c = true) : c ≠ 0 := by
  have := (isspace_iff c).1 h
  omega

theorem At_nil_eof : Lexer.At ⟨⟨[], TOK_EOF⟩, [], 0⟩ [] := Or.inl ⟨rfl, rfl⟩

/-- A text with whitespace inserted starts as the text does, or with
whitespace. -/
theorem WsInserted_head (s s1 : List Char) (h : WsInserted s s1) :
    (fgetc s1).1 = (fgetc s).1 ∨ (Follow s1 ∧ (fgetc s1).1 ≠ 0) := by
  induction h with
  | front w s hw =>
    cases w with
    | nil => exact Or.inl rfl
    | cons ch w =>
      have hsp := hw ch (List.mem_cons_self _ _)
      exact Or.inr ⟨Follow_ws_cons ch hsp _, isspace_ne_zero _ hsp⟩
  | token w a r r1 l hw hs hat hr ih =>
    cases w with
    | cons ch w =>
      have hsp := hw ch (List.mem_cons_self _ _)
      exact Or.inr ⟨Follow_ws_cons ch hsp _, isspace_ne_zero _ hsp⟩
    | nil =>
      cases a with
      | nil => exact ih
      | cons c a => exact Or.inl rfl

/-- Whitespace inserted into the empty text is whitespace. -/
theorem WsInserted_nil (s s1 : List Char) (h : WsInserted s s1) : s = [] → IsWs s1 := by
  induction h with
  | front w s hw =>
    intro hs
    subst hs
    rw [List.append_nil]
    exact hw
  | token w a r r1 l hw hs hat hr ih =>
    intro he
    have ha : a = [] := (List.append_eq_nil.1 he).1
    have hr0 : r = [] := (List.append_eq_nil.1 he).2
    subst ha
    intro ch hc
    rcases List.mem_append.1 hc with hc | hc
    · exact hw ch hc
    · exact ih hr0 ch hc

theorem WsInserted_refl (s : List Char) : WsInserted s s :=
  WsInserted.front [] s IsWs_nil

/-- Every scan leaves the lexer at a read position. -/
theorem At_of_Next_scan (x : List Char) (l : Lexer) (h : Next_scan x = .ok l) :
    ∃ r, l.At r := by
  rcases Next_scan_local x l h with ⟨h1, -⟩ | ⟨a, r, -, -, h3, -, -⟩
  · exact ⟨[], by rw [h1]; exact At_nil_eof⟩
  · exact ⟨r, h3⟩

theorem Outcome.Rel_refl {α : Type} (Q : α → α → Prop) (x : Outcome α)
    (h : ∀ a, x = .ok a → Q a a) : Outcome.Rel Q x x := by
  cases x with
  | ok a => exact h a rfl
  | fail m => exact rfl
  | outOfFuel => trivial

/-- Whitespace inserted between the tokens is not seen by `Next`: the token, or
the error, is the same, and the lexers stay related. -/
theorem WsRel_Next (l l1 : Lexer) (h : WsRel l l1) : Outcome.Rel WsRel l.Next l1.Next := by
  obtain ⟨-, r, r1, hat, hat1, hins⟩ := h
  rw [Next_of_At l r hat, Next_of_At l1 r1 hat1]
  cases hins with
  | front w s hw =>
    rw [Next_scan_ws w hw]
    refine Outcome.Rel_refl _ _ (fun a ha => ?_)
    obtain ⟨r2, h2⟩ := At_of_Next_scan _ a ha
    exact ⟨rfl, r2, r2, h2, h2, WsInserted_refl r2⟩
  | token w a r0 r01 l2 hw hs hat2 hr =>
    rw [Next_scan_ws w hw, hs]
    rcases Next_scan_local (a ++ r0) l2 hs with ⟨h1, h2⟩ | ⟨a1, r2, h1, h2, h3, h4, h5⟩
    · subst h1
      have hr0 : r0 = [] := At_unique _ _ _ hat2 At_nil_eof
      subst hr0
      have hws : IsWs r01 := WsInserted_nil _ _ hr rfl
      have h3 := h2 r01
      rw [List.append_nil] at h3
      have h4 := Next_scan_ws r01 hws []
      rw [List.append_nil] at h4
      rw [h3, h4]
      exact ⟨rfl, [], [], At_nil_eof, At_nil_eof, WsInserted_refl []⟩
    · have hr2 : r2 = r0 := At_unique _ _ _ h3 hat2
      subst hr2
      have ha : a = a1 := List.append_cancel_right h1
      subst ha
      obtain ⟨l3, h6, h7, h8⟩ := h5 r01 (WsInserted_head _ _ hr)
      rw [h6]
      exact ⟨h7.symm, r2, r01, h3, h8, hr⟩

/-- Parsing a text and parsing it with whitespace inserted between its tokens
give the same value, the same error, or run out of the same fuel. -/
theorem parse_WsInserted {D : Type} (atof : List Char → D) (s s1 : List Char)
    (h : WsInserted s s1) (fuel : Nat) :
    Outcome.Rel (fun a b => a.1 = b.1 ∧ a.2._curr = b.2._curr)
      (parse atof fuel s) (parse atof fuel s1) := by
  rw [parse, parse]
  have h0 : WsRel (Lexer.init s) (Lexer.init s1) :=
    ⟨rfl, s, s1, At_init s, At_init s1, h⟩
  refine Outcome.Rel_bind WsRel _ _ _ _ _ (WsRel_Next _ _ h0) (fun a b hab => ?_)
  refine Outcome.Rel_mono _ _ _ _
    ((parser_sim atof WsRel (fun _ _ h => h.1) WsRel_Next fuel).1 a b hab) ?_
  intro p q hpq
  exact ⟨hpq.1, hpq.2.1⟩

/-! ## More fuel changes nothing -/

theorem Outcome.bind_mono_fuel {α β : Type} (x x1 : Outcome α) (g g1 : α → Outcome β)
    (hx : x ≠ .outOfFuel → x1 = x) (hg : ∀ a, x = .ok a → g a ≠ .outOfFuel → g1 a = g a)
    (h : x.bind g ≠ .outOfFuel) : x1.bind g1 = x.bind g := by
  cases x with
  | ok a =>
    rw [hx (by intro h1; cases h1)]
    exact hg a rfl h
  | fail msg =>
    rw [hx (by intro h1; cases h1)]
    rfl
  | outOfFuel => exact absurd rfl h

/-- A run of the parser that ends with a value or an error ends with the same
value or error on one more unit of fuel. -/
theorem parser_fuel_succ {D : Type} (atof : List Char → D) : ∀ fuel : Nat,
    (∀ l, parse_json atof fuel l ≠ .outOfFuel →
      parse_json atof (fuel + 1) l = parse_json atof fuel l) ∧
    (∀ l, parse_json_obj atof fuel l ≠ .outOfFuel →
      parse_json_obj atof (fuel + 1) l = parse_json_obj atof fuel l) ∧
    (∀ l, parse_json_arr atof fuel l ≠ .outOfFuel →
      parse_json_arr atof (fuel + 1) l = parse_json_arr atof fuel l) ∧
    (∀ n l, parse_json_obj_loop atof fuel n l ≠ .outOfFuel →
      parse_json_obj_loop atof (fuel + 1) n l = parse_json_obj_loop atof fuel n l) ∧
    (∀ n l, parse_json_arr_loop atof fuel n l ≠ .outOfFuel →
      parse_json_arr_loop atof (fuel + 1) n l = parse_json_arr_loop atof fuel n l) := by
  intro fuel
  induction fuel with
  | zero =>
    refine ⟨?_, ?_, ?_, ?_, ?_⟩
    · intro l h; rw [parse_json] at h; exact absurd rfl h
    · intro l h; rw [parse_json_obj] at h; exact absurd rfl h
    · intro l h; rw [parse_json_arr] at h; exact absurd rfl h
    · intro n l h; rw [parse_json_obj_loop] at h; exact absurd rfl h
    · intro n l h; rw [parse_json_arr_loop] at h; exact absurd rfl h
  | succ f ih =>
    obtain ⟨ih1, ih2, ih3, ih4, ih5⟩ := ih
    refine ⟨?_, ?_, ?_, ?_, ?_⟩
    · intro l h
      rw [parse_json] at h
      conv_rhs => rw [parse_json]
      conv_lhs => rw [parse_json]
      split_ifs at h ⊢ with h1 h2 h3 h4 h5
      · exact ih2 l h
      · exact ih3 l h
      · rfl
      · rfl
      · rfl
      · rfl
    · intro l h
      rw [parse_json_obj] at h
      conv_rhs => rw [parse_json_obj]
      conv_lhs => rw [parse_json_obj]
      refine Outcome.bind_mono_fuel _ _ _ _ (fun _ => rfl) (fun a _ ha => ?_) h
      exact Outcome.bind_mono_fuel _ _ _ _ (fun hx => ih4 [] a hx) (fun b _ _ => rfl) ha
    · intro l h
      rw [parse_json_arr] at h
      conv_rhs => rw [parse_json_arr]
      conv_lhs => rw [parse_json_arr]
      refine Outcome.bind_mono_fuel _ _ _ _ (fun _ => rfl) (fun a _ ha => ?_) h
      exact Outcome.bind_mono_fuel _ _ _ _ (fun hx => ih5 [] a hx) (fun b _ _ => rfl) ha
    · intro n l h
      rw [parse_json_obj_loop] at h
      conv_rhs => rw [parse_json_obj_loop]
      conv_lhs => rw [parse_json_obj_loop]
      split_ifs at h ⊢ with hc
      · refine Outcome.bind_mono_fuel _ _ _ _ (fun _ => rfl) (fun a _ ha => ?_) h
        refine Outcome.bind_mono_fuel _ _ _ _ (fun _ => rfl) (fun b _ hb => ?_) ha
        refine Outcome.bind_mono_fuel _ _ _ _ (fun hx => ih1 b hx) (fun c _ hc1 => ?_) hb
        exact Outcome.bind_mono_fuel _ _ _ _ (fun _ => rfl) (fun d _ hd => ih4 _ d hd) hc1
      · rfl
    · intro n l h
      rw [parse_json_arr_loop] at h
      conv_rhs => rw [parse_json_arr_loop]
      conv_lhs => rw [parse_json_arr_loop]
      split_ifs at h ⊢ with hc
      · refine Outcome.bind_mono_fuel _ _ _ _ (fun hx => ih1 l hx) (fun c _ hc1 => ?_) h
        exact Outcome.bind_mono_fuel _ _ _ _ (fun _ => rfl) (fun d _ hd => ih5 _ d hd) hc1
      · rfl

/-- A run of `parse` that ends with a value or an error ends with the same
value or error on any more fuel. -/
theorem parse_fuel_mono {D : Type} (atof : List Char → D) (input : List Char) (fuel : Nat)
    (h : parse atof fuel input ≠ .outOfFuel) (k : Nat) :
    parse atof (fuel + k) input = parse atof fuel input := by
  induction k with
  | zero => rfl
  | succ k ih =>
    rw [← ih] at h
    rw [← ih, ← Nat.add_assoc]
    rw [parse] at h
    rw [parse, parse]
    exact Outcome.bind_mono_fuel _ _ _ _ (fun _ => rfl)
      (fun a _ ha => (parser_fuel_succ atof (fuel + k)).1 a ha) h

/-! ## Text behind the value -/

theorem Outcome.bind_sim_ok {α β γ δ : Type} (x : Outcome α) (y : Outcome β)
    (f : α → Outcome γ) (g : β → Outcome δ) (Q : δ → Prop) (c : γ) (P : α → β → Prop)
    (h : x.bind f = .ok c)
    (hx : ∀ a, x = .ok a → ∃ b, y = .ok b ∧ P a b)
    (hf : ∀ a b, x = .ok a → P a b → f a = .ok c → ∃ d, g b = .ok d ∧ Q d) :
    ∃ d, y.bind g = .ok d ∧ Q d := by
  obtain ⟨a, hxa, hfa⟩ := Outcome.bind_eq_ok x f c h
  obtain ⟨b, hyb, hp⟩ := hx a hxa
  rw [hyb]
  exact hf a b hxa hp hfa

theorem Match_eq_Next_of_ok (l l1 l2 : Lexer) (t : Int) (hc : l._curr = l1._curr)
    (h : l.Match t = .ok l2) : l1.Match t = l1.Next := by
  rw [Lexer.Match] at h ⊢
  cases hg : g_tok_names t with
  | none => rw [hg] at h; cases h
  | some name =>
    rw [hg] at h
    simp only at h ⊢
    rw [← hc]
    by_cases ht : l._curr._type = t
    · rw [if_neg (not_not.2 ht)]
    · rw [if_pos ht] at h
      cases h

/-- At the token `TOK_EOF` the array loop returns at once. -/
theorem parse_json_arr_loop_eof {D : Type} (atof : List Char → D) (fuel : Nat)
    (n : List (json_node D)) (l : Lexer) (p : List (json_node D) × Lexer)
    (he : l._curr._type = TOK_EOF) (h : parse_json_arr_loop atof fuel n l = .ok p) :
    p.2 = l := by
  cases fuel with
  | zero => rw [parse_json_arr_loop] at h; cases h
  | succ f =>
    rw [parse_json_arr_loop, if_neg (fun hc => hc.1 he)] at h
    cases h
    rfl

/-- At the token `TOK_EOF` the object loop returns at once. -/
theorem parse_json_obj_loop_eof {D : Type} (atof : List Char → D) (fuel : Nat)
    (n : List (List Char × json_node D)) (l : Lexer)
    (p : List (List Char × json_node D) × Lexer)
    (he : l._curr._type = TOK_EOF) (h : parse_json_obj_loop atof fuel n l = .ok p) :
    p.2 = l := by
  cases fuel with
  | zero => rw [parse_json_obj_loop] at h; cases h
  | succ f =>
    rw [parse_json_obj_loop, if_neg (fun hc => hc.1 he)] at h
    cases h
    rfl

theorem comma_step_eof (l : Lexer) (he : l._curr._type = TOK_EOF) :
    (if l._curr._type = TOK_COMMA then l.Match TOK_COMMA else .ok l) = .ok l := by
  rw [if_neg]
  rw [he]
  decide

/-- At the token `TOK_EOF` no value is built. -/
theorem parse_json_eof {D : Type} (atof : List Char → D) (fuel : Nat) (l : Lexer)
    (p : json_node D × Lexer) (he : l._curr._type = TOK_EOF) :
    parse_json atof fuel l ≠ .ok p := by
  intro h
  cases fuel with
  | zero => rw [parse_json] at h; cases h
  | succ f =>
    rw [parse_json] at h
    rw [he] at h
    simp [TOK_EOF, EOF, TOK_LBRACE, TOK_LBRACK, TOK_STR, TOK_NUM, TOK_TRUE, TOK_FALSE] at h

/-- A run of the parser that ends with a value is followed by the run on a
second lexer, as long as each `Next` of the first that yields a token is
followed by the second, up to the token `TOK_EOF` of the first: the second
run ends with the same value. -/
theorem parser_sim_ok {D : Type} (atof : List Char → D) (R E : Lexer → Lexer → Prop)
    (hcur : ∀ l l1, R l l1 → l._curr = l1._curr)
    (hE : ∀ l l1, E l l1 → l._curr._type = TOK_EOF)
    (hstep : ∀ l l1 l2, R l l1 → l.Next = .ok l2 →
      ∃ l3, l1.Next = .ok l3 ∧ (R l2 l3 ∨ E l2 l3)) : ∀ fuel : Nat,
    (∀ l l1 p, R l l1 → parse_json atof fuel l = .ok p →
      ∃ q, parse_json atof fuel l1 = .ok q ∧ p.1 = q.1 ∧ (R p.2 q.2 ∨ E p.2 q.2)) ∧
    (∀ l l1 p, R l l1 → parse_json_obj atof fuel l = .ok p →
      ∃ q, parse_json_obj atof fuel l1 = .ok q ∧ p.1 = q.1 ∧ (R p.2 q.2 ∨ E p.2 q.2)) ∧
    (∀ l l1 p, R l l1 → parse_json_arr atof fuel l = .ok p →
      ∃ q, parse_json_arr atof fuel l1 = .ok q ∧ p.1 = q.1 ∧ (R p.2 q.2 ∨ E p.2 q.2)) ∧
    (∀ n l l1 p, R l l1 → parse_json_obj_loop atof fuel n l = .ok p →
      p.2._curr._type ≠ TOK_EOF →
      ∃ q, parse_json_obj_loop atof fuel n l1 = .ok q ∧ p.1 = q.1 ∧ R p.2 q.2) ∧
    (∀ n l l1 p, R l l1 → parse_json_arr_loop atof fuel n l = .ok p →
      p.2._curr._type ≠ TOK_EOF →
      ∃ q, parse_json_arr_loop atof fuel n l1 = .ok q ∧ p.1 = q.1 ∧ R p.2 q.2) := by
  intro fuel
  induction fuel with
  | zero =>
    refine ⟨?_, ?_, ?_, ?_, ?_⟩
    · intro l l1 p _ h; rw [parse_json] at h; cases h
    · intro l l1 p _ h; rw [parse_json_obj] at h; cases h
    · intro l l1 p _ h; rw [parse_json_arr] at h; cases h
    · intro n l l1 p _ h; rw [parse_json_obj_loop] at h; cases h
    · intro n l l1 p _ h; rw [parse_json_arr_loop] at h; cases h
  | succ f ih =>
    obtain ⟨ihj, iho, iha, ihol, ihal⟩ := ih
    have hmatch : ∀ l l1 t a, R l l1 → l.Match t = .ok a →
        ∃ b, l1.Match t = .ok b ∧ (R a b ∨ E a b) := by
      intro l l1 t a hr hm
      rw [Match_eq_Next_of_ok l l1 a t (hcur l l1 hr) hm]
      exact hstep l l1 a hr (Match_eq_ok l a t hm).2
    have hcomma : ∀ l l1 a, R l l1 →
        (if l._curr._type = TOK_COMMA then l.Match TOK_COMMA else .ok l) = .ok a →
        ∃ b, (if l1._curr._type = TOK_COMMA then l1.Match TOK_COMMA else .ok l1) = .ok b ∧
          (R a b ∨ E a b) := by
      intro l l1 a hr hm
      rw [← hcur l l1 hr]
      by_cases hc : l._curr._type = TOK_COMMA
      · rw [if_pos hc] at hm ⊢
        exact hmatch l l1 TOK_COMMA a hr hm
      · rw [if_neg hc] at hm ⊢
        cases hm
        exact ⟨l1, rfl, Or.inl hr⟩
    refine ⟨?_, ?_, ?_, ?_, ?_⟩
    · intro l l1 p hr h
      rw [parse_json] at h ⊢
      rw [← hcur l l1 hr]
      by_cases h1 : l._curr._type = TOK_LBRACE
      · rw [if_pos h1] at h ⊢
        exact iho l l1 p hr h
      rw [if_neg h1] at h ⊢
      by_cases h2 : l._curr._type = TOK_LBRACK
      · rw [if_pos h2] at h ⊢
        exact iha l l1 p hr h
      rw [if_neg h2] at h ⊢
      by_cases h3 : l._curr._type = TOK_STR
      · rw [if_pos h3] at h ⊢
        refine Outcome.bind_sim_ok _ _ _ _ _ _ (fun a b => R a b ∨ E a b) h
          (fun a ha => hmatch l l1 TOK_STR a hr ha) (fun a b _ hab h4 => ?_)
        cases h4
        exact ⟨_, rfl, rfl, hab⟩
      rw [if_neg h3] at h ⊢
      by_cases h4 : l._curr._type = TOK_NUM
      · rw [if_pos h4] at h ⊢
        refine Outcome.bind_sim_ok _ _ _ _ _ _ (fun a b => R a b ∨ E a b) h
          (fun a ha => hmatch l l1 TOK_NUM a hr ha) (fun a b _ hab h5 => ?_)
        cases h5
        exact ⟨_, rfl, rfl, hab⟩
      rw [if_neg h4] at h ⊢
      by_cases h5 : l._curr._type = TOK_TRUE ∨ l._curr._type = TOK_FALSE
      · rw [if_pos h5] at h ⊢
        refine Outcome.bind_sim_ok _ _ _ _ _ _ (fun a b => R a b ∨ E a b) h
          (fun a ha => hstep l l1 a hr ha) (fun a b _ hab h6 => ?_)
        cases h6
        exact ⟨_, rfl, rfl, hab⟩
      · rw [if_neg h5] at h
        cases h
    · intro l l1 p hr h
      rw [parse_json_obj] at h ⊢
      refine Outcome.bind_sim_ok _ _ _ _ _ _ (fun a b => R a b ∨ E a b) h
        (fun a ha => hmatch l l1 TOK_LBRACE a hr ha) (fun a b _ hab h2 => ?_)
      obtain ⟨r, hl, h3⟩ := Outcome.bind_eq_ok _ _ _ h2
      obtain ⟨ld, hm, h4⟩ := Outcome.bind_eq_ok _ _ _ h3
      have hrb := (Match_eq_ok r.2 ld TOK_RBRACE hm).1
      have hne : r.2._curr._type ≠ TOK_EOF := by rw [hrb]; decide
      rcases hab with hR | hEe
      · obtain ⟨q, hq, hq1, hq2⟩ := ihol [] a b r hR hl hne
        obtain ⟨ld1, hm1, hre⟩ := hmatch r.2 q.2 TOK_RBRACE ld hq2 hm
        cases h4
        refine ⟨(.obj q.1, ld1), ?_, ?_, hre⟩
        · rw [hq]
          show (q.2.Match TOK_RBRACE).bind _ = _
          rw [hm1]
          rfl
        · show json_node.obj r.1 = json_node.obj q.1
          rw [hq1]
      · have := parse_json_obj_loop_eof atof f [] a r (hE a b hEe) hl
        rw [this] at hne
        exact absurd (hE a b hEe) hne
    · intro l l1 p hr h
      rw [parse_json_arr] at h ⊢
      refine Outcome.bind_sim_ok _ _ _ _ _ _ (fun a b => R a b ∨ E a b) h
        (fun a ha => hmatch l l1 TOK_LBRACK a hr ha) (fun a b _ hab h2 => ?_)
      obtain ⟨r, hl, h3⟩ := Outcome.bind_eq_ok _ _ _ h2
      obtain ⟨ld, hm, h4⟩ := Outcome.bind_eq_ok _ _ _ h3
      have hrb := (Match_eq_ok r.2 ld TOK_RBRACK hm).1
      have hne : r.2._curr._type ≠ TOK_EOF := by rw [hrb]; decide
      rcases hab with hR | hEe
      · obtain ⟨q, hq, hq1, hq2⟩ := ihal [] a b r hR hl hne
        obtain ⟨ld1, hm1, hre⟩ := hmatch r.2 q.2 TOK_RBRACK ld hq2 hm
        cases h4
        refine ⟨(.arr q.1, ld1), ?_, ?_, hre⟩
        · rw [hq]
          show (q.2.Match TOK_RBRACK).bind _ = _
          rw [hm1]
          rfl
        · show json_node.arr r.1 = json_node.arr q.1
          rw [hq1]
      · have := parse_json_arr_loop_eof atof f [] a r (hE a b hEe) hl
        rw [this] at hne
        exact absurd (hE a b hEe) hne
    · intro n l l1 p hr h hne
      rw [parse_json_obj_loop] at h ⊢
      rw [← hcur l l1 hr]
      by_cases hc : l._curr._type ≠ TOK_EOF ∧ l._curr._type ≠ TOK_RBRACE
      · rw [if_pos hc] at h ⊢
        refine Outcome.bind_sim_ok _ _ _ _ _ _ (fun a b => R a b ∨ E a b) h
          (fun a ha => hmatch l l1 TOK_STR a hr ha) (fun a b _ hab h2 => ?_)
        rcases hab with hR | hEe
        swap
        · obtain ⟨a2, hm, -⟩ := Outcome.bind_eq_ok _ _ _ h2
          have h3 := (Match_eq_ok a a2 TOK_COLON hm).1
          rw [hE a b hEe] at h3
          exact absurd h3 (by decide)
        refine Outcome.bind_sim_ok _ _ _ _ _ _ (fun a b => R a b ∨ E a b) h2
          (fun a2 ha => hmatch a b TOK_COLON a2 hR ha) (fun a2 b2 _ hab2 h3 => ?_)
        rcases hab2 with hR2 | hEe2
        swap
        · obtain ⟨a3, hm, -⟩ := Outcome.bind_eq_ok _ _ _ h3
          exact absurd hm (parse_json_eof atof f a2 a3 (hE a2 b2 hEe2))
        refine Outcome.bind_sim_ok _ _ _ _ _ _
          (fun a b => a.1 = b.1 ∧ (R a.2 b.2 ∨ E a.2 b.2)) h3
          (fun a3 ha => ihj a2 b2 a3 hR2 ha) (fun a3 b3 _ hab3 h4 => ?_)
        rw [← hab3.1]
        rcases hab3.2 with hR3 | hEe3
        · refine Outcome.bind_sim_ok _ _ _ _ _ _ (fun a b => R a b ∨ E a b) h4
            (fun a4 ha => hcomma a3.2 b3.2 a4 hR3 ha) (fun a4 b4 _ hab4 h5 => ?_)
          rcases hab4 with hR4 | hEe4
          · exact ihol _ a4 b4 p hR4 h5 hne
          · have := parse_json_obj_loop_eof atof f _ a4 p (hE a4 b4 hEe4) h5
            rw [this] at hne
            exact absurd (hE a4 b4 hEe4) hne
        · rw [comma_step_eof a3.2 (hE _ _ hEe3)] at h4
          have := parse_json_obj_loop_eof atof f _ a3.2 p (hE _ _ hEe3) h4
          rw [this] at hne
          exact absurd (hE _ _ hEe3) hne
      · rw [if_neg hc] at h ⊢
        cases h
        exact ⟨(n, l1), rfl, rfl, hr⟩
    · intro n l l1 p hr h hne
      rw [parse_json_arr_loop] at h ⊢
      rw [← hcur l l1 hr]
      by_cases hc : l._curr._type ≠ TOK_EOF ∧ l._curr._type ≠ TOK_RBRACK
      · rw [if_pos hc] at h ⊢
        refine Outcome.bind_sim_ok _ _ _ _ _ _
          (fun a b => a.1 = b.1 ∧ (R a.2 b.2 ∨ E a.2 b.2)) h
          (fun a3 ha => ihj l l1 a3 hr ha) (fun a3 b3 _ hab3 h4 => ?_)
        rw [← hab3.1]
        rcases hab3.2 with hR3 | hEe3
        · refine Outcome.bind_sim_ok _ _ _ _ _ _ (fun a b => R a b ∨ E a b) h4
            (fun a4 ha => hcomma a3.2 b3.2 a4 hR3 ha) (fun a4 b4 _ hab4 h5 => ?_)
          rcases hab4 with hR4 | hEe4
          · exact ihal _ a4 b4 p hR4 h5 hne
          · have := parse_json_arr_loop_eof atof f _ a4 p (hE a4 b4 hEe4) h5
            rw [this] at hne
            exact absurd (hE a4 b4 hEe4) hne
        · rw [comma_step_eof a3.2 (hE _ _ hEe3)] at h4
          have := parse_json_arr_loop_eof atof f _ a3.2 p (hE _ _ hEe3) h4
          rw [this] at hne
          exact absurd (hE _ _ hEe3) hne
      · rw [if_neg hc] at h ⊢
        cases h
        exact ⟨(n, l1), rfl, rfl, hr⟩

theorem stops_structural (c : Int) (h : structural c) : stops c = true ∧ c ≠ 0 := by
  rcases h with h | h | h | h | h | h <;> subst h <;> exact ⟨by decide, by decide⟩

/-- A brace, a bracket, a comma or a colon is a token of its own. -/
theorem Next_scan_structural (c0 : Char) (r0 : List Char) (hs : structural (code c0)) :
    Next_scan (c0 :: r0) = .ok ⟨⟨[], code c0⟩, r0, 0⟩ := by
  rcases hs with h | h | h | h | h | h
  · rw [code_inj c0 '{' h]; rfl
  · rw [code_inj c0 '}' h]; rfl
  · rw [code_inj c0 '[' h]; rfl
  · rw [code_inj c0 ']' h]; rfl
  · rw [code_inj c0 ',' h]; rfl
  · rw [code_inj c0 ':' h]; rfl

/-- In front of a text that starts with a brace, a bracket, a comma or a colon,
each `Next` that yields a token yields the same token; and where it yields
`TOK_EOF`, it yields that character instead, with the text behind it left. -/
theorem AppRel_Next (c0 : Char) (r0 : List Char) (hs : structural (code c0))
    (l l1 l2 : Lexer) (h : AppRel (c0 :: r0) l l1) (hn : l.Next = .ok l2) :
    ∃ l3, l1.Next = .ok l3 ∧ (AppRel (c0 :: r0) l2 l3 ∨
      (l2._curr._type = TOK_EOF ∧ l3 = ⟨⟨[], code c0⟩, r0, 0⟩)) := by
  obtain ⟨-, r, hat, hat1⟩ := h
  rw [Next_of_At l r hat] at hn
  rw [Next_of_At l1 _ hat1]
  rcases Next_scan_local r l2 hn with ⟨h1, h2⟩ | ⟨a, r2, h1, h2, h3, h4, h5⟩
  · rw [h2 (c0 :: r0), Next_scan_structural c0 r0 hs]
    exact ⟨_, rfl, Or.inr ⟨by rw [h1], rfl⟩⟩
  · subst h1
    have hhead : (fgetc (r2 ++ c0 :: r0)).1 = (fgetc r2).1 ∨
        (Follow (r2 ++ c0 :: r0) ∧ (fgetc (r2 ++ c0 :: r0)).1 ≠ 0) := by
      cases r2 with
      | nil => exact Or.inr (stops_structural (code c0) hs)
      | cons c r2 => exact Or.inl rfl
    obtain ⟨l3, h6, h7, h8⟩ := h5 (r2 ++ c0 :: r0) hhead
    rw [List.append_assoc, h6]
    exact ⟨l3, rfl, Or.inl ⟨h7.symm, r2, h3, h8⟩⟩

/-- A text on which the run of `main` ends with a value, in front of a text
that starts with a brace, a bracket, a comma or a colon, gives the same value:
the lexer is left at the same token and the same place, or, when the first
run ended on `TOK_EOF`, at the character appended, with the text behind it
left unread. -/
theorem parse_append_structural {D : Type} (atof : List Char → D) (fuel : Nat)
    (s : List Char) (c0 : Char) (r0 : List Char) (hs : structural (code c0))
    (p : json_node D × Lexer) (h : parse atof fuel s = .ok p) :
    ∃ q, parse atof fuel (s ++ c0 :: r0) = .ok q ∧ p.1 = q.1 ∧
      (AppRel (c0 :: r0) p.2 q.2 ∨
        (p.2._curr._type = TOK_EOF ∧ q.2 = ⟨⟨[], code c0⟩, r0, 0⟩)) := by
  rw [parse] at h ⊢
  have h0 : AppRel (c0 :: r0) (Lexer.init s) (Lexer.init (s ++ c0 :: r0)) :=
    ⟨rfl, s, At_init s, At_init _⟩
  refine Outcome.bind_sim_ok _ _ _ _ _ _
    (fun a b => AppRel (c0 :: r0) a b ∨ (a._curr._type = TOK_EOF ∧ b = ⟨⟨[], code c0⟩, r0, 0⟩)) h
    (fun a ha => AppRel_Next c0 r0 hs _ _ a h0 ha) (fun a b _ hab h2 => ?_)
  rcases hab with hR | hEe
  · exact (parser_sim_ok atof (AppRel (c0 :: r0))
      (fun a b => a._curr._type = TOK_EOF ∧ b = ⟨⟨[], code c0⟩, r0, 0⟩)
      (fun _ _ h => h.1) (fun _ _ h => h.1) (AppRel_Next c0 r0 hs) fuel).1 a b p hR h2
  · exact absurd h2 (parse_json_eof atof fuel a p hEe.1)

/-- A text that is read as `v`, in front of a text that may follow a value: the
run of `main` gives `v` and leaves the lexer as one `Next` on the text behind
leaves it. -/
theorem parse_of_ParsesTo_rest {D : Type} (atof : List Char → D) (e : List Char)
    (v : json_node D) (h : ParsesTo atof e v) (rest : List Char) (hr : Follow rest)
    (fuel : Nat) (hfuel : 2 * e.length ≤ fuel) :
    parse atof fuel (e ++ rest) = (Next_scan rest).bind fun l => .ok (v, l) := by
  obtain ⟨lex, h1, -, h3⟩ := h.2 rest hr
  rw [parse, Lexer.init, Next_of_putback_zero, h1]
  exact h3 fuel hfuel

/-! ## Separators between members -/

theorem Follow_Sep (g : List Char) (hg : Sep g) (hne : g ≠ []) (t : List Char) :
    Follow (g ++ t) := by
  rcases hg with ⟨w1, w2, h1, -, rfl⟩ | hw
  · cases w1 with
    | nil => exact Follow_comma _
    | cons ch w1 => exact Follow_ws_cons ch (h1 ch (List.mem_cons_self _ _)) _
  · cases g with
    | nil => exact absurd rfl hne
    | cons ch g => exact Follow_ws_cons ch (hw ch (List.mem_cons_self _ _)) _

theorem items_sep_comma {X : Type} (fmt : X → List Char) (vs : List (json_node X)) :
    items_sep fmt [','] vs = serialise_items fmt vs := by
  induction vs with
  | nil => rw [items_sep, serialise_items]
  | cons v vs ih =>
    rw [items_sep, serialise_items_cons, ih]
    cases vs <;> rfl

theorem members_sep_comma {X : Type} (fmt : X → List Char)
    (ms : List (List Char × json_node X)) :
    members_sep fmt [','] ms = serialise_members fmt ms := by
  induction ms with
  | nil => rw [members_sep, serialise_members]
  | cons p ms ih =>
    obtain ⟨k, v⟩ := p
    rw [members_sep, serialise_members_cons, ih]
    cases ms <;> rfl

/-- The elements of an array written with a separator between them, a comma
or not, form an array body. -/
theorem ArrBody_items_sep {X D : Type} (atof : List Char → D) (fmt : X → List Char)
    (val : X → D) (g : List Char) (hg : Sep g) (hne : g ≠ []) (vs : List (json_node X))
    (h : ∀ v ∈ vs, ParsesTo atof (serialise fmt v) (denote val v)) :
    ArrBody atof (items_sep fmt g vs) (denote_items val vs) := by
  induction vs with
  | nil => exact ArrBody.nil [] IsWs_nil
  | cons v vs ih =>
    have hv := h v (List.mem_cons_self _ _)
    have hT := ih (fun u hu => h u (List.mem_cons_of_mem _ hu))
    rw [items_sep, denote_items]
    cases vs with
    | nil =>
      exact ArrBody.cons (serialise fmt v) [] (items_sep fmt g []) (denote val v) _ hv Sep_nil
        (Follow_rbrack _) hT
    | cons u us =>
      exact ArrBody.cons (serialise fmt v) g (items_sep fmt g (u :: us)) (denote val v) _ hv hg
        (Follow_Sep g hg hne _) hT

/-- The members of an object written with a separator between them, a comma
or not, form an object body. -/
theorem ObjBody_members_sep {X D : Type} (atof : List Char → D) (fmt : X → List Char)
    (val : X → D) (g : List Char) (hg : Sep g) (hne : g ≠ [])
    (ms : List (List Char × json_node X)) (hk : ∀ p ∈ ms, NoQuote p.1)
    (h : ∀ p ∈ ms, ParsesTo atof (serialise fmt p.2) (denote val p.2)) :
    ObjBody atof (members_sep fmt g ms) (denote_members val ms) := by
  induction ms with
  | nil => exact ObjBody.nil [] IsWs_nil
  | cons p ms ih =>
    obtain ⟨k, v⟩ := p
    have hv := h (k, v) (List.mem_cons_self _ _)
    have hkv : NoQuote k := hk (k, v) (List.mem_cons_self _ _)
    have hT := ih (fun q hq => hk q (List.mem_cons_of_mem _ hq))
      (fun q hq => h q (List.mem_cons_of_mem _ hq))
    rw [members_sep, denote_members]
    cases ms with
    | nil =>
      exact ObjBody.cons k [] (serialise fmt v) [] (members_sep fmt g []) (denote val v) _
        hkv IsWs_nil hv Sep_nil (Follow_rbrace _) hT
    | cons q qs =>
      exact ObjBody.cons k [] (serialise fmt v) g (members_sep fmt g (q :: qs)) (denote val v) _
        hkv IsWs_nil hv hg (Follow_Sep g hg hne _) hT

/-! ## Two commas -/

/-- One iteration of the array loop on the text of a value: the value is
appended, a comma behind it is consumed, and the loop goes on. -/
theorem parse_json_arr_loop_iter {D : Type} (atof : List Char → D) (e Y : List Char)
    (v : json_node D) (he : ParsesTo atof e v) (hY : Follow Y) (n : List (json_node D))
    (f : Nat) (hf : 2 * e.length ≤ f) (lex : Lexer) (hlex : Next_scan (e ++ Y) = .ok lex) :
    parse_json_arr_loop atof (f + 1) n lex =
      ((Next_scan Y).bind fun l1 =>
        if l1._curr._type = TOK_COMMA then l1.Match TOK_COMMA else .ok l1).bind
        fun l2 => parse_json_arr_loop atof f (n ++ [v]) l2 := by
  obtain ⟨lex0, h1, h2, h3⟩ := he.2 Y hY
  have hlex0 : lex = lex0 := by
    have : Outcome.ok lex = Outcome.ok lex0 := by rw [← hlex, ← h1]
    cases this; rfl
  subst hlex0
  have hne := ValueStart_ne h2
  rw [parse_json_arr_loop, if_pos ⟨hne.1, hne.2.1⟩, h3 f hf]
  cases Next_scan Y <;> rfl

/-- One iteration of the object loop on the text of a member. -/
theorem parse_json_obj_loop_iter {D : Type} (atof : List Char → D) (k e Y : List Char)
    (v : json_node D) (hk : NoQuote k) (he : ParsesTo atof e v) (hY : Follow Y)
    (n : List (List Char × json_node D)) (f : Nat) (hf : 2 * e.length ≤ f) (lex : Lexer)
    (hlex : Next_scan ('"' :: (k ++ '"' :: ':' :: (e ++ Y))) = .ok lex) :
    parse_json_obj_loop atof (f + 1) n lex =
      ((Next_scan Y).bind fun l1 =>
        if l1._curr._type = TOK_COMMA then l1.Match TOK_COMMA else .ok l1).bind
        fun l2 => parse_json_obj_loop atof f (obj_set n k v) l2 := by
  obtain ⟨lex0, h1, h2, h3⟩ := he.2 Y hY
  rw [Next_scan_str k hk] at hlex
  cases hlex
  have ht1 : TOK_STR ≠ TOK_EOF := by decide
  have ht2 : TOK_STR ≠ TOK_RBRACE := by decide
  rw [parse_json_obj_loop]
  simp only [ht1, ht2, ne_eq, not_false_eq_true, and_self, if_true]
  rw [Match_str, Next_of_putback_zero, Next_scan_colon]
  simp only [Outcome.bind]
  rw [Match_colon, Next_of_putback_zero, h1]
  simp only []
  rw [h3 f hf]
  cases Next_scan Y <;> rfl

/-- Behind the elements of an array, two commas stop the array loop with the
error of `parse_json` on a comma. -/
theorem parse_json_arr_loop_two_commas {X D : Type} (atof : List Char → D)
    (fmt : X → List Char) (val : X → D) (vs : List (json_node X))
    (h : ∀ v ∈ vs, ParsesTo atof (serialise fmt v) (denote val v)) (hne : vs ≠ []) :
    ∀ (n : List (json_node D)) (rest : List Char) (fuel : Nat) (lex : Lexer),
      2 * (serialise_items fmt vs).length + 3 ≤ fuel →
      Next_scan (serialise_items fmt vs ++ ',' :: ',' :: rest) = .ok lex →
      parse_json_arr_loop atof fuel n lex = .fail "unknown token type: 44" := by
  induction vs with
  | nil => exact absurd rfl hne
  | cons v vs ih =>
    intro n rest fuel lex hfuel hlex
    have hv := h v (List.mem_cons_self _ _)
    rw [serialise_items_cons] at hfuel hlex
    simp only [List.length_append] at hfuel
    cases vs with
    | nil =>
      obtain ⟨f, rfl⟩ : ∃ f, fuel = f + 3 := ⟨fuel - 3, by omega⟩
      have hl : Next_scan (serialise fmt v ++ ',' :: ',' :: rest) = .ok lex := by
        rw [← hlex]; simp [comma_if, serialise_items]
      rw [parse_json_arr_loop_iter atof _ _ _ hv (Follow_comma _) n (f + 2) (by omega) lex hl]
      rfl
    | cons u us =>
      obtain ⟨f, rfl⟩ : ∃ f, fuel = f + 1 := ⟨fuel - 1, by omega⟩
      have hl : Next_scan (serialise fmt v ++
          ',' :: (serialise_items fmt (u :: us) ++ ',' :: ',' :: rest)) = .ok lex := by
        rw [← hlex]; simp [comma_if]
      have hu := h u (List.mem_cons_of_mem _ (List.mem_cons_self _ _))
      have hfol : Follow (comma_if us ++ (serialise_items fmt us ++ ',' :: ',' :: rest)) := by
        cases us with
        | nil => exact Follow_comma _
        | cons w ws => exact Follow_comma _
      obtain ⟨lexY, hy1, hy2, -⟩ := hu.2 _ hfol
      have hy : Next_scan (serialise_items fmt (u :: us) ++ ',' :: ',' :: rest) = .ok lexY := by
        rw [← hy1, serialise_items_cons]; simp
      have hstep := sep_step [','] Sep_comma _ lexY hy (ValueStart_ne hy2).2.2.2
      simp only [comma_if, List.length_cons, List.length_nil] at hfuel
      rw [parse_json_arr_loop_iter atof _ _ _ hv (Follow_comma _) n f (by omega) lex hl]
      rw [show ',' :: (serialise_items fmt (u :: us) ++ ',' :: ',' :: rest) =
        [','] ++ (serialise_items fmt (u :: us) ++ ',' :: ',' :: rest) from rfl, hstep]
      exact ih (fun w hw => h w (List.mem_cons_of_mem _ hw)) (by simp) (n ++ [denote val v])
        rest f lexY (by omega) hy

/-- Behind the members of an object, two commas stop the object loop with the
error of `Match` on a comma where a key is expected. -/
theorem parse_json_obj_loop_two_commas {X D : Type} (atof : List Char → D)
    (fmt : X → List Char) (val : X → D) (ms : List (List Char × json_node X))
    (hk : ∀ p ∈ ms, NoQuote p.1)
    (h : ∀ p ∈ ms, ParsesTo atof (serialise fmt p.2) (denote val p.2)) (hne : ms ≠ []) :
    ∀ (n : List (List Char × json_node D)) (rest : List Char) (fuel : Nat) (lex : Lexer),
      2 * (serialise_members fmt ms).length + 3 ≤ fuel →
      Next_scan (serialise_members fmt ms ++ ',' :: ',' :: rest) = .ok lex →
      parse_json_obj_loop atof fuel n lex = .fail "expected TOK_STR, got TOK_COMMA" := by
  induction ms with
  | nil => exact absurd rfl hne
  | cons p ms ih =>
    obtain ⟨k, v⟩ := p
    intro n rest fuel lex hfuel hlex
    have hv : ParsesTo atof (serialise fmt v) (denote val v) :=
      h (k, v) (List.mem_cons_self _ _)
    have hkv : NoQuote k := hk (k, v) (List.mem_cons_self _ _)
    rw [serialise_members_cons] at hfuel hlex
    simp only [List.length_append, List.length_cons] at hfuel
    cases ms with
    | nil =>
      obtain ⟨f, rfl⟩ : ∃ f, fuel = f + 3 := ⟨fuel - 3, by omega⟩
      have hl : Next_scan ('"' :: (k ++ '"' :: ':' :: (serialise fmt v ++ ',' :: ',' :: rest))) =
          .ok lex := by
        rw [← hlex]; simp [comma_if, serialise_members]
      rw [parse_json_obj_loop_iter atof k _ _ _ hkv hv (Follow_comma _) n (f + 2) (by omega)
        lex hl]
      rfl
    | cons q qs =>
      obtain ⟨f, rfl⟩ : ∃ f, fuel = f + 1 := ⟨fuel - 1, by omega⟩
      have hl : Next_scan ('"' :: (k ++ '"' :: ':' :: (serialise fmt v ++
          ',' :: (serialise_members fmt (q :: qs) ++ ',' :: ',' :: rest)))) = .ok lex := by
        rw [← hlex]; simp [comma_if]
      obtain ⟨kq, vq⟩ := q
      have hkq : NoQuote kq := hk (kq, vq) (List.mem_cons_of_mem _ (List.mem_cons_self _ _))
      have hy : Next_scan (serialise_members fmt ((kq, vq) :: qs) ++ ',' :: ',' :: rest) =
          .ok ⟨⟨kq, TOK_STR⟩, ':' :: (serialise fmt vq ++ (comma_if qs ++
            serialise_members fmt qs) ++ ',' :: ',' :: rest), 0⟩ := by
        rw [serialise_members_cons, ← Next_scan_str kq hkq]
        simp
      have hstep := sep_step [','] Sep_comma _ _ hy (by show TOK_STR ≠ TOK_COMMA; decide)
      simp only [comma_if, List.length_cons, List.length_nil] at hfuel
      rw [parse_json_obj_loop_iter atof k _ _ _ hkv hv (Follow_comma _) n f (by omega) lex hl]
      rw [show ',' :: (serialise_members fmt ((kq, vq) :: qs) ++ ',' :: ',' :: rest) =
        [','] ++ (serialise_members fmt ((kq, vq) :: qs) ++ ',' :: ',' :: rest) from rfl, hstep]
      exact ih (fun w hw => hk w (List.mem_cons_of_mem _ hw))
        (fun w hw => h w (List.mem_cons_of_mem _ hw)) (by simp) (obj_set n k (denote val v))
        rest f _ (by omega) hy

/-- An array text with two commas behind its elements is rejected. -/
theorem parse_arr_two_commas {X D : Type} (atof : List Char → D) (fmt : X → List Char)
    (val : X → D) (vs : List (json_node X))
    (h : ∀ v ∈ vs, ParsesTo atof (serialise fmt v) (denote val v)) (hne : vs ≠ [])
    (rest : List Char) (fuel : Nat) (hfuel : 2 * (serialise_items fmt vs).length + 5 ≤ fuel) :
    parse atof fuel ('[' :: (serialise_items fmt vs ++ ',' :: ',' :: rest)) =
      .fail "unknown token type: 44" := by
  obtain ⟨f, rfl⟩ : ∃ f, fuel = f + 2 := ⟨fuel - 2, by omega⟩
  have hfirst : ∃ lex, Next_scan (serialise_items fmt vs ++ ',' :: ',' :: rest) = .ok lex := by
    cases vs with
    | nil => exact absurd rfl hne
    | cons v vs =>
      have hfol : Follow (comma_if vs ++ (serialise_items fmt vs ++ ',' :: ',' :: rest)) := by
        cases vs with
        | nil => exact Follow_comma _
        | cons w ws => exact Follow_comma _
      obtain ⟨lex, h1, -, -⟩ := (h v (List.mem_cons_self _ _)).2 _ hfol
      refine ⟨lex, ?_⟩
      rw [← h1, serialise_items_cons]
      simp
  obtain ⟨lex, hlex⟩ := hfirst
  rw [parse, Lexer.init, Next_of_putback_zero, Next_scan_lbrack]
  show parse_json atof (f + 2)
    ⟨⟨[], TOK_LBRACK⟩, serialise_items fmt vs ++ ',' :: ',' :: rest, 0⟩ = _
  rw [parse_json_lbrack_tok, Next_of_putback_zero, hlex]
  show (parse_json_arr_loop atof f [] lex).bind _ = _
  rw [parse_json_arr_loop_two_commas atof fmt val vs h hne [] rest f lex (by omega) hlex]
  rfl

/-- An object text with two commas behind its members is rejected. -/
theorem parse_obj_two_commas {X D : Type} (atof : List Char → D) (fmt : X → List Char)
    (val : X → D) (ms : List (List Char × json_node X)) (hk : ∀ p ∈ ms, NoQuote p.1)
    (h : ∀ p ∈ ms, ParsesTo atof (serialise fmt p.2) (denote val p.2)) (hne : ms ≠ [])
    (rest : List Char) (fuel : Nat) (hfuel : 2 * (serialise_members fmt ms).length + 5 ≤ fuel) :
    parse atof fuel ('{' :: (serialise_members fmt ms ++ ',' :: ',' :: rest)) =
      .fail "expected TOK_STR, got TOK_COMMA" := by
  obtain ⟨f, rfl⟩ : ∃ f, fuel = f + 2 := ⟨fuel - 2, by omega⟩
  have hfirst : ∃ lex, Next_scan (serialise_members fmt ms ++ ',' :: ',' :: rest) = .ok lex := by
    cases ms with
    | nil => exact absurd rfl hne
    | cons p ms =>
      obtain ⟨k, v⟩ := p
      refine ⟨⟨⟨k, TOK_STR⟩, ':' :: (serialise fmt v ++ (comma_if ms ++
        serialise_members fmt ms) ++ ',' :: ',' :: rest), 0⟩, ?_⟩
      rw [serialise_members_cons, ← Next_scan_str k (hk (k, v) (List.mem_cons_self _ _))]
      simp
  obtain ⟨lex, hlex⟩ := hfirst
  rw [parse, Lexer.init, Next_of_putback_zero, Next_scan_lbrace]
  show parse_json atof (f + 2)
    ⟨⟨[], TOK_LBRACE⟩, serialise_members fmt ms ++ ',' :: ',' :: rest, 0⟩ = _
  rw [parse_json_lbrace_tok, Next_of_putback_zero, hlex]
  show (parse_json_obj_loop atof f [] lex).bind _ = _
  rw [parse_json_obj_loop_two_commas atof fmt val ms hk h hne [] rest f lex (by omega) hlex]
  rfl

/-! ## Input that ends in an open container -/

/-- The array loop on the texts of elements with commas between them, in front
of a text `Y` that may follow a value: the elements are appended in order, and
the loop goes on behind them, with fuel lowered by one for each element. -/
theorem parse_json_arr_loop_front {X D : Type} (atof : List Char → D) (fmt : X → List Char)
    (val : X → D) (vs : List (json_node X))
    (h : ∀ v ∈ vs, ParsesTo atof (serialise fmt v) (denote val v)) (hne : vs ≠ []) :
    ∀ (n : List (json_node D)) (Y : List Char) (f : Nat) (lex : Lexer), Follow Y →
      2 * (serialise_items fmt vs).length ≤ f →
      Next_scan (serialise_items fmt vs ++ Y) = .ok lex →
      parse_json_arr_loop atof (f + vs.length) n lex =
        ((Next_scan Y).bind fun l1 =>
          if l1._curr._type = TOK_COMMA then l1.Match TOK_COMMA else .ok l1).bind
          fun l2 => parse_json_arr_loop atof f (n ++ denote_items val vs) l2 := by
  induction vs with
  | nil => exact absurd rfl hne
  | cons v vs ih =>
    intro n Y f lex hY hfuel hlex
    have hv := h v (List.mem_cons_self _ _)
    rw [serialise_items_cons] at hfuel hlex
    simp only [List.length_append] at hfuel
    cases vs with
    | nil =>
      have hl : Next_scan (serialise fmt v ++ Y) = .ok lex := by
        rw [← hlex]; simp [comma_if, serialise_items]
      exact parse_json_arr_loop_iter atof _ _ _ hv hY n f (by omega) lex hl
    | cons u us =>
      have hl : Next_scan (serialise fmt v ++
          ',' :: (serialise_items fmt (u :: us) ++ Y)) = .ok lex := by
        rw [← hlex]; simp [comma_if]
      have hu := h u (List.mem_cons_of_mem _ (List.mem_cons_self _ _))
      have hfol : Follow (comma_if us ++ (serialise_items fmt us ++ Y)) := by
        cases us with
        | nil => exact hY
        | cons w ws => exact Follow_comma _
      obtain ⟨lexZ, hz1, hz2, -⟩ := hu.2 _ hfol
      have hz : Next_scan (serialise_items fmt (u :: us) ++ Y) = .ok lexZ := by
        rw [← hz1, serialise_items_cons]; simp
      have hstep := sep_step [','] Sep_comma _ lexZ hz (ValueStart_ne hz2).2.2.2
      simp only [comma_if, List.length_cons, List.length_nil] at hfuel
      have hih := ih (fun w hw => h w (List.mem_cons_of_mem _ hw)) (by simp)
        (n ++ [denote val v]) Y f lexZ hY (by omega) hz
      show parse_json_arr_loop atof ((f + (u :: us).length) + 1) n lex = _
      rw [parse_json_arr_loop_iter atof _ _ _ hv (Follow_comma _) n (f + (u :: us).length)
        (by omega) lex hl]
      rw [show ',' :: (serialise_items fmt (u :: us) ++ Y) =
        [','] ++ (serialise_items fmt (u :: us) ++ Y) from rfl, hstep]
      show parse_json_arr_loop atof (f + (u :: us).length) (n ++ [denote val v]) lexZ = _
      rw [hih, List.append_assoc]
      rfl

/-- The object loop on the texts of members with commas between them, in
front of a text `Y` that may follow a value: the members are assigned in
order, and the loop goes on behind them. -/
theorem parse_json_obj_loop_front {X D : Type} (atof : List Char → D) (fmt : X → List Char)
    (val : X → D) (ms : List (List Char × json_node X)) (hk : ∀ p ∈ ms, NoQuote p.1)
    (h : ∀ p ∈ ms, ParsesTo atof (serialise fmt p.2) (denote val p.2)) (hne : ms ≠ []) :
    ∀ (n : List (List Char × json_node D)) (Y : List Char) (f : Nat) (lex : Lexer), Follow Y →
      2 * (serialise_members fmt ms).length ≤ f →
      Next_scan (serialise_members fmt ms ++ Y) = .ok lex →
      parse_json_obj_loop atof (f + ms.length) n lex =
        ((Next_scan Y).bind fun l1 =>
          if l1._curr._type = TOK_COMMA then l1.Match TOK_COMMA else .ok l1).bind
          fun l2 => parse_json_obj_loop atof f (obj_set_all n (denote_members val ms)) l2 := by
  induction ms with
  | nil => exact absurd rfl hne
  | cons p ms ih =>
    obtain ⟨k, v⟩ := p
    intro n Y f lex hY hfuel hlex
    have hv : ParsesTo atof (serialise fmt v) (denote val v) :=
      h (k, v) (List.mem_cons_self _ _)
    have hkv : NoQuote k := hk (k, v) (List.mem_cons_self _ _)
    rw [serialise_members_cons] at hfuel hlex
    simp only [List.length_append, List.length_cons] at hfuel
    cases ms with
    | nil =>
      have hl : Next_scan ('"' :: (k ++ '"' :: ':' :: (serialise fmt v ++ Y))) = .ok lex := by
        rw [← hlex]; simp [comma_if, serialise_members]
      exact parse_json_obj_loop_iter atof k _ _ _ hkv hv hY n f (by omega) lex hl
    | cons q qs =>
      have hl : Next_scan ('"' :: (k ++ '"' :: ':' :: (serialise fmt v ++
          ',' :: (serialise_members fmt (q :: qs) ++ Y)))) = .ok lex := by
        rw [← hlex]; simp [comma_if]
      obtain ⟨kq, vq⟩ := q
      have hkq : NoQuote kq := hk (kq, vq) (List.mem_cons_of_mem _ (List.mem_cons_self _ _))
      have hz : Next_scan (serialise_members fmt ((kq, vq) :: qs) ++ Y) =
          .ok ⟨⟨kq, TOK_STR⟩, ':' :: (serialise fmt vq ++ (comma_if qs ++
            serialise_members fmt qs) ++ Y), 0⟩ := by
        rw [serialise_members_cons, ← Next_scan_str kq hkq]
        simp
      have hstep := sep_step [','] Sep_comma _ _ hz (by show TOK_STR ≠ TOK_COMMA; decide)
      simp only [comma_if, List.length_cons, List.length_nil] at hfuel
      have hih := ih (fun w hw => hk w (List.mem_cons_of_mem _ hw))
        (fun w hw => h w (List.mem_cons_of_mem _ hw)) (by simp)
        (obj_set n k (denote val v)) Y f _ hY (by omega) hz
      show parse_json_obj_loop atof ((f + ((kq, vq) :: qs).length) + 1) n lex = _
      rw [parse_json_obj_loop_iter atof k _ _ _ hkv hv (Follow_comma _) n
        (f + ((kq, vq) :: qs).length) (by omega) lex hl]
      rw [show ',' :: (serialise_members fmt ((kq, vq) :: qs) ++ Y) =
        [','] ++ (serialise_members fmt ((kq, vq) :: qs) ++ Y) from rfl, hstep]
      exact hih

/-- The run of `main` on `[`, elements with commas between them, and a text
`Y` that may follow a value. -/
theorem parse_arr_front {X D : Type} (atof : List Char → D) (fmt : X → List Char)
    (val : X → D) (vs : List (json_node X))
    (h : ∀ v ∈ vs, ParsesTo atof (serialise fmt v) (denote val v)) (hne : vs ≠ [])
    (Y : List Char) (hY : Follow Y) (f : Nat) (hf : 2 * (serialise_items fmt vs).length ≤ f) :
    parse atof (f + vs.length + 2) ('[' :: (serialise_items fmt vs ++ Y)) =
      (((Next_scan Y).bind fun l1 =>
          if l1._curr._type = TOK_COMMA then l1.Match TOK_COMMA else .ok l1).bind
        fun l2 => parse_json_arr_loop atof f (denote_items val vs) l2).bind
        fun r => (r.2.Match TOK_RBRACK).bind fun lex2 => .ok (.arr r.1, lex2) := by
  have hfirst : ∃ lex, Next_scan (serialise_items fmt vs ++ Y) = .ok lex := by
    cases vs with
    | nil => exact absurd rfl hne
    | cons v vs =>
      have hfol : Follow (comma_if vs ++ (serialise_items fmt vs ++ Y)) := by
        cases vs with
        | nil => exact hY
        | cons w ws => exact Follow_comma _
      obtain ⟨lex, h1, -, -⟩ := (h v (List.mem_cons_self _ _)).2 _ hfol
      refine ⟨lex, ?_⟩
      rw [← h1, serialise_items_cons]
      simp
  obtain ⟨lex, hlex⟩ := hfirst
  rw [parse, Lexer.init, Next_of_putback_zero, Next_scan_lbrack]
  show parse_json atof (f + vs.length + 2) ⟨⟨[], TOK_LBRACK⟩, serialise_items fmt vs ++ Y, 0⟩ = _
  rw [parse_json_lbrack_tok, Next_of_putback_zero, hlex]
  show (parse_json_arr_loop atof (f + vs.length) [] lex).bind _ = _
  rw [parse_json_arr_loop_front atof fmt val vs h hne [] Y f lex hY hf hlex, List.nil_append]

/-- The run of `main` on `{`, members with commas between them, and a text `Y`
that may follow a value. -/
theorem parse_obj_front {X D : Type} (atof : List Char → D) (fmt : X → List Char)
    (val : X → D) (ms : List (List Char × json_node X)) (hk : ∀ p ∈ ms, NoQuote p.1)
    (h : ∀ p ∈ ms, ParsesTo atof (serialise fmt p.2) (denote val p.2)) (hne : ms ≠ [])
    (Y : List Char) (hY : Follow Y) (f : Nat)
    (hf : 2 * (serialise_members fmt ms).length ≤ f) :
    parse atof (f + ms.length + 2) ('{' :: (serialise_members fmt ms ++ Y)) =
      (((Next_scan Y).bind fun l1 =>
          if l1._curr._type = TOK_COMMA then l1.Match TOK_COMMA else .ok l1).bind
        fun l2 => parse_json_obj_loop atof f (obj_set_all [] (denote_members val ms)) l2).bind
        fun r => (r.2.Match TOK_RBRACE).bind fun lex2 => .ok (.obj r.1, lex2) := by
  have hfirst : ∃ lex, Next_scan (serialise_members fmt ms ++ Y) = .ok lex := by
    cases ms with
    | nil => exact absurd rfl hne
    | cons p ms =>
      obtain ⟨k, v⟩ := p
      refine ⟨⟨⟨k, TOK_STR⟩, ':' :: (serialise fmt v ++ (comma_if ms ++
        serialise_members fmt ms) ++ Y), 0⟩, ?_⟩
      rw [serialise_members_cons, ← Next_scan_str k (hk (k, v) (List.mem_cons_self _ _))]
      simp
  obtain ⟨lex, hlex⟩ := hfirst
  rw [parse, Lexer.init, Next_of_putback_zero, Next_scan_lbrace]
  show parse_json atof (f + ms.length + 2)
    ⟨⟨[], TOK_LBRACE⟩, serialise_members fmt ms ++ Y, 0⟩ = _
  rw [parse_json_lbrace_tok, Next_of_putback_zero, hlex]
  show (parse_json_obj_loop atof (f + ms.length) [] lex).bind _ = _
  rw [parse_json_obj_loop_front atof fmt val ms hk h hne [] Y f lex hY hf hlex]

/-- An array text that ends behind its elements, or behind a comma after them,
without the closing bracket, is rejected with the error of the bracket. -/
theorem parse_arr_truncated {X D : Type} (atof : List Char → D) (fmt : X → List Char)
    (val : X → D) (vs : List (json_node X))
    (h : ∀ v ∈ vs, ParsesTo atof (serialise fmt v) (denote val v)) (tr : List Char)
    (htr : tr = [] ∨ (tr = [','] ∧ vs ≠ [])) (fuel : Nat)
    (hfuel : 2 * (serialise_items fmt vs).length + vs.length + 3 ≤ fuel) :
    parse atof fuel ('[' :: (serialise_items fmt vs ++ tr)) =
      .fail "expected TOK_RBRACK, got TOK_EOF" := by
  by_cases hne : vs = []
  · subst hne
    obtain ⟨f, rfl⟩ : ∃ f, fuel = f + 3 := ⟨fuel - 3, by omega⟩
    rcases htr with rfl | ⟨-, h1⟩
    · rfl
    · exact absurd rfl h1
  · obtain ⟨f, rfl⟩ : ∃ f, fuel = (f + 1) + vs.length + 2 :=
      ⟨fuel - vs.length - 3, by omega⟩
    rcases htr with rfl | ⟨rfl, -⟩
    · rw [parse_arr_front atof fmt val vs h hne [] Follow_nil (f + 1) (by omega)]
      rfl
    · rw [parse_arr_front atof fmt val vs h hne [','] (Follow_comma _) (f + 1) (by omega)]
      rfl

/-- An object text that ends behind its members, or behind a comma after them,
without the closing brace, is rejected with the error of the brace. -/
theorem parse_obj_truncated {X D : Type} (atof : List Char → D) (fmt : X → List Char)
    (val : X → D) (ms : List (List Char × json_node X)) (hk : ∀ p ∈ ms, NoQuote p.1)
    (h : ∀ p ∈ ms, ParsesTo atof (serialise fmt p.2) (denote val p.2)) (tr : List Char)
    (htr : tr = [] ∨ (tr = [','] ∧ ms ≠ [])) (fuel : Nat)
    (hfuel : 2 * (serialise_members fmt ms).length + ms.length + 3 ≤ fuel) :
    parse atof fuel ('{' :: (serialise_members fmt ms ++ tr)) =
      .fail "expected TOK_RBRACE, got TOK_EOF" := by
  by_cases hne : ms = []
  · subst hne
    obtain ⟨f, rfl⟩ : ∃ f, fuel = f + 3 := ⟨fuel - 3, by omega⟩
    rcases htr with rfl | ⟨-, h1⟩
    · rfl
    · exact absurd rfl h1
  · obtain ⟨f, rfl⟩ : ∃ f, fuel = (f + 1) + ms.length + 2 :=
      ⟨fuel - ms.length - 3, by omega⟩
    rcases htr with rfl | ⟨rfl, -⟩
    · rw [parse_obj_front atof fmt val ms hk h hne [] Follow_nil (f + 1) (by omega)]
      rfl
    · rw [parse_obj_front atof fmt val ms hk h hne [','] (Follow_comma _) (f + 1) (by omega)]
      rfl

/-- An object text that ends behind a key is rejected with the error of the
colon, and one that ends behind the colon of a key with the error of
`parse_json` on end-of-input. -/
theorem parse_obj_truncated_member {X D : Type} (atof : List Char → D) (fmt : X → List Char)
    (val : X → D) (ms : List (List Char × json_node X)) (hk : ∀ p ∈ ms, NoQuote p.1)
    (h : ∀ p ∈ ms, ParsesTo atof (serialise fmt p.2) (denote val p.2)) (k : List Char)
    (hkq : NoQuote k) (fuel : Nat)
    (hfuel : 2 * (serialise_members fmt ms).length + ms.length + 4 ≤ fuel) :
    parse atof fuel ('{' :: (serialise_members fmt ms ++ (comma_if ms ++ '"' :: (k ++ ['"'])))) =
      .fail "expected TOK_COLON, got TOK_EOF" ∧
    parse atof fuel
        ('{' :: (serialise_members fmt ms ++ (comma_if ms ++ '"' :: (k ++ ['"', ':'])))) =
      .fail "unknown token type: -1" := by
  have hs1 : Next_scan ('"' :: (k ++ ['"'])) = .ok ⟨⟨k, TOK_STR⟩, [], 0⟩ :=
    Next_scan_str k hkq []
  have hs2 : Next_scan ('"' :: (k ++ ['"', ':'])) = .ok ⟨⟨k, TOK_STR⟩, [':'], 0⟩ :=
    Next_scan_str k hkq [':']
  by_cases hne : ms = []
  · subst hne
    obtain ⟨f, rfl⟩ : ∃ f, fuel = f + 4 := ⟨fuel - 4, by omega⟩
    constructor
    · show parse atof (f + 4) ('{' :: '"' :: (k ++ ['"'])) = _
      rw [parse, Lexer.init, Next_of_putback_zero, Next_scan_lbrace]
      show parse_json atof (f + 2 + 2) ⟨⟨[], TOK_LBRACE⟩, '"' :: (k ++ ['"']), 0⟩ = _
      rw [parse_json_lbrace_tok, Next_of_putback_zero, hs1]
      rfl
    · show parse atof (f + 4) ('{' :: '"' :: (k ++ ['"', ':'])) = _
      rw [parse, Lexer.init, Next_of_putback_zero, Next_scan_lbrace]
      show parse_json atof (f + 2 + 2) ⟨⟨[], TOK_LBRACE⟩, '"' :: (k ++ ['"', ':']), 0⟩ = _
      rw [parse_json_lbrace_tok, Next_of_putback_zero, hs2]
      rfl
  · obtain ⟨f, rfl⟩ : ∃ f, fuel = (f + 2) + ms.length + 2 :=
      ⟨fuel - ms.length - 4, by omega⟩
    have hc : comma_if ms = [','] := by
      cases ms with
      | nil => exact absurd rfl hne
      | cons p ms => rfl
    rw [hc]
    constructor
    · rw [show [','] ++ '"' :: (k ++ ['"']) = ',' :: '"' :: (k ++ ['"']) from rfl,
        parse_obj_front atof fmt val ms hk h hne _ (Follow_comma _) (f + 2) (by omega),
        Next_scan_comma]
      show ((Lexer.Match ⟨⟨[], TOK_COMMA⟩, '"' :: (k ++ ['"']), 0⟩ TOK_COMMA).bind _).bind _ = _
      rw [Match_comma, Next_of_putback_zero, hs1]
      rfl
    · rw [show [','] ++ '"' :: (k ++ ['"', ':']) = ',' :: '"' :: (k ++ ['"', ':']) from rfl,
        parse_obj_front atof fmt val ms hk h hne _ (Follow_comma _) (f + 2) (by omega),
        Next_scan_comma]
      show ((Lexer.Match ⟨⟨[], TOK_COMMA⟩, '"' :: (k ++ ['"', ':']), 0⟩ TOK_COMMA).bind _).bind _
        = _
      rw [Match_comma, Next_of_putback_zero, hs2]
      rfl

/-! ## The claims -/

/-- C1 (the code fails the claim): the document `1e5` is derivable from the
grammar, its number being a digit run with an exponent and no fraction, yet
`Lexer::Next` followed by `parse_json` does not succeed on it. `read_num` scans
the exponent only inside the branch of the fraction, so the number token is
`1`, the `e` is pushed back, and the advance in `Match(TOK_NUM)` ends in the
error of `read_bool`. -/
theorem C1_exponent_without_fraction_fails {D : Type} (atof : List Char → D) (fuel : Nat) :
    parse atof (fuel + 1) ['1', 'e', '5'] = .fail "expected bool, got e" := rfl

/-- The round trip on the trees the lexer can read back: for every tree whose
strings and keys have no quote character, whose numbers are written by `fmt`
as number literals of the shape `read_num` scans (the exponent only behind a
fraction) that `atof` converts back to the number, and whose objects have
pairwise distinct keys, parsing the text of the tree (`Lexer::Next`, then
`parse_json`, with fuel of at least twice the length of the text) succeeds and
yields the tree itself, the lexer ending on `TOK_EOF`. -/
theorem round_trip_of_writable {D : Type} (atof : List Char → D) (fmt : D → List Char)
    (t : json_node D)
    (hw : json_node.All (Writable fmt) t) (hk : json_node.All DistinctKeys t)
    (hn : json_node.All (NumberKept atof fmt) t)
    (fuel : Nat) (hfuel : 2 * (serialise fmt t).length ≤ fuel) :
    parse atof fuel (serialise fmt t) = .ok (t, ⟨⟨[], TOK_EOF⟩, [], 0⟩) := by
  have h := parse_of_ParsesTo atof _ _ (ParsesTo_serialise atof fmt t hw) fuel hfuel
  rw [denote_self atof fmt t hk hn] at h
  exact h

/-- The round trip on the tree `C2_tree`, written as
`{"a":[1.5,"x",true],"b":{}}`. -/
theorem round_trip_of_writable_example :
    parse id 60 (serialise id C2_tree) = .ok (C2_tree, ⟨⟨[], TOK_EOF⟩, [], 0⟩) := by
  have hlit : NumLit (id ['1', '.', '5']) :=
    ⟨['1'], ['.', '5'], rfl, by decide, by decide,
      Or.inr ⟨['5'], [], rfl, by decide, Or.inl rfl⟩⟩
  have hw : json_node.All (Writable id) C2_tree := by
    simp only [C2_tree, json_node.All, json_node.All_members, json_node.All_items, Writable]
    exact ⟨by decide, ⟨trivial, hlit, by decide, trivial, trivial⟩, ⟨by decide, trivial⟩, trivial⟩
  have hk : json_node.All DistinctKeys C2_tree := by
    simp only [C2_tree, json_node.All, json_node.All_members, json_node.All_items, DistinctKeys]
    exact ⟨by decide, ⟨trivial, trivial, trivial, trivial, trivial⟩, ⟨by decide, trivial⟩, trivial⟩
  have hn : json_node.All (NumberKept id id) C2_tree := by
    simp only [C2_tree, json_node.All, json_node.All_members, json_node.All_items, NumberKept]
    exact ⟨trivial, ⟨trivial, rfl, trivial, trivial, trivial⟩, ⟨trivial, trivial⟩, trivial⟩
  exact round_trip_of_writable id id C2_tree hw hk hn 60 (by decide)

/-- C2 (the code fails the claim): the tree that is the Number written `1e5`,
a non-negative decimal literal, has no object, no string and no key, and its
number is kept by the conversion, so it meets the conditions of the round
trip; its text is `1e5`. Yet parsing that text does not succeed: `read_num`
scans the exponent only inside the branch of the fraction, the number token is
`1`, and the advance in `Match(TOK_NUM)` ends in the error of `read_bool` on
`e`. The same holds for the Array of that Number and for the Object with that
Number as the value of the key `a`. The literal `1e5` is not of the shape
`read_num` scans, while `1.0e5` is, and the Number written `1.0e5` does come
back from the round trip. -/
theorem C2_round_trip_fails_on_exponent :
    json_node.All DistinctKeys (.num ['1', 'e', '5'] : json_node (List Char)) ∧
    json_node.All (NumberKept id id) (.num ['1', 'e', '5'] : json_node (List Char)) ∧
    serialise id (.num ['1', 'e', '5'] : json_node (List Char)) = ['1', 'e', '5'] ∧
    (∀ fuel, parse id (fuel + 1) (serialise id (.num ['1', 'e', '5'])) =
      .fail "expected bool, got e") ∧
    json_node.All DistinctKeys (.arr [.num ['1', 'e', '5']] : json_node (List Char)) ∧
    json_node.All (NumberKept id id) (.arr [.num ['1', 'e', '5']] : json_node (List Char)) ∧
    (∀ fuel, parse id (fuel + 4) (serialise id (.arr [.num ['1', 'e', '5']])) =
      .fail "expected bool, got e") ∧
    json_node.All DistinctKeys
      (.obj [(['a'], .num ['1', 'e', '5'])] : json_node (List Char)) ∧
    json_node.All (NumberKept id id)
      (.obj [(['a'], .num ['1', 'e', '5'])] : json_node (List Char)) ∧
    (∀ fuel, parse id (fuel + 4) (serialise id (.obj [(['a'], .num ['1', 'e', '5'])])) =
      .fail "expected bool, got e") ∧
    ¬ NumLit ['1', 'e', '5'] ∧
    parse id 10 (serialise id (.num ['1', '.', '0', 'e', '5'])) =
      .ok (.num ['1', '.', '0', 'e', '5'], ⟨⟨[], TOK_EOF⟩, [], 0⟩) := by
  refine ⟨trivial, rfl, rfl, fun _ => rfl, ?_, ?_, fun _ => rfl, ?_, ?_, fun _ => rfl, ?_, rfl⟩
  · simp only [json_node.All, json_node.All_items, DistinctKeys]
    exact ⟨trivial, trivial, trivial⟩
  · simp only [json_node.All, json_node.All_items, NumberKept]
    exact ⟨trivial, rfl, trivial⟩
  · simp only [json_node.All, json_node.All_members, DistinctKeys]
    exact ⟨by decide, trivial, trivial⟩
  · simp only [json_node.All, json_node.All_members, NumberKept]
    exact ⟨trivial, rfl, trivial⟩
  · rintro ⟨ds, fr, h, hne, hd, hf⟩
    cases ds with
    | nil => exact hne rfl
    | cons d ds =>
      cases ds with
      | nil =>
        have hfr : fr = ['e', '5'] := by
          have := List.cons.inj h
          exact this.2.symm
        subst hfr
        rcases hf with hf | ⟨ds1, ex, hf, -, -⟩
        · cases hf
        · have := (List.cons.inj hf).1
          exact absurd this (by decide)
      | cons d1 ds =>
        have h1 := (List.cons.inj (List.cons.inj h).2).1
        have h2 := hd d1 (List.mem_cons_of_mem _ (List.mem_cons_self _ _))
        rw [← h1] at h2
        exact absurd h2 (by decide)

/-- C3: duplicate keys, last write wins. For an object document whose members
are written in order, the last member of key `k` having the value text of `v`
(no member after it has the key `k`; members before it may), parsing succeeds
and yields an Object whose entries map `k` to the tree of `v` and hold exactly
one entry of key `k`. And parsing `{"a":1,"a":2}` yields the Object with the
single field `a` whose value is the Number converted from `2`. -/
theorem C3_duplicate_keys_last_write_wins {X D : Type} (atof : List Char → D)
    (fmt : X → List Char) (ms1 ms2 : List (List Char × json_node X)) (k : List Char)
    (v : json_node X)
    (hw : json_node.All (Writable fmt) (.obj (ms1 ++ (k, v) :: ms2)))
    (hlast : k ∉ ms2.map Prod.fst) :
    (∀ fuel, 2 * (serialise fmt (.obj (ms1 ++ (k, v) :: ms2))).length ≤ fuel →
      ∃ entries, parse atof fuel (serialise fmt (.obj (ms1 ++ (k, v) :: ms2))) =
          .ok (.obj entries, ⟨⟨[], TOK_EOF⟩, [], 0⟩) ∧
        obj_get entries k = some (denote (fun x => atof (fmt x)) v) ∧
        (entries.filter fun p => decide (p.1 = k)).length = 1) ∧
    (∀ fuel, parse atof (fuel + 5)
        ['{', '"', 'a', '"', ':', '1', ',', '"', 'a', '"', ':', '2', '}'] =
      .ok (.obj [(['a'], .num (atof ['2']))], ⟨⟨[], TOK_EOF⟩, [], 0⟩)) := by
  refine ⟨fun fuel hfuel => ?_, fun fuel => rfl⟩
  have h := parse_of_ParsesTo atof _ _ (ParsesTo_serialise atof fmt _ hw) fuel hfuel
  rw [denote] at h
  refine ⟨_, h, ?_⟩
  rw [denote_members_append, denote_members]
  exact obj_set_all_last _ _ k _ (by rw [keys_denote_members]; exact hlast)

/-- Witness of C3 on the members of `{"a":1,"b":true,"a":2}`. -/
theorem C3_duplicate_keys_last_write_wins_witness :
    ∃ entries, parse id 50 (serialise id (.obj ([(['a'], .num ['1']), (['b'], .bool true)] ++
          (['a'], .num ['2']) :: []))) = .ok (.obj entries, ⟨⟨[], TOK_EOF⟩, [], 0⟩) ∧
      obj_get entries ['a'] = some (.num ['2']) ∧
      (entries.filter fun p => decide (p.1 = ['a'])).length = 1 := by
  have h1 : NumLit (id ['1']) := ⟨['1'], [], rfl, by decide, by decide, Or.inl rfl⟩
  have h2 : NumLit (id ['2']) := ⟨['2'], [], rfl, by decide, by decide, Or.inl rfl⟩
  have hw : json_node.All (Writable id)
      (.obj ([(['a'], .num ['1']), (['b'], .bool true)] ++ (['a'], .num ['2']) :: [])) := by
    simp only [List.cons_append, List.nil_append, json_node.All, json_node.All_members, Writable]
    exact ⟨by decide, h1, trivial, h2, trivial⟩
  exact (C3_duplicate_keys_last_write_wins id id [(['a'], .num ['1']), (['b'], .bool true)] []
    ['a'] (.num ['2']) hw (by decide)).1 50 (by decide)

/-- C4: trailing comma. For a non-empty sequence of values `vs`, the array
text with one comma after the last element parses, with fuel of at least twice
its length, to the same Array as the text without that comma, and the Array
has as many elements as `vs`; likewise for the members `ms` of an object and
one comma in front of the closing brace. And `[1,2,]` parses to the Array of
the two Numbers converted from `1` and `2`. -/
theorem C4_trailing_comma {X D : Type} (atof : List Char → D) (fmt : X → List Char)
    (vs : List (json_node X)) (ms : List (List Char × json_node X))
    (hvs : vs ≠ []) (hms : ms ≠ [])
    (hwv : json_node.All (Writable fmt) (.arr vs))
    (hwm : json_node.All (Writable fmt) (.obj ms)) :
    (∀ fuel, 2 * ('[' :: (serialise_items fmt vs ++ [',', ']'])).length ≤ fuel →
      parse atof fuel ('[' :: (serialise_items fmt vs ++ [',', ']'])) =
          .ok (.arr (denote_items (fun x => atof (fmt x)) vs), ⟨⟨[], TOK_EOF⟩, [], 0⟩) ∧
        parse atof fuel ('[' :: (serialise_items fmt vs ++ [']'])) =
          .ok (.arr (denote_items (fun x => atof (fmt x)) vs), ⟨⟨[], TOK_EOF⟩, [], 0⟩) ∧
        (denote_items (fun x => atof (fmt x)) vs).length = vs.length) ∧
    (∀ fuel, 2 * ('{' :: (serialise_members fmt ms ++ [',', '}'])).length ≤ fuel →
      parse atof fuel ('{' :: (serialise_members fmt ms ++ [',', '}'])) =
          .ok (.obj (obj_set_all [] (denote_members (fun x => atof (fmt x)) ms)),
            ⟨⟨[], TOK_EOF⟩, [], 0⟩) ∧
        parse atof fuel ('{' :: (serialise_members fmt ms ++ ['}'])) =
          .ok (.obj (obj_set_all [] (denote_members (fun x => atof (fmt x)) ms)),
            ⟨⟨[], TOK_EOF⟩, [], 0⟩)) ∧
    (∀ fuel, parse atof (fuel + 5) ['[', '1', ',', '2', ',', ']'] =
      .ok (.arr [.num (atof ['1']), .num (atof ['2'])], ⟨⟨[], TOK_EOF⟩, [], 0⟩)) := by
  rw [json_node.All, All_items_iff] at hwv
  rw [json_node.All, All_members_iff] at hwm
  have hv : ∀ v ∈ vs, ParsesTo atof (serialise fmt v) (denote (fun x => atof (fmt x)) v) :=
    fun v hv => ParsesTo_serialise atof fmt v (hwv.2 v hv)
  have hm : ∀ p ∈ ms, ParsesTo atof (serialise fmt p.2) (denote (fun x => atof (fmt x)) p.2) :=
    fun p hp => ParsesTo_serialise atof fmt p.2 (hwm.2 p hp)
  refine ⟨fun fuel hfuel => ⟨?_, ?_, denote_items_length _ vs⟩,
    fun fuel hfuel => ⟨?_, ?_⟩, fun fuel => rfl⟩
  · have hb := ArrBody_serialise atof fmt _ vs hv [','] (Or.inr ⟨rfl, hvs⟩)
    have h := parse_of_ParsesTo atof _ _ (ParsesTo_arr atof _ _ hb) fuel
      (by simpa using hfuel)
    simpa using h
  · have hb := ArrBody_serialise atof fmt _ vs hv [] (Or.inl rfl)
    have h := parse_of_ParsesTo atof _ _ (ParsesTo_arr atof _ _ hb) fuel
      (by simp only [List.length_cons, List.length_append, List.length_nil] at hfuel ⊢; omega)
    simpa using h
  · have hb := ObjBody_serialise atof fmt _ ms hwm.1 hm [','] (Or.inr ⟨rfl, hms⟩)
    have h := parse_of_ParsesTo atof _ _ (ParsesTo_obj atof _ _ hb) fuel
      (by simpa using hfuel)
    simpa using h
  · have hb := ObjBody_serialise atof fmt _ ms hwm.1 hm [] (Or.inl rfl)
    have h := parse_of_ParsesTo atof _ _ (ParsesTo_obj atof _ _ hb) fuel
      (by simp only [List.length_cons, List.length_append, List.length_nil] at hfuel ⊢; omega)
    simpa using h

/-- Witness of C4 on the elements of `["x",[true],]` and the members of
`{"k":false,}`. -/
theorem C4_trailing_comma_witness :
    parse id 30 ('[' :: (serialise_items id [.str ['x'], .arr [.bool true]] ++ [',', ']'])) =
        .ok (.arr [.str ['x'], .arr [.bool true]], ⟨⟨[], TOK_EOF⟩, [], 0⟩) ∧
      parse id 30 ('{' :: (serialise_members id [(['k'], .bool false)] ++ [',', '}'])) =
        .ok (.obj [(['k'], .bool false)], ⟨⟨[], TOK_EOF⟩, [], 0⟩) := by
  have hwv : json_node.All (Writable (id : List Char → List Char))
      (.arr [.str ['x'], .arr [.bool true]]) := by
    simp only [json_node.All, json_node.All_items, Writable]
    exact ⟨trivial, by decide, ⟨trivial, trivial, trivial⟩, trivial⟩
  have hwm : json_node.All (Writable (id : List Char → List Char))
      (.obj [(['k'], .bool false)]) := by
    simp only [json_node.All, json_node.All_members, Writable]
    exact ⟨by decide, trivial, trivial⟩
  have h := C4_trailing_comma id id [.str ['x'], .arr [.bool true]] [(['k'], .bool false)]
    (by simp) (by simp) hwv hwm
  exact ⟨(h.1 30 (by decide)).1, (h.2.1 30 (by decide)).1⟩

/-- C5: end to end. For every key `k` and payload `s` without a quote
character, parsing the input `[{"k":"s"}]` with fuel of at least twice its
length succeeds and yields an Array of exactly one element, an Object with
exactly one field `k`, whose value is the String `s`. And for
`[{"_id":"abc123"}]` the field `_id` of the first element is the String
`abc123`, which is what `main` prints. -/
theorem C5_end_to_end {D : Type} (atof : List Char → D) (k s : List Char)
    (hk : NoQuote k) (hs : NoQuote s) :
    (∀ fuel, 2 * (k.length + s.length + 9) ≤ fuel →
      parse atof fuel ('[' :: '{' :: '"' :: (k ++ '"' :: ':' :: '"' :: (s ++ ['"', '}', ']']))) =
        .ok (.arr [.obj [(k, .str s)]], ⟨⟨[], TOK_EOF⟩, [], 0⟩)) ∧
    (∀ fuel, parse atof (fuel + 7) ['[', '{', '"', '_', 'i', 'd', '"', ':', '"', 'a', 'b', 'c',
        '1', '2', '3', '"', '}', ']'] =
      .ok (.arr [.obj [(['_', 'i', 'd'], .str ['a', 'b', 'c', '1', '2', '3'])]],
        ⟨⟨[], TOK_EOF⟩, [], 0⟩)) ∧
    obj_get [(['_', 'i', 'd'], (json_node.str ['a', 'b', 'c', '1', '2', '3'] : json_node D))]
      ['_', 'i', 'd'] = some (.str ['a', 'b', 'c', '1', '2', '3']) := by
  refine ⟨fun fuel hfuel => ?_, fun fuel => rfl, rfl⟩
  have hw : json_node.All (Writable (fun _ : D => ([] : List Char)))
      (.arr [.obj [(k, .str s)]]) := by
    simp only [json_node.All, json_node.All_items, json_node.All_members, Writable]
    refine ⟨trivial, ⟨⟨?_, hs, trivial⟩, trivial⟩⟩
    intro p hp
    rw [List.mem_singleton] at hp
    rw [hp]
    exact hk
  have htext : serialise (fun _ : D => ([] : List Char)) (.arr [.obj [(k, .str s)]]) =
      '[' :: '{' :: '"' :: (k ++ '"' :: ':' :: '"' :: (s ++ ['"', '}', ']'])) := by
    simp [serialise, serialise_items, serialise_members, comma_if]
  have h := parse_of_ParsesTo atof _ _ (ParsesTo_serialise atof _ _ hw) fuel
    (by rw [htext]; simp only [List.length_cons, List.length_append, List.length_nil]; omega)
  rw [htext] at h
  exact h

/-- Witness of C5 on the key `id` and the payload `a b`. -/
theorem C5_end_to_end_witness :
    parse (id : List Char → List Char) 40
        ['[', '{', '"', 'i', 'd', '"', ':', '"', 'a', ' ', 'b', '"', '}', ']'] =
      .ok (.arr [.obj [(['i', 'd'], .str ['a', ' ', 'b'])]], ⟨⟨[], TOK_EOF⟩, [], 0⟩) :=
  (C5_end_to_end id ['i', 'd'] ['a', ' ', 'b'] (by decide) (by decide)).1 40 (by decide)

/-- C6: empty containers. With nothing or only whitespace `w` between the
delimiters, and fuel 3 or more, `{ w }` parses to the Object with no field and
`[ w ]` to the Array with no element. -/
theorem C6_empty_containers {D : Type} (atof : List Char → D) (w : List Char) (hw : IsWs w)
    (fuel : Nat) :
    parse atof (fuel + 3) ('{' :: (w ++ ['}'])) = .ok (.obj [], ⟨⟨[], TOK_EOF⟩, [], 0⟩) ∧
    parse atof (fuel + 3) ('[' :: (w ++ [']'])) = .ok (.arr [], ⟨⟨[], TOK_EOF⟩, [], 0⟩) := by
  constructor
  · rw [parse, Lexer.init, Next_of_putback_zero, Next_scan_lbrace]
    simp only [Outcome.bind]
    rw [parse_json_lbrace_tok, Next_of_putback_zero, Next_scan_ws w hw, Next_scan_rbrace]
    rfl
  · rw [parse, Lexer.init, Next_of_putback_zero, Next_scan_lbrack]
    simp only [Outcome.bind]
    rw [parse_json_lbrack_tok, Next_of_putback_zero, Next_scan_ws w hw, Next_scan_rbrack]
    rfl

/-- Witness of C6: `{}` and `[]`, and a space, a tab and a newline between
the delimiters. -/
theorem C6_empty_containers_witness :
    (parse (id : List Char → List Char) 3 ['{', '}'] = .ok (.obj [], ⟨⟨[], TOK_EOF⟩, [], 0⟩) ∧
      parse (id : List Char → List Char) 3 ['[', ']'] =
        .ok (.arr [], ⟨⟨[], TOK_EOF⟩, [], 0⟩)) ∧
    (parse (id : List Char → List Char) 3 ['{', ' ', '\t', '\n', '}'] =
        .ok (.obj [], ⟨⟨[], TOK_EOF⟩, [], 0⟩) ∧
      parse (id : List Char → List Char) 3 ['[', ' ', '\t', '\n', ']'] =
        .ok (.arr [], ⟨⟨[], TOK_EOF⟩, [], 0⟩)) :=
  ⟨C6_empty_containers id [] (by decide) 0,
    C6_empty_containers id [' ', '\t', '\n'] (by decide) 0⟩

/-- C7 (the code fails the claim): `-` is outside the handled classes, and
`Lexer::Next` does not fail on it: no branch of the loop body takes the
character, the body ends, and the loop reads on, so `Next` on `-` and a text is
`Next` on that text. On the input `-1` the token is the number `1`, and
`parse_json` succeeds with the Number converted from `1`. -/
theorem C7_unhandled_character_is_skipped {D : Type} (atof : List Char → D) (fuel : Nat) :
    (∀ fp, (Lexer.init ('-' :: fp)).Next = (Lexer.init fp).Next) ∧
    (Lexer.init ['-', '1']).Next = .ok ⟨⟨['1'], TOK_NUM⟩, [], EOF⟩ ∧
    parse atof (fuel + 1) ['-', '1'] = .ok (.num (atof ['1']), ⟨⟨[], TOK_EOF⟩, [], 0⟩) :=
  ⟨fun _ => rfl, rfl, rfl⟩

/-- C8 (the code fails the claim): on the input `1e5` the number token of
`Lexer::Next` has the text `1`, not `1e5`, and `e` is pushed back; on `12E+3`
the text is `12`. `read_num` scans the exponent only after a fraction. -/
theorem C8_exponent_needs_fraction :
    (Lexer.init ['1', 'e', '5']).Next = .ok ⟨⟨['1'], TOK_NUM⟩, ['5'], 101⟩ ∧
    (Lexer.init ['1', '2', 'E', '+', '3']).Next = .ok ⟨⟨['1', '2'], TOK_NUM⟩, ['+', '3'], 69⟩ :=
  ⟨rfl, rfl⟩

/-- C9 as stated fails: the literal `1.5e-10` followed by `x`, a character
that is not a digit, is lexed as one number token, but `parse_json` does not
turn it into a Number node: its `Match(TOK_NUM)` advances to the next token,
and that scan ends in the error of `read_bool`. -/
theorem C9_counterexample :
    (Lexer.init ['1', '.', '5', 'e', '-', '1', '0', 'x']).Next =
        .ok ⟨⟨['1', '.', '5', 'e', '-', '1', '0'], TOK_NUM⟩, [], 120⟩ ∧
    parse_json (id : List Char → List Char) 5
        ⟨⟨['1', '.', '5', 'e', '-', '1', '0'], TOK_NUM⟩, [], 120⟩ =
      .fail "expected bool, got x" :=
  ⟨rfl, rfl⟩

/-- C9, amended: a literal digits `.` digits `e`/`E`, optional sign, digits,
followed by the end of the input or by a character that is not a digit, is
lexed by `Lexer::Next` as one number token whose text is the whole literal,
the character after it being pushed back. `parse_json` then advances the lexer
by one token: when that advance succeeds it returns the single Number node
converted from the text, when it fails `parse_json` fails with the same error;
at the end of the input it succeeds. And `1.5e-10` yields the token `1.5e-10`
and one Number node. -/
theorem C9_fraction_exponent_literal {D : Type} (atof : List Char → D)
    (ds1 ds2 sg ds3 : List Char) (e : Char) (rest : List Char)
    (h1 : Digits ds1) (n1 : ds1 ≠ []) (h2 : Digits ds2) (h3 : Digits ds3) (n3 : ds3 ≠ [])
    (he : e = 'e' ∨ e = 'E') (hsg : sg = [] ∨ sg = ['+'] ∨ sg = ['-'])
    (hrest : isdigit (fgetc rest).1 = false) :
    ∃ lex, (Lexer.init (ds1 ++ '.' :: (ds2 ++ e :: (sg ++ (ds3 ++ rest))))).Next = .ok lex ∧
      lex = ⟨⟨ds1 ++ '.' :: (ds2 ++ e :: (sg ++ ds3)), TOK_NUM⟩, (fgetc rest).2, (fgetc rest).1⟩ ∧
      (∀ fuel lex1, lex.Next = .ok lex1 → parse_json atof (fuel + 1) lex =
        .ok (.num (atof (ds1 ++ '.' :: (ds2 ++ e :: (sg ++ ds3)))), lex1)) ∧
      (∀ fuel msg, lex.Next = .fail msg → parse_json atof (fuel + 1) lex = .fail msg) ∧
      (rest = [] → lex.Next = .ok ⟨⟨[], TOK_EOF⟩, [], 0⟩) ∧
      parse atof 1 ['1', '.', '5', 'e', '-', '1', '0'] =
        .ok (.num (atof ['1', '.', '5', 'e', '-', '1', '0']), ⟨⟨[], TOK_EOF⟩, [], 0⟩) := by
  have hread := read_num_exp ds1 ds2 sg ds3 e h1 h2 he hsg h3 rest hrest
    (fun _ h => absurd h n3)
  have hnext : (Lexer.init (ds1 ++ '.' :: (ds2 ++ e :: (sg ++ (ds3 ++ rest))))).Next =
      .ok ⟨⟨ds1 ++ '.' :: (ds2 ++ e :: (sg ++ ds3)), TOK_NUM⟩, (fgetc rest).2,
        (fgetc rest).1⟩ := by
    rw [Lexer.init, Next_of_putback_zero]
    cases ds1 with
    | nil => exact absurd rfl n1
    | cons d ds =>
      have hd0 : isdigit (code d) = true := h1 d (List.mem_cons_self _ _)
      have := Next_scan_of_read_num d (ds ++ '.' :: (ds2 ++ e :: (sg ++ ds3))) rest hd0
        (by simpa using hread)
      simpa using this
  refine ⟨_, hnext, rfl, ?_, ?_, ?_, rfl⟩
  · intro fuel lex1 hl
    rw [parse_json_num_tok, hl]; rfl
  · intro fuel msg hl
    rw [parse_json_num_tok, hl]; rfl
  · intro hr
    subst hr
    rfl

/-- Witness of C9 on the literal `12.5E+3` in front of `,7`. -/
theorem C9_fraction_exponent_literal_witness :
    ∃ lex, (Lexer.init (['1', '2'] ++ '.' :: (['5'] ++ 'E' :: (['+'] ++ (['3'] ++ [',', '7']))))).Next
        = .ok lex ∧
      lex = ⟨⟨['1', '2', '.', '5', 'E', '+', '3'], TOK_NUM⟩, ['7'], 44⟩ ∧
      parse_json (id : List Char → List Char) 1 lex =
        .ok (.num ['1', '2', '.', '5', 'E', '+', '3'], ⟨⟨[], TOK_COMMA⟩, ['7'], 0⟩) := by
  obtain ⟨lex, h1, h2, h3, -⟩ := C9_fraction_exponent_literal (id : List Char → List Char)
    ['1', '2'] ['5'] ['+'] ['3'] 'E' [',', '7'] (by decide) (by decide) (by decide) (by decide)
    (by decide) (Or.inr rfl) (Or.inr (Or.inl rfl)) (by decide)
  refine ⟨lex, h1, h2, ?_⟩
  have := h3 0 ⟨⟨[], TOK_COMMA⟩, ['7'], 0⟩ (by rw [h2]; rfl)
  exact this

/-- C10 as stated fails: on the input `"a\"b"` the string token has the
payload `a\` and the read position is at `b"`, but `parse_json` does not turn
the token into a String node: its `Match(TOK_STR)` advances to the next token,
and the scan of `b"` ends in the error of `read_bool`. -/
theorem C10_counterexample :
    (Lexer.init ['"', 'a', '\\', '"', 'b', '"']).Next =
        .ok ⟨⟨['a', '\\'], TOK_STR⟩, ['b', '"'], 0⟩ ∧
    parse_json (id : List Char → List Char) 5 ⟨⟨['a', '\\'], TOK_STR⟩, ['b', '"'], 0⟩ =
      .fail "expected bool, got b" :=
  ⟨rfl, rfl⟩

/-- C10, amended: for every text `s` without a quote character and every
remaining input `r`, `Lexer::Next` on quote, `s`, quote, `r` yields the string
token of payload `s`, with the read position at the start of `r` and nothing
pushed back; so the first quote closes the string, also after a backslash.
`parse_json` then advances the lexer by one token: when that advance succeeds
it returns the String node of payload `s`, when it fails `parse_json` fails
with the same error. -/
theorem C10_string_token {D : Type} (atof : List Char → D) (s r : List Char)
    (hs : NoQuote s) :
    (Lexer.init ('"' :: (s ++ '"' :: r))).Next = .ok ⟨⟨s, TOK_STR⟩, r, 0⟩ ∧
    (∀ fuel lex1, Lexer.Next ⟨⟨s, TOK_STR⟩, r, 0⟩ = .ok lex1 →
      parse_json atof (fuel + 1) ⟨⟨s, TOK_STR⟩, r, 0⟩ = .ok (.str s, lex1)) ∧
    (∀ fuel msg, Lexer.Next ⟨⟨s, TOK_STR⟩, r, 0⟩ = .fail msg →
      parse_json atof (fuel + 1) ⟨⟨s, TOK_STR⟩, r, 0⟩ = .fail msg) ∧
    (r = [] → ∀ fuel, parse atof (fuel + 1) ('"' :: (s ++ '"' :: r)) =
      .ok (.str s, ⟨⟨[], TOK_EOF⟩, [], 0⟩)) := by
  have hnext : (Lexer.init ('"' :: (s ++ '"' :: r))).Next = .ok ⟨⟨s, TOK_STR⟩, r, 0⟩ := by
    rw [Lexer.init, Next_of_putback_zero, Next_scan_str s hs r]
  refine ⟨hnext, ?_, ?_, ?_⟩
  · intro fuel lex1 hl
    rw [parse_json_str_tok, hl]; rfl
  · intro fuel msg hl
    rw [parse_json_str_tok, hl]; rfl
  · intro hr fuel
    subst hr
    rw [parse, hnext]
    rfl

/-- Witness of C10 on the payload `a\` in front of `,1`. -/
theorem C10_string_token_witness :
    (Lexer.init ('"' :: (['a', '\\'] ++ '"' :: [',', '1']))).Next =
        .ok ⟨⟨['a', '\\'], TOK_STR⟩, [',', '1'], 0⟩ ∧
    parse_json (id : List Char → List Char) 1 ⟨⟨['a', '\\'], TOK_STR⟩, [',', '1'], 0⟩ =
      .ok (.str ['a', '\\'], ⟨⟨[], TOK_COMMA⟩, ['1'], 0⟩) :=
  ⟨(C10_string_token id ['a', '\\'] [',', '1'] (by decide)).1,
    (C10_string_token id ['a', '\\'] [',', '1'] (by decide)).2.1 0 _ rfl⟩

/-- C11: unterminated strings. For every text `s` without a quote character,
`Lexer::Next` on a quote followed by `s` and the end of the input fails with
`malformed string`; so it does wherever the string starts: behind whitespace,
or with the opening quote in the pushback (directly behind a number or a
keyword), and `Lexer::Next` followed by `parse_json` fails with that error for
every fuel. In particular the input `"unterminated` fails with it, and so does
`[1,"ab`. -/
theorem C11_unterminated_string {D : Type} (atof : List Char → D) (s : List Char)
    (hs : NoQuote s) :
    (Lexer.init ('"' :: s)).Next = .fail "malformed string" ∧
    (∀ (cur : Token) (w : List Char), IsWs w →
      Lexer.Next ⟨cur, w ++ '"' :: s, 0⟩ = .fail "malformed string") ∧
    (∀ cur : Token, Lexer.Next ⟨cur, s, 34⟩ = .fail "malformed string") ∧
    (∀ fuel, parse atof fuel ('"' :: s) = .fail "malformed string") ∧
    (∀ fuel, parse atof fuel
      ['"', 'u', 'n', 't', 'e', 'r', 'm', 'i', 'n', 'a', 't', 'e', 'd'] =
        .fail "malformed string") ∧
    (∀ fuel, parse atof (fuel + 4) ['[', '1', ',', '"', 'a', 'b'] =
      .fail "malformed string") := by
  have hscan : Next_scan ('"' :: s) = .fail "malformed string" := by
    rw [Next_scan_cons]
    have h : Next_body (code '"') s =
        some ((read_str s).bind fun r => .ok ⟨⟨r.1, TOK_STR⟩, r.2, 0⟩) := rfl
    rw [h, read_str, read_str_loop_eof s hs]
    rfl
  have hinit : (Lexer.init ('"' :: s)).Next = .fail "malformed string" := by
    rw [Lexer.init, Next_of_putback_zero, hscan]
  refine ⟨hinit, ?_, ?_, ?_, fun fuel => rfl, fun fuel => rfl⟩
  · intro cur w hw
    rw [Next_of_putback_zero, Next_scan_ws w hw, hscan]
  · intro cur
    have h := Next_of_fgetc cur ('"' :: s)
    rw [hscan] at h
    exact h
  · intro fuel
    rw [parse, hinit]
    rfl

/-- Witness of C11 on the text `a\` and a newline: the backslash does not help. -/
theorem C11_unterminated_string_witness :
    (Lexer.init ('"' :: ['a', '\\', '\n'])).Next = .fail "malformed string" ∧
    parse (id : List Char → List Char) 9 ('"' :: ['a', '\\', '\n']) =
      .fail "malformed string" :=
  ⟨(C11_unterminated_string (id : List Char → List Char) ['a', '\\', '\n'] (by decide)).1,
    (C11_unterminated_string (id : List Char → List Char) ['a', '\\', '\n']
      (by decide)).2.2.2.1 9⟩

/-- C13: not a value start. Whenever the current token is not one on which
`parse_json` builds a value, `parse_json` fails with `unknown token type` and
the number of the type; end-of-input, right-brace, right-bracket, comma and
colon are such tokens. In particular `{"a":}` fails on the right-brace at the
value position, and an empty or whitespace-only input fails on end-of-input. -/
theorem C13_not_a_value_start {D : Type} (atof : List Char → D) (lex : Lexer)
    (h : ¬ ValueStart lex._curr._type) (fuel : Nat) :
    parse_json atof (fuel + 1) lex =
      .fail ("unknown token type: " ++ toString lex._curr._type) ∧
    (¬ ValueStart TOK_EOF ∧ ¬ ValueStart TOK_RBRACE ∧ ¬ ValueStart TOK_RBRACK ∧
      ¬ ValueStart TOK_COMMA ∧ ¬ ValueStart TOK_COLON) ∧
    parse atof (fuel + 4) ['{', '"', 'a', '"', ':', '}'] = .fail "unknown token type: 125" ∧
    (∀ w, IsWs w → parse atof (fuel + 1) w = .fail "unknown token type: -1") := by
  refine ⟨?_, ?_, rfl, ?_⟩
  · simp only [ValueStart, not_or] at h
    obtain ⟨h1, h2, h3, h4, h5, h6⟩ := h
    rw [parse_json]
    simp only [h1, h2, h3, h4, h5, h6, or_self, if_false]
  · simp only [ValueStart, TOK_EOF, EOF, TOK_RBRACE, TOK_RBRACK, TOK_COMMA, TOK_COLON,
      TOK_LBRACE, TOK_LBRACK, TOK_STR, TOK_NUM, TOK_TRUE, TOK_FALSE]
    decide
  · intro w hw
    have h0 := Next_scan_ws w hw []
    rw [List.append_nil] at h0
    rw [parse, Lexer.init, Next_of_putback_zero, h0]
    rfl

/-- Witness of C13 on a lexer whose current token is a colon. -/
theorem C13_not_a_value_start_witness :
    parse_json (id : List Char → List Char) 1 ⟨⟨[], TOK_COLON⟩, ['1'], 0⟩ =
      .fail "unknown token type: 58" :=
  (C13_not_a_value_start id ⟨⟨[], TOK_COLON⟩, ['1'], 0⟩
    (by simp only [ValueStart, TOK_COLON, TOK_LBRACE, TOK_LBRACK, TOK_STR, TOK_NUM,
      TOK_TRUE, TOK_FALSE]; decide) 0).1

/-- C14: object members go through `Match`. In the loop of `parse_json_obj`,
when the current token at a key position is neither end-of-input nor
right-brace nor a string, parsing fails with `expected TOK_STR, got` and the
name of the token; when the key is a string and the token after it is not a
colon, parsing fails with `expected TOK_COLON, got` and the name of that token.
`Match` succeeds only when the type of the current token is the one asked for.
In particular `{1:2}` and `{"a" 1}` fail, both on a number token. -/
theorem C14_object_members_matched {D : Type} (atof : List Char → D) (fuel : Nat)
    (n : List (List Char × json_node D)) (lex : Lexer) :
    (lex._curr._type ≠ TOK_EOF → lex._curr._type ≠ TOK_RBRACE → lex._curr._type ≠ TOK_STR →
      parse_json_obj_loop atof (fuel + 1) n lex =
        .fail ("expected TOK_STR, got " ++ lex._curr.Name)) ∧
    (∀ lex1, lex._curr._type = TOK_STR → lex.Next = .ok lex1 →
      lex1._curr._type ≠ TOK_COLON →
      parse_json_obj_loop atof (fuel + 1) n lex =
        .fail ("expected TOK_COLON, got " ++ lex1._curr.Name)) ∧
    (∀ (l l1 : Lexer) (t : Int), l.Match t = .ok l1 → l._curr._type = t) ∧
    parse atof (fuel + 3) ['{', '1', ':', '2', '}'] = .fail "expected TOK_STR, got TOK_NUM" ∧
    parse atof (fuel + 3) ['{', '"', 'a', '"', ' ', '1', '}'] =
      .fail "expected TOK_COLON, got TOK_NUM" := by
  refine ⟨?_, ?_, ?_, rfl, rfl⟩
  · intro h1 h2 h3
    rw [parse_json_obj_loop]
    simp only [h1, h2, ne_eq, not_false_eq_true, and_self, if_true]
    have hm : lex.Match TOK_STR = .fail ("expected TOK_STR, got " ++ lex._curr.Name) := by
      rw [Lexer.Match]
      have hg : g_tok_names TOK_STR = some "TOK_STR" := rfl
      rw [hg]
      simp only [h3, ne_eq, not_false_eq_true, if_true]
      rfl
    rw [hm]
    rfl
  · intro lex1 h1 hn h2
    have hne1 : lex._curr._type ≠ TOK_EOF := by rw [h1]; decide
    have hne2 : lex._curr._type ≠ TOK_RBRACE := by rw [h1]; decide
    rw [parse_json_obj_loop]
    simp only [hne1, hne2, ne_eq, not_false_eq_true, and_self, if_true]
    have hm : lex.Match TOK_STR = .ok lex1 := by
      rw [Lexer.Match]
      have hg : g_tok_names TOK_STR = some "TOK_STR" := rfl
      rw [hg]
      simp only [h1, ne_eq, not_true_eq_false, if_false]
      exact hn
    have hm1 : lex1.Match TOK_COLON = .fail ("expected TOK_COLON, got " ++ lex1._curr.Name) := by
      rw [Lexer.Match]
      have hg : g_tok_names TOK_COLON = some "TOK_COLON" := rfl
      rw [hg]
      simp only [h2, ne_eq, not_false_eq_true, if_true]
      rfl
    rw [hm]
    simp only [Outcome.bind]
    rw [hm1]
  · intro l l1 t h
    rw [Lexer.Match] at h
    cases hg : g_tok_names t with
    | none => rw [hg] at h; cases h
    | some name =>
      rw [hg] at h
      by_cases ht : l._curr._type = t
      · exact ht
      · simp only [ht, ne_eq, not_false_eq_true, if_true] at h
        cases h

/-- Witness of C14 on the key positions of `{1:2}` and `{"a" 1}`. -/
theorem C14_object_members_matched_witness :
    parse_json_obj_loop (id : List Char → List Char) 1 [] ⟨⟨['1'], TOK_NUM⟩, ['2', '}'], 58⟩ =
      .fail "expected TOK_STR, got TOK_NUM" ∧
    parse_json_obj_loop (id : List Char → List Char) 1 []
        ⟨⟨['a'], TOK_STR⟩, [' ', '1', '}'], 0⟩ =
      .fail "expected TOK_COLON, got TOK_NUM" :=
  ⟨(C14_object_members_matched id 0 [] ⟨⟨['1'], TOK_NUM⟩, ['2', '}'], 58⟩).1
      (by decide) (by decide) (by decide),
    (C14_object_members_matched id 0 [] ⟨⟨['a'], TOK_STR⟩, [' ', '1', '}'], 0⟩).2.1
      ⟨⟨['1'], TOK_NUM⟩, [], 125⟩ rfl rfl (by decide)⟩

/-- C15 as stated fails: in the input `{"a":` the end of the input is reached
while the object is still open, and parsing fails, but with the error of the
value position, `unknown token type: -1`, not with
`expected TOK_RBRACE, got TOK_EOF`. -/
theorem C15_counterexample :
    parse (id : List Char → List Char) 9 ['{', '"', 'a', '"', ':'] =
      .fail "unknown token type: -1" := rfl

/-- C15, amended: containers must be closed. Whenever `parse_json` succeeds
starting on a left-brace (left-bracket), the run is the advance over that
token, the member loop, and `Match` on the right-brace (right-bracket), which
is the current token when the loop of this run returns: the last token
consumed for the container is the matching closing delimiter. The loop of a
container returns only on end-of-input or on the closing delimiter; whenever
it returns on end-of-input, parsing the container fails with
`expected TOK_RBRACE, got TOK_EOF` (`expected TOK_RBRACK, got TOK_EOF`);
end-of-input behind a key fails the loop with
`expected TOK_COLON, got TOK_EOF`, and behind the colon of a key with
`unknown token type: -1`; and an error of the loop is the error of the
container. On inputs: for the elements `vs` of an array and the members `ms`
of an object, the text that ends behind them, or behind a comma after them,
fails with the error of the closing delimiter; the object text that ends
behind a further key `k` fails with the error of the colon, and the one that
ends behind the colon of `k` with `unknown token type: -1`. In particular
`[1,2` and `{"a":1` fail with the first error, `{"a"` with the second and
`{"a":` with the third. -/
theorem C15_containers_closed {X D : Type} (atof : List Char → D) (fmt : X → List Char)
    (fuel : Nat) (lex : Lexer) (vs : List (json_node X))
    (ms : List (List Char × json_node X)) (k : List Char)
    (hwv : json_node.All (Writable fmt) (.arr vs))
    (hwm : json_node.All (Writable fmt) (.obj ms)) (hk : NoQuote k) :
    (∀ v lex1, lex._curr._type = TOK_LBRACE → parse_json atof fuel lex = .ok (v, lex1) →
      ∃ (f : Nat) (lex0 : Lexer) (n : List (List Char × json_node D)) (lexc : Lexer),
        fuel = f + 2 ∧ lex.Next = .ok lex0 ∧
        parse_json_obj_loop atof f [] lex0 = .ok (n, lexc) ∧
        lexc._curr._type = TOK_RBRACE ∧ lexc.Match TOK_RBRACE = .ok lex1 ∧
        lexc.Next = .ok lex1 ∧ v = .obj n) ∧
    (∀ v lex1, lex._curr._type = TOK_LBRACK → parse_json atof fuel lex = .ok (v, lex1) →
      ∃ (f : Nat) (lex0 : Lexer) (n : List (json_node D)) (lexc : Lexer),
        fuel = f + 2 ∧ lex.Next = .ok lex0 ∧
        parse_json_arr_loop atof f [] lex0 = .ok (n, lexc) ∧
        lexc._curr._type = TOK_RBRACK ∧ lexc.Match TOK_RBRACK = .ok lex1 ∧
        lexc.Next = .ok lex1 ∧ v = .arr n) ∧
    (∀ n n1 lexc, parse_json_obj_loop atof fuel n lex = .ok (n1, lexc) →
      lexc._curr._type = TOK_EOF ∨ lexc._curr._type = TOK_RBRACE) ∧
    (∀ n n1 lexc, parse_json_arr_loop atof fuel n lex = .ok (n1, lexc) →
      lexc._curr._type = TOK_EOF ∨ lexc._curr._type = TOK_RBRACK) ∧
    (∀ lex1 n lexc, lex._curr._type = TOK_LBRACE → lex.Next = .ok lex1 →
      parse_json_obj_loop atof fuel [] lex1 = .ok (n, lexc) → lexc._curr._type = TOK_EOF →
      parse_json atof (fuel + 2) lex = .fail "expected TOK_RBRACE, got TOK_EOF") ∧
    (∀ lex1 n lexc, lex._curr._type = TOK_LBRACK → lex.Next = .ok lex1 →
      parse_json_arr_loop atof fuel [] lex1 = .ok (n, lexc) → lexc._curr._type = TOK_EOF →
      parse_json atof (fuel + 2) lex = .fail "expected TOK_RBRACK, got TOK_EOF") ∧
    (∀ n lex1, lex._curr._type = TOK_STR → lex.Next = .ok lex1 →
      lex1._curr._type = TOK_EOF →
      parse_json_obj_loop atof (fuel + 1) n lex = .fail "expected TOK_COLON, got TOK_EOF") ∧
    (∀ n lex1 lex2, lex._curr._type = TOK_STR → lex.Next = .ok lex1 →
      lex1._curr._type = TOK_COLON → lex1.Next = .ok lex2 → lex2._curr._type = TOK_EOF →
      parse_json_obj_loop atof (fuel + 2) n lex = .fail "unknown token type: -1") ∧
    (lex._curr._type = TOK_EOF →
      parse_json atof (fuel + 1) lex = .fail "unknown token type: -1") ∧
    (∀ lex0 msg, lex._curr._type = TOK_LBRACE → lex.Next = .ok lex0 →
      parse_json_obj_loop atof fuel [] lex0 = .fail msg →
      parse_json atof (fuel + 2) lex = .fail msg) ∧
    (∀ lex0 msg, lex._curr._type = TOK_LBRACK → lex.Next = .ok lex0 →
      parse_json_arr_loop atof fuel [] lex0 = .fail msg →
      parse_json atof (fuel + 2) lex = .fail msg) ∧
    (∀ (tr : List Char) (fuel1 : Nat), (tr = [] ∨ (tr = [','] ∧ vs ≠ [])) →
      2 * (serialise_items fmt vs).length + vs.length + 3 ≤ fuel1 →
      parse atof fuel1 ('[' :: (serialise_items fmt vs ++ tr)) =
        .fail "expected TOK_RBRACK, got TOK_EOF") ∧
    (∀ (tr : List Char) (fuel1 : Nat), (tr = [] ∨ (tr = [','] ∧ ms ≠ [])) →
      2 * (serialise_members fmt ms).length + ms.length + 3 ≤ fuel1 →
      parse atof fuel1 ('{' :: (serialise_members fmt ms ++ tr)) =
        .fail "expected TOK_RBRACE, got TOK_EOF") ∧
    (∀ fuel1 : Nat, 2 * (serialise_members fmt ms).length + ms.length + 4 ≤ fuel1 →
      parse atof fuel1
          ('{' :: (serialise_members fmt ms ++ (comma_if ms ++ '"' :: (k ++ ['"'])))) =
        .fail "expected TOK_COLON, got TOK_EOF" ∧
      parse atof fuel1
          ('{' :: (serialise_members fmt ms ++ (comma_if ms ++ '"' :: (k ++ ['"', ':'])))) =
        .fail "unknown token type: -1") ∧
    parse atof (fuel + 5) ['[', '1', ',', '2'] = .fail "expected TOK_RBRACK, got TOK_EOF" ∧
    parse atof (fuel + 4) ['{', '"', 'a', '"', ':', '1'] =
      .fail "expected TOK_RBRACE, got TOK_EOF" ∧
    parse atof (fuel + 3) ['{', '"', 'a', '"'] = .fail "expected TOK_COLON, got TOK_EOF" ∧
    parse atof (fuel + 4) ['{', '"', 'a', '"', ':'] = .fail "unknown token type: -1" := by
  rw [json_node.All, All_items_iff] at hwv
  rw [json_node.All, All_members_iff] at hwm
  have hv : ∀ v ∈ vs, ParsesTo atof (serialise fmt v) (denote (fun x => atof (fmt x)) v) :=
    fun v hv => ParsesTo_serialise atof fmt v (hwv.2 v hv)
  have hm : ∀ p ∈ ms, ParsesTo atof (serialise fmt p.2) (denote (fun x => atof (fmt x)) p.2) :=
    fun p hp => ParsesTo_serialise atof fmt p.2 (hwm.2 p hp)
  refine ⟨?_, ?_, ?_, ?_, ?_, ?_, ?_, ?_, ?_, ?_, ?_, ?_, ?_, ?_, rfl, rfl, rfl, rfl⟩
  · intro v lex1 ht h
    exact parse_json_lbrace_closed atof fuel lex v lex1 ht h
  · intro v lex1 ht h
    exact parse_json_lbrack_closed atof fuel lex v lex1 ht h
  · intro n n1 lexc h
    exact parse_json_obj_loop_exit atof fuel n lex n1 lexc h
  · intro n n1 lexc h
    exact parse_json_arr_loop_exit atof fuel n lex n1 lexc h
  · intro lex1 n lexc ht hn hl he
    obtain ⟨⟨l, t⟩, fp, pb⟩ := lex
    simp only at ht
    subst ht
    rw [parse_json_lbrace_tok, hn]
    simp only [Outcome.bind]
    rw [hl]
    simp only []
    rw [Match_fail lexc TOK_RBRACE "TOK_RBRACE" rfl (by rw [he]; decide)]
    simp only [Token.Name, he]
    rfl
  · intro lex1 n lexc ht hn hl he
    obtain ⟨⟨l, t⟩, fp, pb⟩ := lex
    simp only at ht
    subst ht
    rw [parse_json_lbrack_tok, hn]
    simp only [Outcome.bind]
    rw [hl]
    simp only []
    rw [Match_fail lexc TOK_RBRACK "TOK_RBRACK" rfl (by rw [he]; decide)]
    simp only [Token.Name, he]
    rfl
  · intro n lex1 ht hn he
    exact parse_json_obj_loop_eof_colon atof fuel n lex lex1 ht hn he
  · intro n lex1 lex2 ht hn hc hn1 he
    exact parse_json_obj_loop_eof_value atof fuel n lex lex1 lex2 ht hn hc hn1 he
  · intro he
    exact parse_json_eof_fail atof fuel lex he
  · intro lex0 msg ht hn h
    exact parse_json_obj_loop_fail atof fuel lex lex0 msg ht hn h
  · intro lex0 msg ht hn h
    exact parse_json_arr_loop_fail atof fuel lex lex0 msg ht hn h
  · intro tr fuel1 htr hf
    exact parse_arr_truncated atof fmt _ vs hv tr htr fuel1 hf
  · intro tr fuel1 htr hf
    exact parse_obj_truncated atof fmt _ ms hwm.1 hm tr htr fuel1 hf
  · intro fuel1 hf
    exact parse_obj_truncated_member atof fmt _ ms hwm.1 hm k hk fuel1 hf

/-- Witness of C15: the run on `[1]` from the left-bracket, which succeeds and
ends with `Match` on the right-bracket; the loop on `[1,2`, which returns on
end-of-input; and the texts `[1,2`, `{"a":1`, `{"a":1,"b"` and `{"a":1,"b":`. -/
theorem C15_containers_closed_witness :
    (parse_json (id : List Char → List Char) 5 ⟨⟨[], TOK_LBRACK⟩, ['1', ']'], 0⟩ =
        .ok (.arr [.num ['1']], ⟨⟨[], TOK_EOF⟩, [], 0⟩) ∧
      ∃ (f : Nat) (lex0 : Lexer) (n : List (json_node (List Char))) (lexc : Lexer),
        5 = f + 2 ∧ Lexer.Next ⟨⟨[], TOK_LBRACK⟩, ['1', ']'], 0⟩ = .ok lex0 ∧
        parse_json_arr_loop (id : List Char → List Char) f [] lex0 = .ok (n, lexc) ∧
        lexc._curr._type = TOK_RBRACK ∧
        lexc.Match TOK_RBRACK = .ok ⟨⟨[], TOK_EOF⟩, [], 0⟩ ∧
        lexc.Next = .ok ⟨⟨[], TOK_EOF⟩, [], 0⟩ ∧
        (.arr [.num ['1']] : json_node (List Char)) = .arr n) ∧
    parse_json (id : List Char → List Char) 5 ⟨⟨[], TOK_LBRACK⟩, ['1', ',', '2'], 0⟩ =
      .fail "expected TOK_RBRACK, got TOK_EOF" ∧
    parse (id : List Char → List Char) 40
        ('[' :: (serialise_items id [.num ['1'], .num ['2']] ++ [])) =
      .fail "expected TOK_RBRACK, got TOK_EOF" ∧
    parse (id : List Char → List Char) 40
        ('{' :: (serialise_members id [(['a'], .num ['1'])] ++ [])) =
      .fail "expected TOK_RBRACE, got TOK_EOF" ∧
    parse (id : List Char → List Char) 40
        ('{' :: (serialise_members id [(['a'], .num ['1'])] ++
          (comma_if [(['a'], (.num ['1'] : json_node (List Char)))] ++
            '"' :: (['b'] ++ ['"'])))) =
      .fail "expected TOK_COLON, got TOK_EOF" ∧
    parse (id : List Char → List Char) 40
        ('{' :: (serialise_members id [(['a'], .num ['1'])] ++
          (comma_if [(['a'], (.num ['1'] : json_node (List Char)))] ++
            '"' :: (['b'] ++ ['"', ':'])))) =
      .fail "unknown token type: -1" := by
  have h1 : NumLit (id ['1']) := ⟨['1'], [], rfl, by decide, by decide, Or.inl rfl⟩
  have h2 : NumLit (id ['2']) := ⟨['2'], [], rfl, by decide, by decide, Or.inl rfl⟩
  have hwv : json_node.All (Writable (id : List Char → List Char))
      (.arr [.num ['1'], .num ['2']]) := by
    simp only [json_node.All, json_node.All_items, Writable]
    exact ⟨trivial, h1, h2, trivial⟩
  have hwm : json_node.All (Writable (id : List Char → List Char))
      (.obj [(['a'], .num ['1'])]) := by
    simp only [json_node.All, json_node.All_members, Writable]
    exact ⟨by decide, h1, trivial⟩
  have ha := C15_containers_closed (id : List Char → List Char) id 5
    ⟨⟨[], TOK_LBRACK⟩, ['1', ']'], 0⟩ [.num ['1'], .num ['2']] [(['a'], .num ['1'])] ['b']
    hwv hwm (by decide)
  have hb := C15_containers_closed (id : List Char → List Char) id 3
    ⟨⟨[], TOK_LBRACK⟩, ['1', ',', '2'], 0⟩ [.num ['1'], .num ['2']] [(['a'], .num ['1'])] ['b']
    hwv hwm (by decide)
  exact ⟨⟨rfl, ha.2.1 _ _ rfl rfl⟩,
    hb.2.2.2.2.2.1 ⟨⟨['1'], TOK_NUM⟩, ['2'], 44⟩ [.num ['1'], .num ['2']]
      ⟨⟨[], TOK_EOF⟩, [], 0⟩ rfl rfl rfl rfl,
    ha.2.2.2.2.2.2.2.2.2.2.2.1 [] 40 (Or.inl rfl) (by decide),
    ha.2.2.2.2.2.2.2.2.2.2.2.2.1 [] 40 (Or.inl rfl) (by decide),
    (ha.2.2.2.2.2.2.2.2.2.2.2.2.2.1 40 (by decide)).1,
    (ha.2.2.2.2.2.2.2.2.2.2.2.2.2.1 40 (by decide)).2⟩

/-- C16: whitespace is insignificant. For every run `ws` of whitespace
characters and every input `s`, `Next` on `ws ++ s` with an empty putback
buffer gives what `Next` on `s` gives: the same token and the same remaining
input, or the same error. Hence, when `s1` is `s` with whitespace inserted in
front of tokens of `s` or behind the last one, parsing `s1` gives the value
that parsing `s` gives, with the same current token left, or the same error,
on every fuel. And `[ 1 , 2 ]` parses to the Array that `[1,2]` parses to. -/
theorem C16_whitespace_insignificant {D : Type} (atof : List Char → D) :
    (∀ (cur cur1 : Token) (ws s : List Char), IsWs ws →
      Lexer.Next ⟨cur, ws ++ s, 0⟩ = Lexer.Next ⟨cur1, s, 0⟩) ∧
    (∀ (s s1 : List Char) (fuel : Nat), WsInserted s s1 →
      Outcome.Rel (fun a b => a.1 = b.1 ∧ a.2._curr = b.2._curr)
        (parse atof fuel s) (parse atof fuel s1)) ∧
    parse id 9 ['[', ' ', '1', ' ', ',', ' ', '2', ' ', ']'] =
      parse id 9 ['[', '1', ',', '2', ']'] ∧
    parse id 9 ['[', '1', ',', '2', ']'] =
      .ok (.arr [.num ['1'], .num ['2']], ⟨⟨[], TOK_EOF⟩, [], 0⟩) := by
  refine ⟨?_, ?_, rfl, rfl⟩
  · intro cur cur1 ws s hws
    rw [Next_of_putback_zero, Next_of_putback_zero, Next_scan_ws ws hws]
  · intro s s1 fuel h
    exact parse_WsInserted atof s s1 h fuel

/-- Witness of C16 on `[1,2]` and `[ 1 , 2 ]`, and on `1]` behind a space and a
newline. -/
theorem C16_whitespace_insignificant_witness :
    (IsWs [' ', '\n'] ∧
      Lexer.Next ⟨⟨[], TOK_EOF⟩, [' ', '\n'] ++ ['1', ']'], 0⟩ =
        Lexer.Next ⟨⟨[], TOK_COMMA⟩, ['1', ']'], 0⟩) ∧
    (WsInserted ['[', '1', ',', '2', ']'] ['[', ' ', '1', ' ', ',', ' ', '2', ' ', ']'] ∧
      Outcome.Rel (fun a b => a.1 = b.1 ∧ a.2._curr = b.2._curr)
        (parse id 9 ['[', '1', ',', '2', ']'])
        (parse id 9 ['[', ' ', '1', ' ', ',', ' ', '2', ' ', ']'])) :=
  have hins : WsInserted ['[', '1', ',', '2', ']']
      ['[', ' ', '1', ' ', ',', ' ', '2', ' ', ']'] :=
    WsInserted.token [] ['['] ['1', ',', '2', ']'] [' ', '1', ' ', ',', ' ', '2', ' ', ']']
      ⟨⟨[], TOK_LBRACK⟩, ['1', ',', '2', ']'], 0⟩ IsWs_nil rfl (Or.inl ⟨rfl, rfl⟩)
      (WsInserted.token [' '] ['1'] [',', '2', ']'] [' ', ',', ' ', '2', ' ', ']']
        ⟨⟨['1'], TOK_NUM⟩, ['2', ']'], 44⟩ (by decide) rfl (Or.inr ⟨by decide, rfl⟩)
        (WsInserted.token [' '] [','] ['2', ']'] [' ', '2', ' ', ']']
          ⟨⟨[], TOK_COMMA⟩, ['2', ']'], 0⟩ (by decide) rfl (Or.inl ⟨rfl, rfl⟩)
          (WsInserted.token [' '] ['2'] [']'] [' ', ']']
            ⟨⟨['2'], TOK_NUM⟩, [], 93⟩ (by decide) rfl (Or.inr ⟨by decide, rfl⟩)
            (WsInserted.front [' '] [']'] (by decide)))))
  ⟨⟨by decide, (C16_whitespace_insignificant id).1 _ _ _ _ (by decide)⟩,
    hins, (C16_whitespace_insignificant id).2.1 _ _ 9 hins⟩

/-- C17: the pushback loses nothing. For a number literal `t`, whose scan
stops at the character `c` (`Next` on `t`, `c`, `rest` yields the number token
`t` with `c` pushed back), the tokens of `n` calls of `Next` on `t c rest` are
the tokens of `n` calls on `t`, a space, `c`, `rest`, for every `n`; so they
are when the scan of `t` stops at the end of the input. The same holds for a
word `w` of letters in front of a character that is no letter, or of the end
of the input, errors included. And `1,2` lexes as number, comma, number, and
`true]` as `TOK_TRUE`, right-bracket. -/
theorem C17_pushback_loses_nothing :
    (∀ (d c : Char) (t0 rest : List Char) (n : Nat), isdigit (code d) = true →
      (Lexer.init (d :: t0 ++ c :: rest)).Next = .ok ⟨⟨d :: t0, TOK_NUM⟩, rest, code c⟩ →
      (Lexer.init (d :: t0 ++ c :: rest)).tokens n =
        (Lexer.init (d :: t0 ++ ' ' :: c :: rest)).tokens n) ∧
    (∀ (d : Char) (t0 : List Char) (n : Nat), isdigit (code d) = true →
      (Lexer.init (d :: t0)).Next = .ok ⟨⟨d :: t0, TOK_NUM⟩, [], EOF⟩ →
      (Lexer.init (d :: t0)).tokens n = (Lexer.init (d :: t0 ++ [' '])).tokens n) ∧
    (∀ (w : List Char) (c : Char) (rest : List Char) (n : Nat),
      (∀ ch ∈ w, isalpha (code ch) = true) → w ≠ [] → isalpha (code c) = false →
      (Lexer.init (w ++ c :: rest)).tokens n = (Lexer.init (w ++ ' ' :: c :: rest)).tokens n) ∧
    (∀ (w : List Char) (n : Nat), (∀ ch ∈ w, isalpha (code ch) = true) → w ≠ [] →
      (Lexer.init w).tokens n = (Lexer.init (w ++ [' '])).tokens n) ∧
    (Lexer.init ['1', ',', '2']).tokens 3 =
      .ok [⟨['1'], TOK_NUM⟩, ⟨[], TOK_COMMA⟩, ⟨['2'], TOK_NUM⟩] ∧
    (Lexer.init ['t', 'r', 'u', 'e', ']']).tokens 2 = .ok [⟨[], TOK_TRUE⟩, ⟨[], TOK_RBRACK⟩] := by
  refine ⟨?_, ?_, ?_, ?_, rfl, rfl⟩
  · intro d c t0 rest n hd hscan
    rw [Lexer.init, Next_of_putback_zero] at hscan
    exact tokens_number_space d t0 (c :: rest) hd hscan n
  · intro d t0 n hd hscan
    rw [Lexer.init, Next_of_putback_zero] at hscan
    have h := tokens_number_space d t0 [] hd (by rw [List.append_nil]; exact hscan) n
    rw [List.append_nil] at h
    exact h
  · intro w c rest n hw hne hc
    exact tokens_word_space w (c :: rest) hw hne hc n
  · intro w n hw hne
    have h := tokens_word_space w [] hw hne rfl n
    rw [List.append_nil] at h
    exact h

/-- Witness of C17 on `12x,` and `12 x,`: the number, then the error of the
word `x`, in both. -/
theorem C17_pushback_loses_nothing_witness :
    (Lexer.init ('1' :: ['2'] ++ 'x' :: [','])).tokens 2 =
      (Lexer.init ('1' :: ['2'] ++ ' ' :: 'x' :: [','])).tokens 2 :=
  C17_pushback_loses_nothing.1 '1' 'x' ['2'] [','] 2 (by decide) rfl

/-- C18: termination. `Next` always ends, with a token or with an error; at
the end of the input it yields the token `TOK_EOF`; and each `Next` that
yields a token leaves a shorter text to read, or has reached the end of the
input. The run of `main`, `Next` followed by `parse_json`, ends with a value or
with an error on every fuel of at least three times the length of the input
and four more, and with the same one on each such fuel. This is so because a
value production that succeeds lowers the rank of the lexer (the length of the
text left, and one more while the current token is not `TOK_EOF`), an
iteration of the array loop or of the object loop that succeeds lowers it, and
both loops stop when the current token is `TOK_EOF`. -/
theorem C18_termination {D : Type} (atof : List Char → D) :
    (∀ l : Lexer, (∃ l1, l.Next = .ok l1) ∨ (∃ msg, l.Next = .fail msg)) ∧
    (∀ cur : Token, Lexer.Next ⟨cur, [], 0⟩ = .ok ⟨⟨[], TOK_EOF⟩, [], 0⟩) ∧
    (∀ input : List Char, (Lexer.init input).At input) ∧
    (∀ (l l1 : Lexer) (r : List Char), l.At r → l.Next = .ok l1 →
      ∃ r1, l1.At r1 ∧ (r1.length < r.length ∨ (r1 = [] ∧ l1._curr._type = TOK_EOF))) ∧
    (∀ (input : List Char) (fuel : Nat), 3 * input.length + 4 ≤ fuel →
      ((∃ v l, parse atof fuel input = .ok (v, l)) ∨ (∃ msg, parse atof fuel input = .fail msg)) ∧
      parse atof fuel input = parse atof (3 * input.length + 4) input) ∧
    (∀ (fuel : Nat) (l : Lexer) (r : List Char) (v : json_node D) (l1 : Lexer), l.At r →
      parse_json atof fuel l = .ok (v, l1) → ∃ r1, l1.At r1 ∧ l1.rank r1 < l.rank r) ∧
    (∀ (fuel : Nat) (l : Lexer) (r : List Char) (v : json_node D) (l1 l2 : Lexer), l.At r →
      parse_json atof fuel l = .ok (v, l1) →
      (if l1._curr._type = TOK_COMMA then l1.Match TOK_COMMA else .ok l1) = .ok l2 →
      ∃ r2, l2.At r2 ∧ l2.rank r2 < l.rank r) ∧
    (∀ (fuel : Nat) (l : Lexer) (r : List Char) (v : json_node D) (l1 l2 l3 l4 : Lexer), l.At r →
      l.Match TOK_STR = .ok l1 → l1.Match TOK_COLON = .ok l2 →
      parse_json atof fuel l2 = .ok (v, l3) →
      (if l3._curr._type = TOK_COMMA then l3.Match TOK_COMMA else .ok l3) = .ok l4 →
      ∃ r4, l4.At r4 ∧ l4.rank r4 < l.rank r) ∧
    (∀ (fuel : Nat) (n : List (json_node D)) (l : Lexer), l._curr._type = TOK_EOF →
      parse_json_arr_loop atof (fuel + 1) n l = .ok (n, l)) ∧
    (∀ (fuel : Nat) (n : List (List Char × json_node D)) (l : Lexer),
      l._curr._type = TOK_EOF → parse_json_obj_loop atof (fuel + 1) n l = .ok (n, l)) := by
  refine ⟨?_, ?_, At_init, Next_progress, ?_, ?_, ?_, ?_, ?_, ?_⟩
  · intro l
    have h := Next_ne_outOfFuel l
    cases hn : l.Next with
    | ok l1 => exact Or.inl ⟨l1, rfl⟩
    | fail msg => exact Or.inr ⟨msg, rfl⟩
    | outOfFuel => exact absurd hn h
  · intro cur
    rfl
  · intro input fuel hf
    have h := parse_terminates atof input fuel hf
    refine ⟨?_, ?_⟩
    · cases hp : parse atof fuel input with
      | ok p => exact Or.inl ⟨p.1, p.2, rfl⟩
      | fail msg => exact Or.inr ⟨msg, rfl⟩
      | outOfFuel => exact absurd hp h
    · have h0 := parse_terminates atof input (3 * input.length + 4) (Nat.le_refl _)
      have h1 := parse_fuel_mono atof input (3 * input.length + 4) h0
        (fuel - (3 * input.length + 4))
      rw [Nat.add_sub_cancel' hf] at h1
      exact h1
  · intro fuel l r v l1 hat h
    exact (parser_progress atof fuel).1 l r v l1 hat h
  · intro fuel l r v l1 l2 hat h hc
    obtain ⟨r1, h1, h2⟩ := (parser_progress atof fuel).1 l r v l1 hat h
    obtain ⟨r2, h3, h4⟩ := rank_comma_step l1 l2 r1 h1 hc
    exact ⟨r2, h3, Nat.lt_of_le_of_lt h4 h2⟩
  · intro fuel l r v l1 l2 l3 l4 hat hs hcol h hc
    obtain ⟨r1, h1, h2⟩ := rank_Match l l1 r TOK_STR hat (by decide) hs
    obtain ⟨r2, h3, h4⟩ := rank_Match l1 l2 r1 TOK_COLON h1 (by decide) hcol
    obtain ⟨r3, h5, h6⟩ := (parser_progress atof fuel).1 l2 r2 v l3 h3 h
    obtain ⟨r4, h7, h8⟩ := rank_comma_step l3 l4 r3 h5 hc
    exact ⟨r4, h7, by omega⟩
  · intro fuel n l he
    rw [parse_json_arr_loop, if_neg (fun hc => hc.1 he)]
  · intro fuel n l he
    rw [parse_json_obj_loop, if_neg (fun hc => hc.1 he)]

/-- Witness of C18 on the input `[1,2]`, of length 5, and the fuel 19. -/
theorem C18_termination_witness :
    3 * ['[', '1', ',', '2', ']'].length + 4 ≤ 19 ∧
    (((∃ v l, parse id 19 ['[', '1', ',', '2', ']'] = .ok (v, l)) ∨
        (∃ msg, parse id 19 ['[', '1', ',', '2', ']'] = .fail msg)) ∧
      parse id 19 ['[', '1', ',', '2', ']'] =
        parse id (3 * ['[', '1', ',', '2', ']'].length + 4) ['[', '1', ',', '2', ']']) :=
  ⟨by decide, (C18_termination id).2.2.2.2.1 ['[', '1', ',', '2', ']'] 19 (by decide)⟩

/-- C19: commas are optional. For the values `vs` of an array and the members
`ms` of an object, written with any separator `g` between them that is not
empty and is whitespace with or without one comma in it, the array text
parses, with fuel of at least twice its length, to the Array of the values in
order, and the object text to the Object of the members: the same for a space
as for a comma, and the text with commas is the text of the tree. But behind
a value or a member, two commas are rejected: the array text fails with
`unknown token type: 44`, the object text with
`expected TOK_STR, got TOK_COMMA`. And `[1 2]` parses to the Array of two
elements that `[1,2]` parses to, while `[1,,2]` fails. -/
theorem C19_commas_optional {X D : Type} (atof : List Char → D) (fmt : X → List Char)
    (vs : List (json_node X)) (ms : List (List Char × json_node X))
    (hwv : json_node.All (Writable fmt) (.arr vs))
    (hwm : json_node.All (Writable fmt) (.obj ms)) :
    (∀ (g : List Char) (fuel : Nat), Sep g → g ≠ [] →
      2 * ('[' :: (items_sep fmt g vs ++ [']'])).length ≤ fuel →
      parse atof fuel ('[' :: (items_sep fmt g vs ++ [']'])) =
        .ok (.arr (denote_items (fun x => atof (fmt x)) vs), ⟨⟨[], TOK_EOF⟩, [], 0⟩)) ∧
    (∀ (g : List Char) (fuel : Nat), Sep g → g ≠ [] →
      2 * ('{' :: (members_sep fmt g ms ++ ['}'])).length ≤ fuel →
      parse atof fuel ('{' :: (members_sep fmt g ms ++ ['}'])) =
        .ok (.obj (obj_set_all [] (denote_members (fun x => atof (fmt x)) ms)),
          ⟨⟨[], TOK_EOF⟩, [], 0⟩)) ∧
    (Sep [' '] ∧ Sep [','] ∧ items_sep fmt [','] vs = serialise_items fmt vs ∧
      members_sep fmt [','] ms = serialise_members fmt ms) ∧
    (vs ≠ [] → ∀ (rest : List Char) (fuel : Nat),
      2 * (serialise_items fmt vs).length + 5 ≤ fuel →
      parse atof fuel ('[' :: (serialise_items fmt vs ++ ',' :: ',' :: rest)) =
        .fail "unknown token type: 44") ∧
    (ms ≠ [] → ∀ (rest : List Char) (fuel : Nat),
      2 * (serialise_members fmt ms).length + 5 ≤ fuel →
      parse atof fuel ('{' :: (serialise_members fmt ms ++ ',' :: ',' :: rest)) =
        .fail "expected TOK_STR, got TOK_COMMA") ∧
    parse id 9 ['[', '1', ' ', '2', ']'] = parse id 9 ['[', '1', ',', '2', ']'] ∧
    parse id 9 ['[', '1', ' ', '2', ']'] =
      .ok (.arr [.num ['1'], .num ['2']], ⟨⟨[], TOK_EOF⟩, [], 0⟩) ∧
    parse id 9 ['[', '1', ',', ',', '2', ']'] = .fail "unknown token type: 44" := by
  rw [json_node.All, All_items_iff] at hwv
  rw [json_node.All, All_members_iff] at hwm
  have hv : ∀ v ∈ vs, ParsesTo atof (serialise fmt v) (denote (fun x => atof (fmt x)) v) :=
    fun v hv => ParsesTo_serialise atof fmt v (hwv.2 v hv)
  have hm : ∀ p ∈ ms, ParsesTo atof (serialise fmt p.2) (denote (fun x => atof (fmt x)) p.2) :=
    fun p hp => ParsesTo_serialise atof fmt p.2 (hwm.2 p hp)
  refine ⟨?_, ?_, ⟨Or.inr (by decide), Sep_comma, items_sep_comma fmt vs,
    members_sep_comma fmt ms⟩, ?_, ?_, rfl, rfl, rfl⟩
  · intro g fuel hg hne hfuel
    have hb := ArrBody_items_sep atof fmt _ g hg hne vs hv
    exact parse_of_ParsesTo atof _ _ (ParsesTo_arr atof _ _ hb) fuel hfuel
  · intro g fuel hg hne hfuel
    have hb := ObjBody_members_sep atof fmt _ g hg hne ms hwm.1 hm
    exact parse_of_ParsesTo atof _ _ (ParsesTo_obj atof _ _ hb) fuel hfuel
  · intro hne rest fuel hfuel
    exact parse_arr_two_commas atof fmt _ vs hv hne rest fuel hfuel
  · intro hne rest fuel hfuel
    exact parse_obj_two_commas atof fmt _ ms hwm.1 hm hne rest fuel hfuel

/-- Witness of C19 on the elements of `[1 true]` and the members of
`{"a":1 "b":true}`, a space between them, and on two commas behind them. -/
theorem C19_commas_optional_witness :
    (parse id 40 ('[' :: (items_sep id [' '] [.num ['1'], .bool true] ++ [']'])) =
        .ok (.arr [.num ['1'], .bool true], ⟨⟨[], TOK_EOF⟩, [], 0⟩) ∧
      parse id 40 ('[' :: (items_sep id [','] [.num ['1'], .bool true] ++ [']'])) =
        .ok (.arr [.num ['1'], .bool true], ⟨⟨[], TOK_EOF⟩, [], 0⟩)) ∧
    parse id 40 ('{' :: (members_sep id [' '] [(['a'], .num ['1']), (['b'], .bool true)] ++
        ['}'])) =
      .ok (.obj [(['a'], .num ['1']), (['b'], .bool true)], ⟨⟨[], TOK_EOF⟩, [], 0⟩) ∧
    parse id 40 ('[' :: (serialise_items id [.num ['1'], .bool true] ++
        ',' :: ',' :: ['2', ']'])) = .fail "unknown token type: 44" ∧
    parse id 40 ('{' :: (serialise_members id [(['a'], .num ['1']), (['b'], .bool true)] ++
        ',' :: ',' :: ['}'])) = .fail "expected TOK_STR, got TOK_COMMA" := by
  have h1 : NumLit (id ['1']) := ⟨['1'], [], rfl, by decide, by decide, Or.inl rfl⟩
  have hwv : json_node.All (Writable (id : List Char → List Char))
      (.arr [.num ['1'], .bool true]) := by
    simp only [json_node.All, json_node.All_items, Writable]
    exact ⟨trivial, h1, trivial, trivial⟩
  have hwm : json_node.All (Writable (id : List Char → List Char))
      (.obj [(['a'], .num ['1']), (['b'], .bool true)]) := by
    simp only [json_node.All, json_node.All_members, Writable]
    exact ⟨by decide, h1, trivial, trivial⟩
  have h := C19_commas_optional id id [.num ['1'], .bool true]
    [(['a'], .num ['1']), (['b'], .bool true)] hwv hwm
  exact ⟨⟨h.1 [' '] 40 (Or.inr (by decide)) (by simp) (by decide),
      h.1 [','] 40 Sep_comma (by simp) (by decide)⟩,
    h.2.1 [' '] 40 (Or.inr (by decide)) (by simp) (by decide),
    h.2.2.2.1 (by simp) ['2', ']'] 40 (by decide),
    h.2.2.2.2.1 (by simp) ['}'] 40 (by decide)⟩

/-- C20: one token past the value. Whenever the run of `main` on `s`, `Next`
followed by `parse_json`, ends with the value `v`, the run on `s` followed by
a text that starts with one of the characters `{ } [ ] , :` ends with `v` too,
on the same fuel; the lexer is then left at the same token and the same
place, or, when the first run ended on `TOK_EOF`, at the character appended
as the current token with the text behind it unread. For the text of a
writable tree in front of a text `rest` that may follow a value, the run gives
the tree and leaves the lexer as one `Next` on `rest` leaves it: the current
token is the first token of `rest`. And `1 }` parses to Number 1 and `[] ]` to
the empty Array, both with the closing character as the current token, and
`1 }x` parses to Number 1 with `x` unread. -/
theorem C20_one_token_past_the_value {X D : Type} (atof : List Char → D)
    (fmt : X → List Char) :
    (∀ (fuel : Nat) (s : List Char) (v : json_node D) (lex : Lexer) (c0 : Char)
      (r0 : List Char), structural (code c0) → parse atof fuel s = .ok (v, lex) →
      ∃ lex1, parse atof fuel (s ++ c0 :: r0) = .ok (v, lex1) ∧
        (AppRel (c0 :: r0) lex lex1 ∨
          (lex._curr._type = TOK_EOF ∧ lex1 = ⟨⟨[], code c0⟩, r0, 0⟩))) ∧
    (∀ (t : json_node X) (rest : List Char) (fuel : Nat), json_node.All (Writable fmt) t →
      Follow rest → 2 * (serialise fmt t).length ≤ fuel →
      parse atof fuel (serialise fmt t ++ rest) =
        (Next_scan rest).bind fun l => .ok (denote (fun x => atof (fmt x)) t, l)) ∧
    parse id 9 ['1', ' ', '}'] = .ok (.num ['1'], ⟨⟨[], TOK_RBRACE⟩, [], 0⟩) ∧
    parse id 9 ['[', ']', ' ', ']'] = .ok (.arr [], ⟨⟨[], TOK_RBRACK⟩, [], 0⟩) ∧
    parse id 9 ['1', ' ', '}', 'x'] = .ok (.num ['1'], ⟨⟨[], TOK_RBRACE⟩, ['x'], 0⟩) := by
  refine ⟨?_, ?_, rfl, rfl, rfl⟩
  · intro fuel s v lex c0 r0 hs h
    obtain ⟨q, h1, h2, h3⟩ := parse_append_structural atof fuel s c0 r0 hs (v, lex) h
    refine ⟨q.2, ?_, h3⟩
    rw [h1]
    show Outcome.ok (q.1, q.2) = Outcome.ok (v, q.2)
    rw [← h2]
  · intro t rest fuel hw hr hf
    exact parse_of_ParsesTo_rest atof _ _ (ParsesTo_serialise atof fmt t hw) rest hr fuel hf

/-- Witness of C20 on the input `1` and the text `}` behind it. -/
theorem C20_one_token_past_the_value_witness :
    structural (code '}') ∧
    parse id 9 ['1'] = .ok (.num ['1'], ⟨⟨[], TOK_EOF⟩, [], 0⟩) ∧
    ∃ lex1, parse id 9 (['1'] ++ '}' :: []) = .ok (.num ['1'], lex1) ∧
      (AppRel ('}' :: []) ⟨⟨[], TOK_EOF⟩, [], 0⟩ lex1 ∨
        ((⟨⟨[], TOK_EOF⟩, [], 0⟩ : Lexer)._curr._type = TOK_EOF ∧
          lex1 = ⟨⟨[], code '}'⟩, [], 0⟩)) :=
  ⟨Or.inr (Or.inl rfl), rfl,
    (C20_one_token_past_the_value id (id : List Char → List Char)).1 9 ['1'] (.num ['1'])
      ⟨⟨[], TOK_EOF⟩, [], 0⟩ '}' [] (Or.inr (Or.inl rfl)) rfl⟩

end JsonParser
